import Mathlib

/-!
Arbitrary-precision calculator: the arithmetic engine.

A shallow embedding of `internal/arithmetic.go` and `internal/advance_operations.go`.

* An `ArbitraryInt` is the Go struct: `digits []uint32` (least significant limb first, radix
  `10^9`) and `negative bool`.  Limbs are natural numbers; every `uint32`/`uint64` operation
  that can wrap is written with an explicit reduction modulo `2^32` / `2^64`.
* `Add` and `Subtract` write to the `negative` field of their operands through the pointers
  they receive, so they are embedded over an explicit heap of objects addressed by pointers;
  two pointers may be equal (aliasing).
* Functions that only read their operands are embedded as functions on values.
-/

namespace APCalc

/-! ## Data model -/

/-- The struct `ArbitraryInt`. -/
structure ArbitraryInt where
  digits : List Nat
  negative : Bool
deriving DecidableEq, Repr, Inhabited

/-- The limb radix `1_000_000_000` (`digitBase`, `base`). -/
def digitBase : Nat := 1000000000

/-- Wrap-around of `uint32` arithmetic. -/
def two32 : Nat := 4294967296

/-- Wrap-around of `uint64` arithmetic. -/
def two64 : Nat := 18446744073709551616

/-- The `uint32` sum `x + y`. -/
def add32 (x y : Nat) : Nat := (x + y) % two32

/-- The `uint32` difference `x - y`. -/
def sub32 (x y : Nat) : Nat := (x % two32 + two32 - y % two32) % two32

/-- The natural number a limb sequence denotes: `sum of digits[i] * 10^(9 i)`. -/
def magnitude (ds : List Nat) : Nat := Nat.ofDigits digitBase ds

/-- The signed integer a value denotes. -/
def value (x : ArbitraryInt) : Int :=
  if x.negative then -(magnitude x.digits : Int) else (magnitude x.digits : Int)

/-- The most significant limb is not zero, except for the single limb `0`. -/
def Normalized (ds : List Nat) : Prop := 1 < ds.length → ds.getLast? ≠ some 0

/-- Every limb lies in `[0, 10^9)`. -/
def LimbsOk (ds : List Nat) : Prop := ∀ d ∈ ds, d < digitBase

/-- A valid value: non-empty digits, limbs below `10^9`, no most-significant zero limb except
for the single limb `0`, and zero has sign flag `false`. -/
def Valid (x : ArbitraryInt) : Prop :=
  x.digits ≠ [] ∧ LimbsOk x.digits ∧ Normalized x.digits ∧ (x.digits = [0] → x.negative = false)

instance (ds : List Nat) : Decidable (Normalized ds) := by unfold Normalized; infer_instance

instance (ds : List Nat) : Decidable (LimbsOk ds) := by unfold LimbsOk; infer_instance

instance (x : ArbitraryInt) : Decidable (Valid x) := by unfold Valid; infer_instance

/-- The structural part of validity: non-empty, limbs below `10^9`, no most significant zero
limb except for the single limb `0`. -/
def WellFormed (ds : List Nat) : Prop := ds ≠ [] ∧ LimbsOk ds ∧ Normalized ds

instance (ds : List Nat) : Decidable (WellFormed ds) := by unfold WellFormed; infer_instance

/-! ## The heap of objects -/

/-- A heap of `ArbitraryInt` objects: `objs p` is the object at pointer `p`, and the pointers
below `next` are allocated. -/
structure Heap where
  objs : Nat → ArbitraryInt
  next : Nat

/-- Dereference a pointer. -/
def Heap.read (h : Heap) (p : Nat) : ArbitraryInt := h.objs p

/-- The assignment `p.negative = v`. -/
def Heap.setNegative (h : Heap) (p : Nat) (v : Bool) : Heap :=
  { objs := fun q => if q = p then { digits := (h.objs p).digits, negative := v } else h.objs q,
    next := h.next }

/-- The assignment `p.negative = !p.negative`. -/
def Heap.flipNegative (h : Heap) (p : Nat) : Heap := h.setNegative p (!(h.objs p).negative)

/-- The allocation `&ArbitraryInt{...}`: the new heap and the fresh pointer. -/
def Heap.alloc (h : Heap) (x : ArbitraryInt) : Heap × Nat :=
  ({ objs := fun q => if q = h.next then x else h.objs q, next := h.next + 1 }, h.next)

/-- The heap with no object allocated. -/
def Heap.empty : Heap := { objs := fun _ => { digits := [], negative := false }, next := 0 }

/-- The heap whose allocated objects are the given ones, at the pointers `0, 1, ...`. -/
def Heap.ofList (xs : List ArbitraryInt) : Heap :=
  { objs := fun p => xs.getD p { digits := [], negative := false }, next := xs.length }

/-! ## Trimming -/

/-- The loop `for len(r) > k && r[len(r)-1] == 0 { r = r[:len(r)-1] }`; the first argument
bounds the number of iterations (each one shortens `r`). -/
def trimLoop (k : Nat) : Nat → List Nat → List Nat
  | 0, r => r
  | n + 1, r => if k < r.length ∧ r.getLast? = some 0 then trimLoop k n r.dropLast else r

/-- Trim the most significant zero limbs while more than `k` limbs remain. -/
def trimAbove (k : Nat) (r : List Nat) : List Nat := trimLoop k r.length r

/-! ## Addition and subtraction -/

/-- The call `max(a, b)` on `int`. -/
def max (a b : Nat) : Nat := if a > b then a else b

/-- The call `min(a, b)` on `int`. -/
def min (a b : Nat) : Nat := if a < b then a else b

/-- The slice `make([]uint32, n)` after `copy(dst[:len(xs)], xs)`, for `len(xs) <= n`. -/
def zeroPad (n : Nat) (xs : List Nat) : List Nat := xs ++ List.replicate (n - xs.length) 0

/-- The loop of `Add` over the zero-padded digits: the limbs written to `result[0..maxLen)`
and the final carry. -/
def addLoop : List Nat → List Nat → Nat → List Nat × Nat
  | x :: xs, y :: ys, carry =>
    let sum := add32 (add32 x y) carry
    let rest := addLoop xs ys (sum / digitBase)
    (sum % digitBase :: rest.1, rest.2)
  | _, _, carry => ([], carry)

/-- Lines 238-272 of `Add`: the addition of the magnitudes, with the sign of `a`. -/
def addMagnitudes (a b : ArbitraryInt) : ArbitraryInt :=
  let maxLen := max a.digits.length b.digits.length
  let aDigits := zeroPad maxLen a.digits
  let bDigits := zeroPad maxLen b.digits
  let out := addLoop aDigits bDigits 0
  let result := if out.2 > 0 then out.1 ++ [out.2] else out.1
  { digits := trimAbove 1 result, negative := a.negative }

/-- The scan of `compareDigits` from the most significant limb down (both lists most
significant first). -/
def compareDigitsFrom : List Nat → List Nat → Int
  | x :: xs, y :: ys => if x ≠ y then (x : Int) - (y : Int) else compareDigitsFrom xs ys
  | _, _ => 0

/-- The function `compareDigits`. -/
def compareDigits (a b : List Nat) : Int :=
  if a.length ≠ b.length then (a.length : Int) - (b.length : Int)
  else compareDigitsFrom a.reverse b.reverse

/-- The second loop of `Subtract`: propagate the borrow through the remaining limbs. -/
def borrowLoop : List Nat → Nat → List Nat
  | [], _ => []
  | r :: rs, borrow =>
    if borrow > 0 then
      if r = 0 then 999999999 :: borrowLoop rs borrow else sub32 r 1 :: rs
    else r :: rs

/-- The first loop of `Subtract` over the limbs of `b`, followed by the second loop. -/
def subLoop : List Nat → List Nat → Nat → List Nat
  | r :: rs, y :: ys, borrow =>
    if r < add32 y borrow then
      sub32 (sub32 (add32 r 1000000000) y) borrow :: subLoop rs ys 1
    else
      sub32 r (add32 y borrow) :: subLoop rs ys 0
  | rs, [], borrow => borrowLoop rs borrow
  | [], _ :: _, _ => []

/-- Lines 285-331 of `Subtract`: the subtraction of the magnitudes for operands of equal
sign, with the swap. -/
def subtractMagnitudes (a b : ArbitraryInt) : ArbitraryInt :=
  let swap : Bool := a.digits.length < b.digits.length ∨
    (a.digits.length = b.digits.length ∧ compareDigits a.digits b.digits < 0)
  let a1 := if swap then b else a
  let b1 := if swap then a else b
  let result := subLoop a1.digits b1.digits 0
  let negative := if swap then !a1.negative else a1.negative
  { digits := trimAbove 1 result, negative := negative }

/-- The number of nested `Add`/`Subtract` calls still possible: a call is nested only when
the signs differ, and it is made on equal signs. -/
def signsDiffer (h : Heap) (a b : Nat) : Nat :=
  if (h.read a).negative = (h.read b).negative then 0 else 1

mutual

/-- The method `Add`: `Add h a b` is the call `a.Add(b)` in heap `h`; it returns the heap
after the call and the pointer to the result. -/
def Add (h : Heap) (a b : Nat) : Heap × Nat :=
  if h1 : (h.read a).negative = true ∧ (h.read b).negative = false then
    Subtract (h.setNegative a false) b a
  else if h2 : (h.read a).negative = false ∧ (h.read b).negative = true then
    Subtract (h.setNegative b false) a b
  else
    h.alloc (addMagnitudes (h.read a) (h.read b))
termination_by signsDiffer h a b
decreasing_by
  · obtain ⟨ha, hb⟩ := h1
    have hab : b ≠ a := by rintro rfl; simp [ha] at hb
    simp [signsDiffer, Heap.read, Heap.setNegative, hab] at *
    simp [ha, hb]
  · obtain ⟨ha, hb⟩ := h2
    have hab : a ≠ b := by rintro rfl; simp [ha] at hb
    simp [signsDiffer, Heap.read, Heap.setNegative, hab] at *
    simp [ha, hb]

/-- The method `Subtract`: `Subtract h a b` is the call `a.Subtract(b)` in heap `h`. -/
def Subtract (h : Heap) (a b : Nat) : Heap × Nat :=
  if h1 : (h.read a).negative ≠ (h.read b).negative then
    let r := Add (h.flipNegative b) a b
    (r.1.flipNegative b, r.2)
  else
    h.alloc (subtractMagnitudes (h.read a) (h.read b))
termination_by signsDiffer h a b
decreasing_by
  have hab : a ≠ b := by rintro rfl; exact h1 rfl
  simp only [signsDiffer, Heap.read, Heap.flipNegative, Heap.setNegative, if_neg hab,
    if_true] at *
  rcases Bool.eq_false_or_eq_true (h.objs a).negative with ha | ha <;>
    rcases Bool.eq_false_or_eq_true (h.objs b).negative with hb | hb <;>
    simp [ha, hb] at h1 ⊢

end

/-! ## Multiplication -/

/-- The `uint64` sum `x + y`. -/
def add64 (x y : Nat) : Nat := (x + y) % two64

/-- The `uint64` product `x * y`. -/
def mul64 (x y : Nat) : Nat := (x * y) % two64

/-- The inner loop of `longMultiply` for the limb `multiplier` at index `i`, over the
remaining limbs of `b` from index `j`: the result buffer and the carry after the loop. -/
def mulInner (multiplier i : Nat) : List Nat → Nat → List Nat → Nat → List Nat × Nat
  | [], _, result, carry => (result, carry)
  | multiplicand :: bs, j, result, carry =>
    let product := add64 (add64 (mul64 multiplier multiplicand) (result.getD (i + j) 0)) carry
    mulInner multiplier i bs (j + 1) (result.set (i + j) (product % digitBase % two32))
      (product / digitBase)

/-- The outer loop of `longMultiply` over the remaining limbs of `a` from index `i`. -/
def mulOuter (b : List Nat) : List Nat → Nat → List Nat → List Nat
  | [], _, result => result
  | multiplier :: as, i, result =>
    if multiplier = 0 then mulOuter b as (i + 1) result
    else
      let out := mulInner multiplier i b 0 result 0
      let result1 :=
        if out.2 > 0 then
          out.1.set (i + b.length) (add32 (out.1.getD (i + b.length) 0) (out.2 % two32))
        else out.1
      mulOuter b as (i + 1) result1

/-- The method `longMultiply`. -/
def longMultiply (a b : ArbitraryInt) (negative : Bool) : ArbitraryInt :=
  let result := mulOuter b.digits a.digits 0 (List.replicate (a.digits.length + b.digits.length) 0)
  let result := trimAbove 0 result
  let result := if result.length = 0 then [0] else result
  { digits := result, negative := negative }

/-- The method `leftShift`: the receiver itself when it is the single limb `0`, else a new
object with a zero limb prepended. -/
def leftShift (h : Heap) (a : Nat) : Heap × Nat :=
  if (h.read a).digits.length = 1 ∧ (h.read a).digits.getD 0 0 = 0 then (h, a)
  else h.alloc { digits := 0 :: (h.read a).digits, negative := (h.read a).negative }

/-- The loop `for i := 0; i < n; i++ { x = x.leftShift() }`. -/
def leftShiftN : Nat → Heap × Nat → Heap × Nat
  | 0, s => s
  | n + 1, s => leftShiftN n (leftShift s.1 s.2)

/-! ## Facts about `Add` used by the termination proof of `karatsubaMultiply`

The third recursive call of `karatsubaMultiply` is made on the results of two calls to
`Add`; its termination rests on the length of those results. -/

@[simp] theorem read_setNegative (h : Heap) (p q : Nat) (v : Bool) :
    (h.setNegative p v).read q =
      if q = p then { digits := (h.read p).digits, negative := v } else h.read q := rfl

@[simp] theorem read_flipNegative (h : Heap) (p q : Nat) :
    (h.flipNegative p).read q =
      if q = p then { digits := (h.read p).digits, negative := !(h.read p).negative }
      else h.read q := rfl

@[simp] theorem next_flipNegative (h : Heap) (p : Nat) : (h.flipNegative p).next = h.next := rfl

@[simp] theorem next_setNegative (h : Heap) (p : Nat) (v : Bool) :
    (h.setNegative p v).next = h.next := rfl

@[simp] theorem read_alloc (h : Heap) (x : ArbitraryInt) (q : Nat) :
    (h.alloc x).1.read q = if q = h.next then x else h.read q := rfl

@[simp] theorem next_alloc (h : Heap) (x : ArbitraryInt) : (h.alloc x).1.next = h.next + 1 := rfl

@[simp] theorem ptr_alloc (h : Heap) (x : ArbitraryInt) : (h.alloc x).2 = h.next := rfl

theorem Add_same (h : Heap) (a b : Nat) (hs : (h.read a).negative = (h.read b).negative) :
    Add h a b = h.alloc (addMagnitudes (h.read a) (h.read b)) := by
  rw [Add]
  have n1 : ¬((h.read a).negative = true ∧ (h.read b).negative = false) := by
    rw [hs]; rintro ⟨x, y⟩; rw [x] at y; cases y
  have n2 : ¬((h.read a).negative = false ∧ (h.read b).negative = true) := by
    rw [hs]; rintro ⟨x, y⟩; rw [x] at y; cases y
  rw [dif_neg n1, dif_neg n2]

theorem Subtract_same (h : Heap) (a b : Nat) (hs : (h.read a).negative = (h.read b).negative) :
    Subtract h a b = h.alloc (subtractMagnitudes (h.read a) (h.read b)) := by
  rw [Subtract, dif_neg (not_not.mpr hs)]

/-- The call `a.Add(b)` with `a` negative and `b` not: the sign flag of `a` is cleared and
stays cleared. -/
theorem Add_neg_pos (h : Heap) (a b : Nat) (ha : (h.read a).negative = true)
    (hb : (h.read b).negative = false) :
    Add h a b = (h.setNegative a false).alloc
      (subtractMagnitudes (h.read b) { digits := (h.read a).digits, negative := false }) := by
  have hab : b ≠ a := by rintro rfl; rw [ha] at hb; cases hb
  rw [Add, dif_pos ⟨ha, hb⟩, Subtract_same]
  · simp [hab]
  · simp [hab, hb]

/-- The call `a.Add(b)` with `b` negative and `a` not: the sign flag of `b` is cleared and
stays cleared. -/
theorem Add_pos_neg (h : Heap) (a b : Nat) (ha : (h.read a).negative = false)
    (hb : (h.read b).negative = true) :
    Add h a b = (h.setNegative b false).alloc
      (subtractMagnitudes (h.read a) { digits := (h.read b).digits, negative := false }) := by
  have hab : a ≠ b := by rintro rfl; rw [ha] at hb; cases hb
  have n1 : ¬((h.read a).negative = true ∧ (h.read b).negative = false) := by
    rw [ha]; rintro ⟨x, -⟩; cases x
  rw [Add, dif_neg n1, dif_pos ⟨ha, hb⟩, Subtract_same]
  · simp [hab]
  · simp [hab, ha]

/-- The result of `a.Add(b)` is the object at the fresh pointer. -/
theorem Add_ptr (h : Heap) (a b : Nat) : (Add h a b).2 = h.next := by
  rcases Bool.eq_false_or_eq_true (h.read a).negative with x | x <;>
    rcases Bool.eq_false_or_eq_true (h.read b).negative with y | y
  · rw [Add_same h a b (by rw [x, y]), ptr_alloc]
  · rw [Add_neg_pos h a b x y, ptr_alloc, next_setNegative]
  · rw [Add_pos_neg h a b x y, ptr_alloc, next_setNegative]
  · rw [Add_same h a b (by rw [x, y]), ptr_alloc]

/-- The object `a.Add(b)` returns, by the signs of the operands. -/
theorem Add_result (h : Heap) (a b : Nat) :
    (Add h a b).1.read (Add h a b).2 =
      if (h.read a).negative = true ∧ (h.read b).negative = false then
        subtractMagnitudes (h.read b) { digits := (h.read a).digits, negative := false }
      else if (h.read a).negative = false ∧ (h.read b).negative = true then
        subtractMagnitudes (h.read a) { digits := (h.read b).digits, negative := false }
      else addMagnitudes (h.read a) (h.read b) := by
  rcases Bool.eq_false_or_eq_true (h.read a).negative with x | x <;>
    rcases Bool.eq_false_or_eq_true (h.read b).negative with y | y
  · rw [Add_same h a b (by rw [x, y])]; simp [x, y]
  · rw [Add_neg_pos h a b x y]; simp [x, y]
  · rw [Add_pos_neg h a b x y]; simp [x, y]
  · rw [Add_same h a b (by rw [x, y])]; simp [x, y]

/-! ### Lengths of results -/

theorem length_trimLoop_le (k n : Nat) (r : List Nat) : (trimLoop k n r).length ≤ r.length := by
  induction n generalizing r with
  | zero => exact le_refl _
  | succ n ih =>
    unfold trimLoop
    split_ifs
    · exact le_trans (ih r.dropLast) (by simp)
    · exact le_refl _

theorem length_addLoop_le (xs : List Nat) : ∀ (ys : List Nat) (carry : Nat),
    (addLoop xs ys carry).1.length ≤ xs.length := by
  induction xs with
  | nil => intro ys carry; simp [addLoop]
  | cons x xs ih =>
    intro ys carry
    cases ys with
    | nil => simp [addLoop]
    | cons y ys => simpa [addLoop] using ih ys _

theorem length_addMagnitudes_le (a b : ArbitraryInt) (n : Nat) (ha : a.digits.length ≤ n)
    (hb : b.digits.length ≤ n) : (addMagnitudes a b).digits.length ≤ n + 1 := by
  have h1 := length_addLoop_le (zeroPad (max a.digits.length b.digits.length) a.digits)
    (zeroPad (max a.digits.length b.digits.length) b.digits) 0
  have h2 : (zeroPad (max a.digits.length b.digits.length) a.digits).length ≤ n := by
    simp only [zeroPad, List.length_append, List.length_replicate, max]
    split_ifs <;> omega
  simp only [addMagnitudes]
  refine le_trans (length_trimLoop_le _ _ _) ?_
  split_ifs
  · simp only [List.length_append, List.length_singleton]; omega
  · omega

theorem length_borrowLoop (rs : List Nat) (borrow : Nat) :
    (borrowLoop rs borrow).length = rs.length := by
  induction rs with
  | nil => rfl
  | cons r rs ih => unfold borrowLoop; split_ifs <;> simp [ih]

theorem length_subLoop_le (rs : List Nat) : ∀ (ys : List Nat) (borrow : Nat),
    (subLoop rs ys borrow).length ≤ rs.length := by
  induction rs with
  | nil =>
    intro ys borrow
    cases ys <;> simp [subLoop, borrowLoop]
  | cons r rs ih =>
    intro ys borrow
    cases ys with
    | nil => simp [subLoop, length_borrowLoop]
    | cons y ys =>
      simp only [subLoop]
      split_ifs <;> simpa using ih ys _

theorem length_subtractMagnitudes_le (a b : ArbitraryInt) (n : Nat) (ha : a.digits.length ≤ n)
    (hb : b.digits.length ≤ n) : (subtractMagnitudes a b).digits.length ≤ n := by
  simp only [subtractMagnitudes]
  refine le_trans (length_trimLoop_le _ _ _) (le_trans (length_subLoop_le _ _ _) ?_)
  split_ifs
  · exact hb
  · exact ha

/-- The object `a.Add(b)` returns has at most one limb more than the longer operand. -/
theorem length_Add_le (h : Heap) (a b n : Nat) (ha : (h.read a).digits.length ≤ n)
    (hb : (h.read b).digits.length ≤ n) :
    ((Add h a b).1.read (Add h a b).2).digits.length ≤ n + 1 := by
  rw [Add_result]
  split_ifs
  · exact le_trans (length_subtractMagnitudes_le (h.read b) ⟨(h.read a).digits, false⟩ n hb ha)
      (Nat.le_succ _)
  · exact le_trans (length_subtractMagnitudes_le (h.read a) ⟨(h.read b).digits, false⟩ n ha hb)
      (Nat.le_succ _)
  · exact length_addMagnitudes_le _ _ n ha hb

/-- The call `a.Add(b)` allocates one object. -/
theorem Add_next (h : Heap) (a b : Nat) : (Add h a b).1.next = h.next + 1 := by
  rcases Bool.eq_false_or_eq_true (h.read a).negative with x | x <;>
    rcases Bool.eq_false_or_eq_true (h.read b).negative with y | y
  · rw [Add_same h a b (by rw [x, y]), next_alloc]
  · rw [Add_neg_pos h a b x y, next_alloc, next_setNegative]
  · rw [Add_pos_neg h a b x y, next_alloc, next_setNegative]
  · rw [Add_same h a b (by rw [x, y]), next_alloc]

/-- The call `a.Add(b)` changes the digits of no allocated object. -/
theorem Add_digits_frame (h : Heap) (a b p : Nat) (hp : p < h.next) :
    ((Add h a b).1.read p).digits = (h.read p).digits := by
  have hpn : p ≠ h.next := by omega
  rcases Bool.eq_false_or_eq_true (h.read a).negative with x | x <;>
    rcases Bool.eq_false_or_eq_true (h.read b).negative with y | y
  · rw [Add_same h a b (by rw [x, y])]; simp [hpn]
  · rw [Add_neg_pos h a b x y]; simp only [read_alloc, next_setNegative, if_neg hpn,
      read_setNegative]; split_ifs with e
    · rw [e]
    · rfl
  · rw [Add_pos_neg h a b x y]; simp only [read_alloc, next_setNegative, if_neg hpn,
      read_setNegative]; split_ifs with e
    · rw [e]
    · rfl
  · rw [Add_same h a b (by rw [x, y])]; simp [hpn]

/-! ## `Multiply` and `karatsubaMultiply`

`Multiply` reads its operands and returns a new object, so it is a function on values.  The
objects `karatsubaMultiply` creates (`aLow`, `aHigh`, `bLow`, `bHigh`, `z0`, `z2`, ...) are
allocated in a heap of their own, on which the calls to `Add`, `Subtract` and `leftShift`
run with their pointer semantics. -/

mutual

/-- The method `Multiply`. -/
def Multiply (a b : ArbitraryInt) : ArbitraryInt :=
  if a.digits.length = 0 ∨ b.digits.length = 0 then { digits := [0], negative := false }
  else
    let negative := a.negative != b.negative
    if a.digits.length > 32 ∨ b.digits.length > 32 then karatsubaMultiply a b
    else longMultiply a b negative
termination_by (a.digits.length, 1)

/-- The method `karatsubaMultiply`. -/
def karatsubaMultiply (a b : ArbitraryInt) : ArbitraryInt :=
  let negative := a.negative != b.negative
  if hsmall : a.digits.length ≤ 32 ∨ b.digits.length ≤ 32 then longMultiply a b negative
  else
    let m := min a.digits.length b.digits.length / 2
    let aLow := Heap.empty.alloc { digits := a.digits.take m, negative := false }
    let aHigh := aLow.1.alloc { digits := a.digits.drop m, negative := false }
    let bLow := aHigh.1.alloc { digits := b.digits.take m, negative := false }
    let bHigh := bLow.1.alloc { digits := b.digits.drop m, negative := false }
    let z0 := bHigh.1.alloc (Multiply (bHigh.1.read aLow.2) (bHigh.1.read bLow.2))
    let z2 := z0.1.alloc (Multiply (z0.1.read aHigh.2) (z0.1.read bHigh.2))
    let lowSum := Add z2.1 aLow.2 aHigh.2
    let highSum := Add lowSum.1 bLow.2 bHigh.2
    let prod := highSum.1.alloc (Multiply (highSum.1.read lowSum.2) (highSum.1.read highSum.2))
    let diff := Subtract prod.1 prod.2 z0.2
    let z1 := Subtract diff.1 diff.2 z2.2
    let result := leftShiftN (2 * m) (z1.1, z0.2)
    let z1Scaled := leftShiftN m (result.1, z1.2)
    let sum := Add z1Scaled.1 result.2 z1Scaled.2
    let result := Add sum.1 sum.2 z2.2
    (result.1.setNegative result.2 negative).read result.2
termination_by (a.digits.length, 0)
decreasing_by
  · apply Prod.Lex.left
    have hm : min a.digits.length b.digits.length / 2 < a.digits.length := by
      unfold min; split_ifs <;> omega
    simp [Heap.empty]
    omega
  · apply Prod.Lex.left
    have hm : 0 < min a.digits.length b.digits.length / 2 := by
      unfold min; split_ifs <;> omega
    simp [Heap.empty]
    omega
  · apply Prod.Lex.left
    have hm : min a.digits.length b.digits.length ≤ a.digits.length ∧
        32 < min a.digits.length b.digits.length := by
      unfold min; split_ifs <;> omega
    rw [Add_digits_frame _ _ _ _ (by rw [Add_ptr, Add_next]; omega)]
    refine lt_of_le_of_lt (length_Add_le _ _ _ (a.digits.length - 2) ?_ ?_) (by omega)
    · simp [Heap.empty]; omega
    · simp [Heap.empty]; omega

end

/-! ## Formatting

A Go `string` is embedded as the list of its characters. -/

/-- The call `fmt.Sprintf("%d", n)` on a `uint32`: the decimal numeral of `n`. -/
def formatD (n : Nat) : List Char := Nat.toDigits 10 n

/-- The call `fmt.Sprintf("%09d", n)` on a `uint32`: the decimal numeral of `n`, padded on
the left with `'0'` to at least 9 characters. -/
def format09D (n : Nat) : List Char :=
  List.replicate (9 - (Nat.toDigits 10 n).length) '0' ++ Nat.toDigits 10 n

/-- The loop of `String` from the most significant limb down (the argument is most
significant first): the first limb is printed with `%d`, the others with `%09d`. -/
def stringParts : List Nat → List (List Char)
  | [] => []
  | top :: rest => formatD top :: rest.map format09D

/-- The method `String`. -/
def ArbitraryInt.String (a : ArbitraryInt) : List Char :=
  if a.digits.length = 0 ∨ (a.digits.length = 1 ∧ a.digits.getD 0 0 = 0) then ['0']
  else
    let result := (stringParts a.digits.reverse).flatten
    if a.negative then '-' :: result else result

/-- The numeral of `lo` padded on the left with `'0'` to at least `k` characters. -/
def padTo (k lo : Nat) : List Char :=
  List.replicate (k - (Nat.toDigits 10 lo).length) '0' ++ Nat.toDigits 10 lo

/-- Specification: the natural number an unsigned decimal numeral denotes. -/
def readDecimalNat (s : List Char) : Nat :=
  s.foldl (fun acc c => acc * 10 + (c.toNat - '0'.toNat)) 0

/-- Specification: the integer a decimal numeral with an optional leading `'-'` denotes. -/
def readDecimalInt (s : List Char) : Int :=
  match s with
  | '-' :: t => -(readDecimalNat t : Int)
  | t => (readDecimalNat t : Int)

/-! ## Parsing -/

/-- The errors the engine returns. -/
inductive Error where
  | emptyString
  | invalidFormat (base : Nat)
  | parseFailed
  | divisionByZero
  | moduloByZero
  | negativeExponent
  | negativeArgument
  | baseOutOfRange
  | convertFailed (base : Nat)
  | createFailed (base : Nat)
deriving DecidableEq, Repr

/-- The result of a call that returns `(value, error)`. -/
inductive Result (α : Type) where
  | ok (v : α)
  | error (e : Error)
deriving DecidableEq, Repr

/-- The predicate `unicode.IsSpace`, which `strings.TrimSpace` uses. -/
def isSpace (c : Char) : Bool :=
  c = '\t' ∨ c = '\n' ∨ c.toNat = 0x0B ∨ c.toNat = 0x0C ∨ c = '\r' ∨ c = ' ' ∨
    c.toNat = 0x85 ∨ c.toNat = 0xA0 ∨ c.toNat = 0x1680 ∨
    (0x2000 ≤ c.toNat ∧ c.toNat ≤ 0x200A) ∨ c.toNat = 0x2028 ∨ c.toNat = 0x2029 ∨
    c.toNat = 0x202F ∨ c.toNat = 0x205F ∨ c.toNat = 0x3000

/-- The call `strings.TrimSpace(s)`. -/
def trimSpace (s : List Char) : List Char :=
  ((s.dropWhile isSpace).reverse.dropWhile isSpace).reverse

/-- The character class `\d` (also `[0-9]`). -/
def isDecimalDigit (c : Char) : Bool := '0' ≤ c ∧ c ≤ '9'

/-- The character class `[0-9a-fA-F]`. -/
def isHexDigit (c : Char) : Bool :=
  ('0' ≤ c ∧ c ≤ '9') ∨ ('a' ≤ c ∧ c ≤ 'f') ∨ ('A' ≤ c ∧ c ≤ 'F')

/-- The character class `[01]`. -/
def isBinaryDigit (c : Char) : Bool := c = '0' ∨ c = '1'

/-- A match of `^-?C+$` for the character class `C`. -/
def matchSignedRun (cls : Char → Bool) (s : List Char) : Bool :=
  match s with
  | '-' :: t => t ≠ [] ∧ t.all cls
  | t => t ≠ [] ∧ t.all cls

/-- The value of a digit character in `big.Int.SetString`: `0-9`, `a-z` and `A-Z` stand for
`0..35`. -/
def digitValue (c : Char) : Option Nat :=
  if '0' ≤ c ∧ c ≤ '9' then some (c.toNat - '0'.toNat)
  else if 'a' ≤ c ∧ c ≤ 'z' then some (c.toNat - 'a'.toNat + 10)
  else if 'A' ≤ c ∧ c ≤ 'Z' then some (c.toNat - 'A'.toNat + 10)
  else none

/-- The digits of `big.Int.SetString(s, base)` read from the left onto the accumulator. -/
def setStringLoop (base : Nat) : List Char → Nat → Option Nat
  | [], acc => some acc
  | c :: cs, acc =>
    match digitValue c with
    | some d => if d < base then setStringLoop base cs (acc * base + d) else none
    | none => none

/-- The call `new(big.Int).SetString(s, base)` on an unsigned, unprefixed run of digits:
the number read in the base, or failure on an empty string or a character that is not a
digit of the base. -/
def setString (s : List Char) (base : Nat) : Option Nat :=
  if s = [] then none else setStringLoop base s 0

/-- The inner loop of `NewArbitraryInt` over a chunk: `value = value*10 + uint32(digit-'0')`
in `uint32` arithmetic. -/
def chunkValue (chunk : List Char) : Nat :=
  chunk.foldl
    (fun value digit => add32 ((value * 10) % two32)
      ((((digit.toNat : Int) - 48) % 4294967296).toNat)) 0

/-- The outer loop of `NewArbitraryInt`: the chunks `decimalStr[i:i+9]` for `i = 0, 9, ...`,
taken from the left; the first argument bounds the number of iterations. -/
def chunkLoop : Nat → List Char → List (List Char)
  | 0, _ => []
  | n + 1, s => if s = [] then [] else s.take 9 :: chunkLoop n (s.drop 9)

/-- Lines 79-97 of `NewArbitraryInt`: chunk `i/9` is stored at `digits[len(digits)-1-i/9]`. -/
def packDigits (decimalStr : List Char) : List Nat :=
  ((chunkLoop decimalStr.length decimalStr).map chunkValue).reverse

/-- The function `NewArbitraryInt`. -/
def NewArbitraryInt (s : List Char) : Result ArbitraryInt :=
  let s := trimSpace s
  if s = [] then Result.error Error.emptyString
  else
    let hex : Bool := s.length > 2 ∧ s.take 2 = ['0', 'x']
    let bin : Bool := s.length > 2 ∧ s.take 2 = ['0', 'b']
    let base := if hex then 16 else if bin then 2 else 10
    let s := if hex ∨ bin then s.drop 2 else s
    let valid :=
      if base = 10 then matchSignedRun isDecimalDigit s
      else if base = 16 then matchSignedRun isHexDigit s
      else matchSignedRun isBinaryDigit s
    if ¬valid then Result.error (Error.invalidFormat base)
    else
      let negative : Bool := s.head? = some '-'
      let s := if negative then s.drop 1 else s
      let s := s.dropWhile (fun c => c = '0')
      let s := if s = [] then ['0'] else s
      if base ≠ 10 then
        match setString s base with
        | none => Result.error Error.parseFailed
        | some val => Result.ok { digits := packDigits (Nat.toDigits 10 val), negative := negative }
      else
        Result.ok { digits := packDigits s, negative := negative }

/-! ## Division -/

/-- The method `Abs`. -/
def Abs (a : ArbitraryInt) : ArbitraryInt := { digits := a.digits, negative := false }

/-- The function `isZero`. -/
def isZero (a : ArbitraryInt) : Bool :=
  a.digits.length = 0 ∨ (a.digits.length = 1 ∧ a.digits.getD 0 0 = 0)

/-- The scan of `compareAbsolute` from the most significant limb down (both lists most
significant first). -/
def compareAbsoluteFrom : List Nat → List Nat → Int
  | x :: xs, y :: ys =>
    if x > y then 1 else if x < y then -1 else compareAbsoluteFrom xs ys
  | _, _ => 0

/-- The function `compareAbsolute`. -/
def compareAbsolute (a b : ArbitraryInt) : Int :=
  if a.digits.length > b.digits.length then 1
  else if a.digits.length < b.digits.length then -1
  else compareAbsoluteFrom a.digits.reverse b.digits.reverse

/-- The function `trimLeadingZeros`. -/
def trimLeadingZeros (a : ArbitraryInt) : ArbitraryInt :=
  if a.digits.length = 0 then { digits := [0], negative := false }
  else { digits := trimAbove 1 a.digits, negative := a.negative }

/-- The loop of `subtractAbsolute` over the limbs of `a`; the second list holds the limbs of
`b` from the current index on. -/
def subtractAbsoluteLoop : List Nat → List Nat → Nat → List Nat
  | [], _, _ => []
  | x :: xs, ys, borrow =>
    let current :=
      match ys with
      | y :: _ => sub32 (sub32 x y) borrow
      | [] => sub32 x borrow
    if current > x then add32 current 1000000000 :: subtractAbsoluteLoop xs ys.tail 1
    else current :: subtractAbsoluteLoop xs ys.tail 0

/-- The function `subtractAbsolute`. -/
def subtractAbsolute (a b : ArbitraryInt) : ArbitraryInt :=
  let swap : Bool := compareAbsolute a b < 0
  let a1 := if swap then b else a
  let b1 := if swap then a else b
  trimLeadingZeros { digits := subtractAbsoluteLoop a1.digits b1.digits 0, negative := false }

/-- The inner loop of `Divide`: subtract the divisor while the partial remainder is not
smaller, counting in the `uint32` `multiple`.  The first argument bounds the number of
iterations; `none` when the bound is reached. -/
def divideInner : Nat → ArbitraryInt → ArbitraryInt → Nat → Option (ArbitraryInt × Nat)
  | 0, _, _, _ => none
  | fuel + 1, remainder, divisor, multiple =>
    if compareAbsolute remainder divisor ≥ 0 then
      divideInner fuel (subtractAbsolute remainder divisor) divisor (add32 multiple 1)
    else some (remainder, multiple)

/-- The outer loop of `Divide` over the limbs of the dividend, most significant first. -/
def divideOuter (fuel : Nat) (divisor : ArbitraryInt) :
    List Nat → ArbitraryInt → ArbitraryInt → Option (ArbitraryInt × ArbitraryInt)
  | [], quotient, remainder => some (quotient, remainder)
  | d :: ds, quotient, remainder =>
    let remainder :=
      trimLeadingZeros { digits := d :: remainder.digits, negative := remainder.negative }
    match divideInner fuel remainder divisor 0 with
    | none => none
    | some (remainder, multiple) =>
      divideOuter fuel divisor ds
        { digits := multiple :: quotient.digits, negative := quotient.negative } remainder

/-- The method `Divide`: `Divide fuel a other` is the call `a.Divide(other)`, with `fuel`
bounding the iterations of each run of the inner loop (`none` when the bound is reached).
The result is the pair `(quotient, remainder)` or the error. -/
def Divide (fuel : Nat) (a other : ArbitraryInt) :
    Option (Result (ArbitraryInt × ArbitraryInt)) :=
  if isZero other then some (Result.error Error.divisionByZero)
  else
    let negative := a.negative != other.negative
    let dividend := Abs a
    let divisor := Abs other
    -- `NewArbitraryInt("0")` returns no error, so the early return inside this test is not
    -- taken and the long division runs also when the divisor is the larger
    let failed : Bool :=
      match NewArbitraryInt ['0'] with
      | Result.error _ => true
      | Result.ok _ => false
    if compareAbsolute dividend divisor < 0 ∧ failed = true then
      some (Result.ok ({ digits := [], negative := false }, dividend))
    else
      match divideOuter fuel divisor dividend.digits.reverse
          { digits := [], negative := false } { digits := [], negative := false } with
      | none => none
      | some (quotient, remainder) =>
        let quotient := trimLeadingZeros quotient
        let remainder := trimLeadingZeros remainder
        some (Result.ok ({ digits := quotient.digits, negative := negative },
          { digits := remainder.digits, negative := a.negative }))

/-! ## Evaluation of `Add`, `Subtract` and `Multiply` on concrete inputs

`Add`, `Subtract` and `Multiply` are defined by well-founded recursion.  To evaluate them on
concrete inputs they are shown equal to functions defined without it: `AddE` and `SubtractE`
have the one nested call unfolded, and `MultiplyE` recurses on a bound on the depth. -/

/-- The method `Add` with the nested call to `Subtract`, which runs on equal signs, unfolded. -/
def AddE (h : Heap) (a b : Nat) : Heap × Nat :=
  if (h.read a).negative = true ∧ (h.read b).negative = false then
    (h.setNegative a false).alloc
      (subtractMagnitudes ((h.setNegative a false).read b) ((h.setNegative a false).read a))
  else if (h.read a).negative = false ∧ (h.read b).negative = true then
    (h.setNegative b false).alloc
      (subtractMagnitudes ((h.setNegative b false).read a) ((h.setNegative b false).read b))
  else
    h.alloc (addMagnitudes (h.read a) (h.read b))

/-- The method `Subtract` with the nested call to `Add`, which runs on equal signs,
unfolded. -/
def SubtractE (h : Heap) (a b : Nat) : Heap × Nat :=
  if (h.read a).negative ≠ (h.read b).negative then
    (((h.flipNegative b).alloc
        (addMagnitudes ((h.flipNegative b).read a) ((h.flipNegative b).read b))).1.flipNegative b,
      h.next)
  else
    h.alloc (subtractMagnitudes (h.read a) (h.read b))

/-- The recombination of `karatsubaMultiply` (both operands longer than 32 limbs), with the
three recursive calls to `Multiply` made through `mul`. -/
def karatsubaBody (mul : ArbitraryInt → ArbitraryInt → ArbitraryInt) (a b : ArbitraryInt) :
    ArbitraryInt :=
  let negative := a.negative != b.negative
  let m := min a.digits.length b.digits.length / 2
  let aLow := Heap.empty.alloc { digits := a.digits.take m, negative := false }
  let aHigh := aLow.1.alloc { digits := a.digits.drop m, negative := false }
  let bLow := aHigh.1.alloc { digits := b.digits.take m, negative := false }
  let bHigh := bLow.1.alloc { digits := b.digits.drop m, negative := false }
  let z0 := bHigh.1.alloc (mul (bHigh.1.read aLow.2) (bHigh.1.read bLow.2))
  let z2 := z0.1.alloc (mul (z0.1.read aHigh.2) (z0.1.read bHigh.2))
  let lowSum := AddE z2.1 aLow.2 aHigh.2
  let highSum := AddE lowSum.1 bLow.2 bHigh.2
  let prod := highSum.1.alloc (mul (highSum.1.read lowSum.2) (highSum.1.read highSum.2))
  let diff := SubtractE prod.1 prod.2 z0.2
  let z1 := SubtractE diff.1 diff.2 z2.2
  let result := leftShiftN (2 * m) (z1.1, z0.2)
  let z1Scaled := leftShiftN m (result.1, z1.2)
  let sum := AddE z1Scaled.1 result.2 z1Scaled.2
  let result := AddE sum.1 sum.2 z2.2
  (result.1.setNegative result.2 negative).read result.2

/-- The method `Multiply` with the depth of the recursion bounded by the first argument. -/
def MultiplyE : Nat → ArbitraryInt → ArbitraryInt → ArbitraryInt
  | fuel, a, b =>
    if a.digits.length = 0 ∨ b.digits.length = 0 then { digits := [0], negative := false }
    else if a.digits.length ≤ 32 ∨ b.digits.length ≤ 32 then
      longMultiply a b (a.negative != b.negative)
    else
      match fuel with
      | 0 => longMultiply a b (a.negative != b.negative)
      | fuel + 1 => karatsubaBody (MultiplyE fuel) a b

/-- The valid value `10^288`: 32 zero limbs below the limb `1`. -/
def tenPow288 : ArbitraryInt := { digits := List.replicate 32 0 ++ [1], negative := false }

/-! ## Modulo, comparison, power and factorial -/

/-- The method `Modulo`: after the test for a zero divisor it returns the placeholder
`&ArbitraryInt{}`, an object with no digits. -/
def Modulo (_a other : ArbitraryInt) : Result ArbitraryInt :=
  if isZero other then Result.error Error.moduloByZero
  else Result.ok { digits := [], negative := false }

/-- The method `Copy`. -/
def Copy (a : ArbitraryInt) : ArbitraryInt := { digits := a.digits, negative := a.negative }

/-- The scan of `Compare` from the most significant limb down (both lists most significant
first). -/
def compareFrom (signMultiplier : Int) : List Nat → List Nat → Int
  | x :: xs, y :: ys =>
    if x > y then 1 * signMultiplier
    else if x < y then -1 * signMultiplier
    else compareFrom signMultiplier xs ys
  | _, _ => 0

/-- The method `Compare`. -/
def Compare (a b : ArbitraryInt) : Int :=
  if a.negative = true ∧ b.negative = false then -1
  else if a.negative = false ∧ b.negative = true then 1
  else
    let signMultiplier : Int := if a.negative then -1 else 1
    if a.digits.length > b.digits.length then 1 * signMultiplier
    else if a.digits.length < b.digits.length then -1 * signMultiplier
    else compareFrom signMultiplier a.digits.reverse b.digits.reverse

/-- The function `compareResult`. -/
def compareResult (a b : ArbitraryInt) : Int := Compare a b

/-- The loop `for _, digit := range x.digits { n = n*10 + digit }` of `Pow` and `Factorial`,
in `uint32` arithmetic. -/
def foldLimbs (ds : List Nat) : Nat :=
  ds.foldl (fun n digit => add32 ((n * 10) % two32) digit) 0

/-- The value of `x, _ := NewArbitraryInt(s)`: the parsed value, the error being ignored
(`nil`, rendered as the object with no digits, were there one). -/
def newIgnoringError (s : List Char) : ArbitraryInt :=
  match NewArbitraryInt s with
  | Result.ok v => v
  | Result.error _ => { digits := [], negative := false }

/-- The loop `for expInt > 0` of `Pow`; the first argument bounds the number of iterations
(`expInt` is halved by each one). -/
def powLoop : Nat → Nat → ArbitraryInt → ArbitraryInt → ArbitraryInt
  | 0, _, result, _ => result
  | fuel + 1, expInt, result, base =>
    if expInt > 0 then
      let result := if expInt % 2 = 1 then Multiply result base else result
      powLoop fuel (expInt / 2) result (Multiply base base)
    else result

/-- The method `Pow`. -/
def Pow (a exponent : ArbitraryInt) : Result ArbitraryInt :=
  if exponent.negative then Result.error Error.negativeExponent
  else
    let expInt := foldLimbs exponent.digits
    if expInt = 0 then NewArbitraryInt ['1']
    else if expInt = 1 then Result.ok (Copy a)
    else
      let result := powLoop (expInt + 1) expInt (newIgnoringError ['1']) (Copy a)
      Result.ok { digits := result.digits,
                  negative := a.negative && decide (exponent.digits.getD 0 0 % 2 = 1) }

/-- The loop of `Factorial`, on the heap that holds `result`, `current` and `addOne`.  The
first argument bounds the number of iterations; `none` when the bound is reached. -/
def factorialLoop (a : ArbitraryInt) : Nat → Heap → Nat → Nat → Nat → Option ArbitraryInt
  | 0, _, _, _, _ => none
  | fuel + 1, h, result, current, addOne =>
    if compareResult (h.read current) a ≤ 0 then
      let r := h.alloc (Multiply (h.read result) (h.read current))
      let c := Add r.1 current addOne
      factorialLoop a fuel c.1 r.2 c.2 addOne
    else some (h.read result)

/-- The method `Factorial`: `Factorial fuel a` is the call `a.Factorial()`, with `fuel`
bounding the iterations of the loop (`none` when the bound is reached). -/
def Factorial (fuel : Nat) (a : ArbitraryInt) : Option (Result ArbitraryInt) :=
  if a.negative then some (Result.error Error.negativeArgument)
  else
    let factorialLimit := foldLimbs a.digits
    if factorialLimit = 0 ∨ factorialLimit = 1 then some (NewArbitraryInt ['1'])
    else
      let result := Heap.empty.alloc (newIgnoringError ['1'])
      let current := result.1.alloc (newIgnoringError ['1'])
      let addOne := current.1.alloc (newIgnoringError ['1'])
      match factorialLoop a fuel addOne.1 result.2 current.2 addOne.2 with
      | none => none
      | some r => some (Result.ok r)

/-! ## The literal grammar of the specification -/

/-- Specification (§4.1): the base a trimmed literal selects by its prefix, and what follows
the prefix. -/
def literalBase (t : List Char) : Nat × List Char :=
  match t with
  | '0' :: 'x' :: rest => (16, rest)
  | '0' :: 'b' :: rest => (2, rest)
  | _ => (10, t)

/-- Specification (§4.1): the digit run of a trimmed literal, what remains after the prefix
and an optional `'-'`. -/
def digitRun (t : List Char) : List Char :=
  match (literalBase t).2 with
  | '-' :: r => r
  | r => r

/-- Specification (§4.1): the alphabet of a base, `0-9` for 10, `0-9a-fA-F` for 16 and `0-1`
for 2. -/
def inAlphabet (base : Nat) (c : Char) : Bool :=
  if base = 16 then isHexDigit c else if base = 2 then isBinaryDigit c else isDecimalDigit c

/-- What remains of a run after an optional leading `'-'`. -/
def stripSign (r : List Char) : List Char :=
  match r with
  | '-' :: q => q
  | q => q

/-- Whether a run starts with `'-'` (the test `s[0] == '-'`). -/
def hasSign (r : List Char) : Bool := r.head? = some '-'

/-- The run after the sign and the leading zeros have been removed, `"0"` when nothing is
left. -/
def normalizeRun (r : List Char) : List Char :=
  if (stripSign r).dropWhile (fun c => c = '0') = [] then ['0']
  else (stripSign r).dropWhile (fun c => c = '0')

/-! ## Negation (specification) -/

/-- Specification (§4.3): `negate(b)`, a copy of `b` with the sign flag flipped, and left
`false` when `b` is zero. -/
def negate (b : ArbitraryInt) : ArbitraryInt :=
  { digits := b.digits, negative := if isZero b then false else !b.negative }

/-! ## Base conversion -/

/-- The call `new(big.Int).SetString(s, base)` on a string that may carry a sign: an optional
`'+'` or `'-'`, then a non-empty run of digits of the base. -/
def setStringSigned (s : List Char) (base : Nat) : Option Int :=
  match s with
  | '-' :: t => (setString t base).map (fun n => -(n : Int))
  | '+' :: t => (setString t base).map (fun n => (n : Int))
  | t => (setString t base).map (fun n => (n : Int))

/-- The character `big.Int.Text` writes for a digit value: `0-9`, then `a-z`. -/
def textDigit (d : Nat) : Char :=
  if d < 10 then Char.ofNat ('0'.toNat + d) else Char.ofNat ('a'.toNat + (d - 10))

/-- The digits of `n` in the base, most significant first, written before `acc`; the first
argument bounds the number of digits. -/
def textLoop (base : Nat) : Nat → Nat → List Char → List Char
  | 0, _, acc => acc
  | fuel + 1, n, acc =>
    if n = 0 then acc else textLoop base fuel (n / base) (textDigit (n % base) :: acc)

/-- The numeral of a natural number in the base, `0` for zero. -/
def natText (base n : Nat) : List Char := if n = 0 then ['0'] else textLoop base n n []

/-- The call `value.Text(base)` of `big.Int`: the numeral in the base, with a leading `'-'`
for a negative value. -/
def intText (base : Nat) (v : Int) : List Char :=
  if v < 0 then '-' :: natText base v.natAbs else natText base v.natAbs

/-- The method `BaseConvert` (the bases are of type `int`; only natural numbers are taken
here, every other base being out of range). -/
def BaseConvert (a : ArbitraryInt) (fromBase toBase : Nat) : Result ArbitraryInt :=
  if fromBase < 2 ∨ fromBase > 36 ∨ toBase < 2 ∨ toBase > 36 then
    Result.error Error.baseOutOfRange
  else
    let inputStr := a.String
    let inputStr :=
      if inputStr.take 2 = ['0', 'x'] ∧ fromBase = 16 then inputStr.drop 2
      else if inputStr.take 2 = ['0', 'b'] ∧ fromBase = 2 then inputStr.drop 2
      else inputStr
    match setStringSigned inputStr fromBase with
    | none => Result.error (Error.convertFailed fromBase)
    | some value =>
      match NewArbitraryInt (intText toBase value) with
      | Result.error _ => Result.error (Error.createFailed toBase)
      | Result.ok result => Result.ok result

/-! ## The machine words of `longMultiply` -/

/-- The accumulators of the inner loop of `longMultiply`, as natural numbers: the values
`multiplier*multiplicand + result[i+j] + carry` before any reduction modulo `2^64`, in the
order the loop computes them.  The buffer and the carry develop as in `mulInner`. -/
def mulInnerProducts (multiplier i : Nat) : List Nat → Nat → List Nat → Nat → List Nat
  | [], _, _, _ => []
  | multiplicand :: bs, j, result, carry =>
    let product := add64 (add64 (mul64 multiplier multiplicand) (result.getD (i + j) 0)) carry
    (multiplier * multiplicand + result.getD (i + j) 0 + carry) ::
      mulInnerProducts multiplier i bs (j + 1)
        (result.set (i + j) (product % digitBase % two32)) (product / digitBase)

/-- The rows of `longMultiply`: for every limb of `a` that is not zero, the accumulators of
the inner loop, the carry left after it, and the limb `result[i+len(b.digits)]` as it is
before the carry is added to it.  The buffer develops as in `mulOuter`. -/
def mulOuterRows (b : List Nat) : List Nat → Nat → List Nat → List (List Nat × Nat × Nat)
  | [], _, _ => []
  | multiplier :: as, i, result =>
    if multiplier = 0 then mulOuterRows b as (i + 1) result
    else
      let out := mulInner multiplier i b 0 result 0
      let result1 :=
        if out.2 > 0 then
          out.1.set (i + b.length) (add32 (out.1.getD (i + b.length) 0) (out.2 % two32))
        else out.1
      (mulInnerProducts multiplier i b 0 result 0, out.2, out.1.getD (i + b.length) 0) ::
        mulOuterRows b as (i + 1) result1

/-! ## The recombination of `karatsubaMultiply` -/

/-- The recombination of `karatsubaMultiply` from the subtraction of `z0` on: the heap holds
the product of the sums at `prod`, and `z0` and `z2`. -/
def karatsubaCombine (m : Nat) (negative : Bool) (h : Heap) (prod z0 z2 : Nat) : ArbitraryInt :=
  let diff := SubtractE h prod z0
  let z1 := SubtractE diff.1 diff.2 z2
  let result := leftShiftN (2 * m) (z1.1, z0)
  let z1Scaled := leftShiftN m (result.1, z1.2)
  let sum := AddE z1Scaled.1 result.2 z1Scaled.2
  let result := AddE sum.1 sum.2 z2
  (result.1.setNegative result.2 negative).read result.2

/-- Two heaps have the same allocation pointer and hold the same objects at the allocated
pointers that satisfy `P`. -/
def Heap.AgreeOn (P : Nat → Prop) (h h' : Heap) : Prop :=
  h.next = h'.next ∧ ∀ p, P p → p < h.next → h.read p = h'.read p

/-- The objects at the allocated pointers that satisfy `P` have well-formed digits. -/
def Heap.WellFormedOn (P : Nat → Prop) (h : Heap) : Prop :=
  ∀ p, P p → p < h.next → WellFormed (h.read p).digits

/-- The objects `karatsubaMultiply` has allocated when the recombination starts, in the order
of their allocation: `aLow`, `aHigh`, `bLow`, `bHigh`, `z0`, `z2`, `lowSum`, `highSum` and
the product of the sums; the three products are made through `mul`, and the sums, of operands
that are not negative, are the sums of the magnitudes. -/
def karatsubaHeap (mul : ArbitraryInt → ArbitraryInt → ArbitraryInt) (m : Nat)
    (a b : ArbitraryInt) : Heap :=
  let aLow : ArbitraryInt := { digits := a.digits.take m, negative := false }
  let aHigh : ArbitraryInt := { digits := a.digits.drop m, negative := false }
  let bLow : ArbitraryInt := { digits := b.digits.take m, negative := false }
  let bHigh : ArbitraryInt := { digits := b.digits.drop m, negative := false }
  Heap.ofList [aLow, aHigh, bLow, bHigh, mul aLow bLow, mul aHigh bHigh,
    addMagnitudes aLow aHigh, addMagnitudes bLow bHigh,
    mul (addMagnitudes aLow aHigh) (addMagnitudes bLow bHigh)]

/-! ## Decimal numerals -/

/-- A decimal numeral without leading zeros: a non-empty run of the digits `0-9` that is `0`
or does not start with `0`. -/
def IsNumeral (s : List Char) : Prop :=
  s ≠ [] ∧ (∀ c ∈ s, isDecimalDigit c = true) ∧ (s = ['0'] ∨ s.head? ≠ some '0')

/-! ## `Pow` over the heap

`Pow` returns pointers: the object `NewArbitraryInt("1")` makes, the object `a.Copy()` makes,
or the last product.  Here the calls run on the heap, so that the object returned can be told
from the receiver. -/

/-- The call `NewArbitraryInt(s)` on the heap: the pointer to the new object, or the error
(and no object). -/
def Heap.NewArbitraryInt (h : Heap) (s : List Char) : Heap × Result Nat :=
  match APCalc.NewArbitraryInt s with
  | Result.ok v => ((h.alloc v).1, Result.ok (h.alloc v).2)
  | Result.error e => (h, Result.error e)

/-- The call `a.Copy()` on the heap: a new object with a copy of the digits and the sign flag
of the receiver. -/
def Heap.Copy (h : Heap) (a : Nat) : Heap × Nat :=
  h.alloc { digits := (h.read a).digits, negative := (h.read a).negative }

/-- The call `a.Multiply(b)` on the heap: `Multiply` reads its operands and returns a new
object. -/
def Heap.Multiply (h : Heap) (a b : Nat) : Heap × Nat :=
  h.alloc (APCalc.Multiply (h.read a) (h.read b))

/-- The loop `for expInt > 0` of `Pow` on the heap, with the pointers `result` and `base`;
the first argument bounds the number of iterations (`expInt` is halved by each one). -/
def Heap.powLoop : Nat → Nat → Heap → Nat → Nat → Heap × Nat
  | 0, _, h, result, _ => (h, result)
  | fuel + 1, expInt, h, result, base =>
    if expInt > 0 then
      let r := if expInt % 2 = 1 then h.Multiply result base else (h, result)
      let b := r.1.Multiply base base
      Heap.powLoop fuel (expInt / 2) b.1 r.2 b.2
    else (h, result)

/-- The method `Pow` on the heap: `h.Pow a exponent` is the call `a.Pow(exponent)` in heap
`h`; it returns the heap after the call and the pointer to the result, or the error. -/
def Heap.Pow (h : Heap) (a exponent : Nat) : Heap × Result Nat :=
  if (h.read exponent).negative then (h, Result.error Error.negativeExponent)
  else
    let expInt := foldLimbs (h.read exponent).digits
    if expInt = 0 then h.NewArbitraryInt ['1']
    else if expInt = 1 then ((h.Copy a).1, Result.ok (h.Copy a).2)
    else
      let result := h.alloc (newIgnoringError ['1'])
      let base := result.1.Copy a
      let out := Heap.powLoop (expInt + 1) expInt base.1 result.2 base.2
      (out.1.setNegative out.2
          ((out.1.read a).negative &&
            decide ((out.1.read exponent).digits.getD 0 0 % 2 = 1)),
        Result.ok out.2)

/-! ## Magnitudes, trimming, and the loops of `Add` and `Subtract` -/

@[simp] theorem magnitude_nil : magnitude [] = 0 := rfl

@[simp] theorem magnitude_cons (d : Nat) (ds : List Nat) :
    magnitude (d :: ds) = d + 1000000000 * magnitude ds := by
  simp [magnitude, Nat.ofDigits_cons, digitBase]

theorem magnitude_append (xs ys : List Nat) :
    magnitude (xs ++ ys) = magnitude xs + 1000000000 ^ xs.length * magnitude ys := by
  simp [magnitude, Nat.ofDigits_append, digitBase]

theorem magnitude_replicate_zero (n : Nat) : magnitude (List.replicate n 0) = 0 := by
  induction n with
  | zero => rfl
  | succ n ih => simp [List.replicate_succ, ih]

theorem magnitude_lt (ds : List Nat) (h : LimbsOk ds) : magnitude ds < 1000000000 ^ ds.length := by
  have := Nat.ofDigits_lt_base_pow_length (b := digitBase) (l := ds) (by decide) h
  simpa [magnitude, digitBase] using this

theorem limbsOk_cons {d : Nat} {ds : List Nat} :
    LimbsOk (d :: ds) ↔ d < 1000000000 ∧ LimbsOk ds := by
  simp [LimbsOk, digitBase]

theorem limbsOk_nil : LimbsOk [] := by simp [LimbsOk]

theorem limbsOk_append {xs ys : List Nat} : LimbsOk (xs ++ ys) ↔ LimbsOk xs ∧ LimbsOk ys := by
  simp only [LimbsOk, List.mem_append]
  constructor
  · intro h; exact ⟨fun d hd => h d (Or.inl hd), fun d hd => h d (Or.inr hd)⟩
  · rintro ⟨h1, h2⟩ d (hd | hd)
    · exact h1 d hd
    · exact h2 d hd

theorem limbsOk_replicate_zero (n : Nat) : LimbsOk (List.replicate n 0) := by
  intro d hd
  rw [List.eq_of_mem_replicate hd]; decide

theorem limbsOk_dropLast {xs : List Nat} (h : LimbsOk xs) : LimbsOk xs.dropLast :=
  fun d hd => h d (List.mem_of_mem_dropLast hd)

/-- A most significant limb that is not zero bounds the magnitude from below. -/
theorem magnitude_ge_of_last_ne_zero (ds : List Nat) (hne : ds ≠ [])
    (hl : ds.getLast? ≠ some 0) : 1000000000 ^ (ds.length - 1) ≤ magnitude ds := by
  obtain ⟨xs, d, rfl⟩ : ∃ xs d, ds = xs ++ [d] :=
    ⟨ds.dropLast, ds.getLast hne, (List.dropLast_append_getLast hne).symm⟩
  have hd : d ≠ 0 := by simpa using hl
  rw [magnitude_append]
  simp only [List.length_append, List.length_singleton, Nat.add_sub_cancel, magnitude_cons,
    magnitude_nil, mul_zero, add_zero]
  have : 1 ≤ d := Nat.one_le_iff_ne_zero.mpr hd
  calc 1000000000 ^ xs.length = 1000000000 ^ xs.length * 1 := by ring
    _ ≤ 1000000000 ^ xs.length * d := Nat.mul_le_mul_left _ this
    _ ≤ magnitude xs + 1000000000 ^ xs.length * d := Nat.le_add_left _ _

theorem trimLoop_spec (k : Nat) (n : Nat) (r : List Nat) :
    magnitude (trimLoop k n r) = magnitude r ∧ (LimbsOk r → LimbsOk (trimLoop k n r)) ∧
      (trimLoop k n r).length ≤ r.length ∧ (k ≤ r.length → k ≤ (trimLoop k n r).length) ∧
      (r.length ≤ n → k < (trimLoop k n r).length → (trimLoop k n r).getLast? ≠ some 0) := by
  induction n generalizing r with
  | zero =>
    refine ⟨rfl, id, le_refl _, id, ?_⟩
    intro h0 hk
    simp only [trimLoop] at hk
    omega
  | succ n ih =>
    unfold trimLoop
    split_ifs with hc
    · obtain ⟨hlen, hlast⟩ := hc
      have hr : r.dropLast ++ [0] = r := List.dropLast_append_getLast? 0 (by simp [hlast])
      obtain ⟨i1, i2, i3, i4, i5⟩ := ih r.dropLast
      have hdl : r.dropLast.length = r.length - 1 := List.length_dropLast r
      refine ⟨?_, ?_, ?_, ?_, ?_⟩
      · rw [i1]; conv_rhs => rw [← hr]
        rw [magnitude_append]; simp
      · intro h; exact i2 (limbsOk_dropLast h)
      · omega
      · intro _; apply i4; omega
      · intro h1 h2; apply i5 _ h2; omega
    · refine ⟨rfl, id, le_refl _, id, ?_⟩
      intro _ hk hl
      exact hc ⟨hk, hl⟩

theorem magnitude_trimAbove (k : Nat) (r : List Nat) : magnitude (trimAbove k r) = magnitude r :=
  (trimLoop_spec k r.length r).1

theorem limbsOk_trimAbove (k : Nat) {r : List Nat} (h : LimbsOk r) : LimbsOk (trimAbove k r) :=
  (trimLoop_spec k r.length r).2.1 h

theorem length_trimAbove_le (k : Nat) (r : List Nat) : (trimAbove k r).length ≤ r.length :=
  (trimLoop_spec k r.length r).2.2.1

theorem trimAbove_ne_nil {r : List Nat} (h : r ≠ []) : trimAbove 1 r ≠ [] := by
  have := (trimLoop_spec 1 r.length r).2.2.2.1 (by
    cases r with
    | nil => exact absurd rfl h
    | cons x xs => simp)
  intro h0
  simp [trimAbove] at h0
  rw [h0] at this
  simp at this

theorem normalized_trimAbove (r : List Nat) : Normalized (trimAbove 1 r) :=
  fun hlen => (trimLoop_spec 1 r.length r).2.2.2.2 (le_refl _) hlen

theorem Valid.wellFormed {x : ArbitraryInt} (h : Valid x) : WellFormed x.digits :=
  ⟨h.1, h.2.1, h.2.2.1⟩

/-! ## Magnitude addition -/

theorem length_zeroPad (n : Nat) (xs : List Nat) (h : xs.length ≤ n) :
    (zeroPad n xs).length = n := by
  simp [zeroPad]; omega

theorem magnitude_zeroPad (n : Nat) (xs : List Nat) : magnitude (zeroPad n xs) = magnitude xs := by
  simp [zeroPad, magnitude_append, magnitude_replicate_zero]

theorem limbsOk_zeroPad (n : Nat) {xs : List Nat} (h : LimbsOk xs) : LimbsOk (zeroPad n xs) :=
  limbsOk_append.mpr ⟨h, limbsOk_replicate_zero _⟩

theorem addLoop_spec (xs : List Nat) : ∀ (ys : List Nat) (carry : Nat),
    xs.length = ys.length → LimbsOk xs → LimbsOk ys → carry ≤ 1 →
    magnitude (addLoop xs ys carry).1 + 1000000000 ^ xs.length * (addLoop xs ys carry).2
        = magnitude xs + magnitude ys + carry ∧
      LimbsOk (addLoop xs ys carry).1 ∧ (addLoop xs ys carry).2 ≤ 1 ∧
      (addLoop xs ys carry).1.length = xs.length := by
  induction xs with
  | nil =>
    intro ys carry hlen _ _ hc
    have : ys = [] := List.length_eq_zero.mp hlen.symm
    subst this
    simp [addLoop, limbsOk_nil, hc]
  | cons x xs ih =>
    intro ys carry hlen hx hy hc
    cases ys with
    | nil => simp at hlen
    | cons y ys =>
      obtain ⟨hx0, hxs⟩ := limbsOk_cons.mp hx
      obtain ⟨hy0, hys⟩ := limbsOk_cons.mp hy
      have hlen2 : xs.length = ys.length := by simpa using hlen
      have hsum : add32 (add32 x y) carry = x + y + carry := by
        simp only [add32, two32]; omega
      have hcarry : (x + y + carry) / 1000000000 ≤ 1 := by omega
      obtain ⟨i1, i2, i3, i4⟩ := ih ys ((x + y + carry) / 1000000000) hlen2 hxs hys hcarry
      simp only [addLoop, hsum, digitBase, magnitude_cons, List.length_cons]
      refine ⟨?_, ?_, i3, by rw [i4]⟩
      · have hp : 1000000000 ^ (xs.length + 1) * (addLoop xs ys ((x + y + carry) / 1000000000)).2
            = 1000000000 * (1000000000 ^ xs.length *
                (addLoop xs ys ((x + y + carry) / 1000000000)).2) := by ring
        rw [hp]
        omega
      · exact limbsOk_cons.mpr ⟨Nat.mod_lt _ (by decide), i2⟩

theorem max_spec (a b : Nat) : a ≤ max a b ∧ b ≤ max a b ∧ (max a b = a ∨ max a b = b) := by
  unfold max; split_ifs <;> omega

/-- Magnitude addition is exact on limbs below `10^9`. -/
theorem addMagnitudes_spec (a b : ArbitraryInt) (ha : LimbsOk a.digits) (hb : LimbsOk b.digits)
    (hne : a.digits ≠ []) :
    magnitude (addMagnitudes a b).digits = magnitude a.digits + magnitude b.digits ∧
      (addMagnitudes a b).negative = a.negative ∧ WellFormed (addMagnitudes a b).digits := by
  obtain ⟨hm1, hm2, -⟩ := max_spec a.digits.length b.digits.length
  have hpos : 0 < max a.digits.length b.digits.length := by
    have : 0 < a.digits.length := List.length_pos.mpr hne
    omega
  obtain ⟨i1, i2, i3, i4⟩ := addLoop_spec (zeroPad (max a.digits.length b.digits.length) a.digits)
    (zeroPad (max a.digits.length b.digits.length) b.digits) 0
    (by rw [length_zeroPad _ _ hm1, length_zeroPad _ _ hm2])
    (limbsOk_zeroPad _ ha) (limbsOk_zeroPad _ hb) (by omega)
  rw [magnitude_zeroPad, magnitude_zeroPad, length_zeroPad _ _ hm1] at i1
  rw [length_zeroPad _ _ hm1] at i4
  refine ⟨?_, rfl, ?_, ?_, normalized_trimAbove _⟩
  · simp only [addMagnitudes]
    rw [magnitude_trimAbove]
    split_ifs with hc
    · rw [magnitude_append, i4]
      simp only [magnitude_cons, magnitude_nil, mul_zero, add_zero]; omega
    · have : (addLoop (zeroPad (max a.digits.length b.digits.length) a.digits)
          (zeroPad (max a.digits.length b.digits.length) b.digits) 0).2 = 0 := by omega
      rw [this] at i1; omega
  · simp only [addMagnitudes]
    apply trimAbove_ne_nil
    split_ifs with hc
    · simp
    · intro h0; rw [h0] at i4; simp at i4; omega
  · simp only [addMagnitudes]
    apply limbsOk_trimAbove
    split_ifs with hc
    · refine limbsOk_append.mpr ⟨i2, limbsOk_cons.mpr ⟨by omega, limbsOk_nil⟩⟩
    · exact i2

/-! ## Magnitude subtraction -/

theorem borrowLoop_spec (rs : List Nat) : ∀ (borrow : Nat), LimbsOk rs → borrow ≤ 1 →
    borrow ≤ magnitude rs →
    magnitude (borrowLoop rs borrow) + borrow = magnitude rs ∧ LimbsOk (borrowLoop rs borrow) ∧
      (borrowLoop rs borrow).length = rs.length := by
  induction rs with
  | nil =>
    intro borrow _ _ hb
    simp only [magnitude_nil] at hb
    simp [borrowLoop, limbsOk_nil]; omega
  | cons r rs ih =>
    intro borrow hr hb1 hb
    obtain ⟨hr0, hrs⟩ := limbsOk_cons.mp hr
    rw [magnitude_cons] at hb
    unfold borrowLoop
    split_ifs with h1 h2
    · subst h2
      obtain ⟨i1, i2, i3⟩ := ih borrow hrs hb1 (by omega)
      refine ⟨?_, limbsOk_cons.mpr ⟨by omega, i2⟩, by simp [i3]⟩
      simp only [magnitude_cons]; omega
    · have hs : sub32 r 1 = r - 1 := by simp only [sub32, two32]; omega
      rw [hs]
      refine ⟨?_, limbsOk_cons.mpr ⟨by omega, hrs⟩, by simp⟩
      simp only [magnitude_cons]; omega
    · refine ⟨?_, hr, rfl⟩
      have : borrow = 0 := by omega
      simp [this]

theorem subLoop_spec (rs : List Nat) : ∀ (ys : List Nat) (borrow : Nat),
    ys.length ≤ rs.length → LimbsOk rs → LimbsOk ys → borrow ≤ 1 →
    magnitude ys + borrow ≤ magnitude rs →
    magnitude (subLoop rs ys borrow) + magnitude ys + borrow = magnitude rs ∧
      LimbsOk (subLoop rs ys borrow) ∧ (subLoop rs ys borrow).length = rs.length := by
  induction rs with
  | nil =>
    intro ys borrow hlen _ _ _ hb
    have : ys = [] := List.length_eq_zero.mp (by simpa using hlen)
    subst this
    simp only [magnitude_nil] at hb
    simp [subLoop, borrowLoop, limbsOk_nil]; omega
  | cons r rs ih =>
    intro ys borrow hlen hr hy hb1 hb
    cases ys with
    | nil =>
      obtain ⟨i1, i2, i3⟩ := borrowLoop_spec (r :: rs) borrow hr hb1 (by simpa using hb)
      simp only [subLoop, magnitude_nil, add_zero]
      exact ⟨i1, i2, i3⟩
    | cons y ys =>
      obtain ⟨hr0, hrs⟩ := limbsOk_cons.mp hr
      obtain ⟨hy0, hys⟩ := limbsOk_cons.mp hy
      have hlen2 : ys.length ≤ rs.length := by simpa using hlen
      simp only [magnitude_cons] at hb
      have ha : add32 y borrow = y + borrow := by simp only [add32, two32]; omega
      simp only [subLoop, ha]
      split_ifs with hc
      · have hv : sub32 (sub32 (add32 r 1000000000) y) borrow = r + 1000000000 - y - borrow := by
          simp only [sub32, add32, two32]; omega
        obtain ⟨i1, i2, i3⟩ := ih ys 1 hlen2 hrs hys (by omega) (by omega)
        rw [hv]
        refine ⟨?_, limbsOk_cons.mpr ⟨by omega, i2⟩, by simp [i3]⟩
        simp only [magnitude_cons]; omega
      · have hv : sub32 r (y + borrow) = r - (y + borrow) := by
          simp only [sub32, two32]; omega
        obtain ⟨i1, i2, i3⟩ := ih ys 0 hlen2 hrs hys (by omega) (by omega)
        rw [hv]
        refine ⟨?_, limbsOk_cons.mpr ⟨by omega, i2⟩, by simp [i3]⟩
        simp only [magnitude_cons]; omega

theorem limbsOk_reverse {xs : List Nat} (h : LimbsOk xs) : LimbsOk xs.reverse :=
  fun d hd => h d (List.mem_reverse.mp hd)

theorem compareDigitsFrom_neg_iff (u : List Nat) : ∀ (v : List Nat), u.length = v.length →
    LimbsOk u → LimbsOk v →
    (compareDigitsFrom u v < 0 ↔ magnitude u.reverse < magnitude v.reverse) := by
  induction u with
  | nil =>
    intro v hlen _ _
    have : v = [] := List.length_eq_zero.mp hlen.symm
    subst this
    simp [compareDigitsFrom]
  | cons x us ih =>
    intro v hlen hu hv
    cases v with
    | nil => simp at hlen
    | cons y vs =>
      obtain ⟨-, hus⟩ := limbsOk_cons.mp hu
      obtain ⟨-, hvs⟩ := limbsOk_cons.mp hv
      have hlen2 : us.length = vs.length := by simpa using hlen
      have b1 := magnitude_lt us.reverse (limbsOk_reverse hus)
      have b2 := magnitude_lt vs.reverse (limbsOk_reverse hvs)
      rw [List.length_reverse] at b1 b2
      rw [← hlen2] at b2
      simp only [compareDigitsFrom, List.reverse_cons, magnitude_append, List.length_reverse,
        magnitude_cons, magnitude_nil, mul_zero, add_zero, ← hlen2]
      split_ifs with hxy
      · rcases Nat.lt_or_gt_of_ne hxy with hlt | hgt
        · have := Nat.mul_le_mul_left (1000000000 ^ us.length) (Nat.succ_le_of_lt hlt)
          rw [Nat.mul_succ] at this
          constructor
          · intro _; omega
          · intro _; omega
        · have := Nat.mul_le_mul_left (1000000000 ^ us.length) (Nat.succ_le_of_lt hgt)
          rw [Nat.mul_succ] at this
          constructor
          · intro _; omega
          · intro _; omega
      · have hxy2 : x = y := not_not.mp hxy
        subst hxy2
        rw [ih vs hlen2 hus hvs]
        omega

/-- On well-formed digits the swap test of `Subtract` compares the magnitudes. -/
theorem swap_iff (a b : List Nat) (ha : WellFormed a) (hb : WellFormed b) :
    (a.length < b.length ∨ (a.length = b.length ∧ compareDigits a b < 0)) ↔
      magnitude a < magnitude b := by
  obtain ⟨hane, hal, han⟩ := ha
  obtain ⟨hbne, hbl, hbn⟩ := hb
  have hapos : 0 < a.length := List.length_pos.mpr hane
  have hbpos : 0 < b.length := List.length_pos.mpr hbne
  rcases Nat.lt_trichotomy a.length b.length with hlt | heq | hgt
  · have h1 := magnitude_lt a hal
    have h2 := magnitude_ge_of_last_ne_zero b hbne (hbn (by omega))
    have h3 : 1000000000 ^ a.length ≤ 1000000000 ^ (b.length - 1) :=
      Nat.pow_le_pow_right (by decide) (by omega)
    constructor
    · intro _; omega
    · intro _; exact Or.inl hlt
  · have hc := compareDigitsFrom_neg_iff a.reverse b.reverse (by simp [heq])
      (limbsOk_reverse hal) (limbsOk_reverse hbl)
    simp only [List.reverse_reverse] at hc
    simp only [compareDigits, heq, ne_eq, not_true_eq_false, if_false, true_and, lt_irrefl,
      false_or]
    exact hc
  · have h1 := magnitude_lt b hbl
    have h2 := magnitude_ge_of_last_ne_zero a hane (han (by omega))
    have h3 : 1000000000 ^ b.length ≤ 1000000000 ^ (a.length - 1) :=
      Nat.pow_le_pow_right (by decide) (by omega)
    constructor
    · rintro (h | ⟨h, -⟩) <;> omega
    · intro _; omega

/-- Magnitude subtraction on well-formed digits: the smaller magnitude is subtracted from
the larger, and the sign is that of the larger operand, flipped when the operands were
swapped. -/
theorem subtractMagnitudes_spec (a b : ArbitraryInt) (ha : WellFormed a.digits)
    (hb : WellFormed b.digits) :
    (magnitude a.digits < magnitude b.digits →
        magnitude (subtractMagnitudes a b).digits + magnitude a.digits = magnitude b.digits ∧
          (subtractMagnitudes a b).negative = !b.negative) ∧
      (magnitude b.digits ≤ magnitude a.digits →
        magnitude (subtractMagnitudes a b).digits + magnitude b.digits = magnitude a.digits ∧
          (subtractMagnitudes a b).negative = a.negative) ∧
      WellFormed (subtractMagnitudes a b).digits := by
  have hsw := swap_iff a.digits b.digits ha hb
  by_cases hlt : magnitude a.digits < magnitude b.digits
  · have hcond := hsw.mpr hlt
    have hlen : a.digits.length ≤ b.digits.length := by
      rcases hcond with h | ⟨h, -⟩ <;> omega
    obtain ⟨i1, i2, i3⟩ := subLoop_spec b.digits a.digits 0 hlen hb.2.1 ha.2.1 (by omega)
      (by omega)
    have hd : (subtractMagnitudes a b).digits = trimAbove 1 (subLoop b.digits a.digits 0) := by
      simp [subtractMagnitudes, hcond]
    have hn : (subtractMagnitudes a b).negative = !b.negative := by
      simp [subtractMagnitudes, hcond]
    refine ⟨fun _ => ⟨?_, hn⟩, fun h => absurd hlt (by omega), ?_, ?_, ?_⟩
    · rw [hd, magnitude_trimAbove]; omega
    · rw [hd]; apply trimAbove_ne_nil
      intro h0; rw [h0] at i3
      have := List.length_pos.mpr hb.1
      simp at i3; omega
    · rw [hd]; exact limbsOk_trimAbove 1 i2
    · rw [hd]; exact normalized_trimAbove _
  · have hcond : ¬(a.digits.length < b.digits.length ∨
        (a.digits.length = b.digits.length ∧ compareDigits a.digits b.digits < 0)) :=
      fun h => hlt (hsw.mp h)
    have hlen : b.digits.length ≤ a.digits.length := by
      by_contra h; exact hcond (Or.inl (by omega))
    obtain ⟨i1, i2, i3⟩ := subLoop_spec a.digits b.digits 0 hlen ha.2.1 hb.2.1 (by omega)
      (by omega)
    have hd : (subtractMagnitudes a b).digits = trimAbove 1 (subLoop a.digits b.digits 0) := by
      simp [subtractMagnitudes, hcond]
    have hn : (subtractMagnitudes a b).negative = a.negative := by
      simp [subtractMagnitudes, hcond]
    refine ⟨fun h => absurd h hlt, fun _ => ⟨?_, hn⟩, ?_, ?_, ?_⟩
    · rw [hd, magnitude_trimAbove]; omega
    · rw [hd]; apply trimAbove_ne_nil
      intro h0; rw [h0] at i3
      have := List.length_pos.mpr ha.1
      simp at i3; omega
    · rw [hd]; exact limbsOk_trimAbove 1 i2
    · rw [hd]; exact normalized_trimAbove _

/-- Magnitude addition adds the values of operands of equal sign. -/
theorem value_addMagnitudes (a b : ArbitraryInt) (ha : WellFormed a.digits)
    (hb : WellFormed b.digits) (hs : a.negative = b.negative) :
    value (addMagnitudes a b) = value a + value b := by
  obtain ⟨h1, h2, -⟩ := addMagnitudes_spec a b ha.2.1 hb.2.1 ha.1
  simp only [value, h1, h2, ← hs]
  split_ifs <;> push_cast <;> ring

/-- Magnitude subtraction subtracts the values of operands of equal sign. -/
theorem value_subtractMagnitudes (a b : ArbitraryInt) (ha : WellFormed a.digits)
    (hb : WellFormed b.digits) (hs : a.negative = b.negative) :
    value (subtractMagnitudes a b) = value a - value b := by
  obtain ⟨h1, h2, -⟩ := subtractMagnitudes_spec a b ha hb
  by_cases hlt : magnitude a.digits < magnitude b.digits
  · obtain ⟨e1, e2⟩ := h1 hlt
    have e3 : (magnitude b.digits : Int) =
        magnitude (subtractMagnitudes a b).digits + magnitude a.digits := by
      exact_mod_cast e1.symm
    simp only [value, e2, e3, hs]
    cases b.negative <;> simp
  · obtain ⟨e1, e2⟩ := h2 (by omega)
    have e3 : (magnitude a.digits : Int) =
        magnitude (subtractMagnitudes a b).digits + magnitude b.digits := by
      exact_mod_cast e1.symm
    simp only [value, e2, e3, ← hs]
    cases a.negative <;> simp

/-! ## `Subtract` on the heap -/

/-- The call `a.Subtract(b)` on operands of different sign: the flag of `b` is flipped, the
magnitudes are added, and the flag of `b` is flipped back. -/
theorem Subtract_diff (h : Heap) (a b : Nat) (hd : (h.read a).negative ≠ (h.read b).negative) :
    Subtract h a b =
      (((h.flipNegative b).alloc (addMagnitudes (h.read a)
          { digits := (h.read b).digits, negative := !(h.read b).negative })).1.flipNegative b,
        h.next) := by
  have hab : a ≠ b := by rintro rfl; exact hd rfl
  have hs : ((h.flipNegative b).read a).negative = ((h.flipNegative b).read b).negative := by
    simp only [read_flipNegative, if_neg hab, if_true]
    rcases Bool.eq_false_or_eq_true (h.read a).negative with x | x <;>
      rcases Bool.eq_false_or_eq_true (h.read b).negative with y | y <;>
      simp [x, y] at hd ⊢
  rw [Subtract, dif_pos hd]
  simp only [Add_same _ _ _ hs]
  simp [hab]

theorem eta_arbitraryInt (x : ArbitraryInt) :
    ({ digits := x.digits, negative := x.negative } : ArbitraryInt) = x := rfl

/-- The call `a.Subtract(b)` changes no allocated object other than through the pointer `b`,
and `b` is restored. -/
theorem Subtract_frame (h : Heap) (a b p : Nat) (hb : b < h.next) (hp : p < h.next) :
    (Subtract h a b).1.read p = h.read p := by
  by_cases hs : (h.read a).negative = (h.read b).negative
  · rw [Subtract_same h a b hs, read_alloc, if_neg (by omega)]
  · rw [Subtract_diff h a b hs]
    have hbn : b ≠ h.next := by omega
    have hpn : p ≠ h.next := by omega
    by_cases hpb : p = b
    · subst hpb
      simp [hbn]
    · simp [hpb, hpn]

/-- The result of `a.Subtract(b)` is the object at the fresh pointer. -/
theorem Subtract_ptr (h : Heap) (a b : Nat) : (Subtract h a b).2 = h.next := by
  by_cases hs : (h.read a).negative = (h.read b).negative
  · rw [Subtract_same h a b hs, ptr_alloc]
  · rw [Subtract_diff h a b hs]

/-- The object `a.Subtract(b)` returns, by the signs of the operands. -/
theorem Subtract_result (h : Heap) (a b : Nat) (hb : b < h.next) :
    (Subtract h a b).1.read (Subtract h a b).2 =
      if (h.read a).negative = (h.read b).negative then
        subtractMagnitudes (h.read a) (h.read b)
      else addMagnitudes (h.read a)
        { digits := (h.read b).digits, negative := !(h.read b).negative } := by
  by_cases hs : (h.read a).negative = (h.read b).negative
  · rw [Subtract_same h a b hs]; simp [hs]
  · rw [Subtract_diff h a b hs]
    have hbn : h.next ≠ b := by omega
    simp [hs, hbn]

/-! ## Schoolbook multiplication -/

theorem getD_lt_of_limbsOk {xs : List Nat} (h : LimbsOk xs) (k : Nat) :
    xs.getD k 0 < 1000000000 := by
  by_cases hk : k < xs.length
  · rw [List.getD_eq_getElem _ _ hk]
    exact h _ (List.getElem_mem hk)
  · rw [List.getD_eq_default _ _ (by omega)]; decide

theorem limbsOk_set {xs : List Nat} (h : LimbsOk xs) (k v : Nat) (hv : v < 1000000000) :
    LimbsOk (xs.set k v) := by
  intro d hd
  rcases List.mem_or_eq_of_mem_set hd with h1 | h1
  · exact h d h1
  · rw [h1]; exact hv

theorem magnitude_set (xs : List Nat) : ∀ (k v : Nat), k < xs.length →
    magnitude (xs.set k v) + 1000000000 ^ k * xs.getD k 0 = magnitude xs + 1000000000 ^ k * v := by
  induction xs with
  | nil => intro k v hk; simp at hk
  | cons x xs ih =>
    intro k v hk
    cases k with
    | zero => simp [magnitude_cons]; omega
    | succ k =>
      have := ih k v (by simpa using hk)
      simp only [List.set_cons_succ, magnitude_cons, List.getD_cons_succ, pow_succ]
      have e1 : 1000000000 ^ k * 1000000000 * xs.getD k 0
          = 1000000000 * (1000000000 ^ k * xs.getD k 0) := by ring
      have e2 : 1000000000 ^ k * 1000000000 * v = 1000000000 * (1000000000 ^ k * v) := by ring
      rw [e1, e2]
      omega

theorem getD_set_ne (xs : List Nat) (k j v : Nat) (h : j ≠ k) :
    (xs.set k v).getD j 0 = xs.getD j 0 := by
  simp [List.getD_eq_getElem?_getD, List.getElem?_set, Ne.symm h]

theorem getD_set_eq (xs : List Nat) (k v : Nat) (h : k < xs.length) :
    (xs.set k v).getD k 0 = v := by
  simp [List.getD_eq_getElem?_getD, List.getElem?_set, h]

theorem mulInner_spec (m i : Nat) (hm : m < 1000000000) (bs : List Nat) :
    ∀ (j : Nat) (result : List Nat) (carry : Nat), LimbsOk bs → LimbsOk result →
      i + j + bs.length ≤ result.length → carry < 1000000000 →
      (mulInner m i bs j result carry).1.length = result.length ∧
      LimbsOk (mulInner m i bs j result carry).1 ∧
      (mulInner m i bs j result carry).2 < 1000000000 ∧
      magnitude (mulInner m i bs j result carry).1 +
          1000000000 ^ (i + j + bs.length) * (mulInner m i bs j result carry).2
        = magnitude result + 1000000000 ^ (i + j) * (m * magnitude bs + carry) ∧
      ∀ k, i + j + bs.length ≤ k →
        (mulInner m i bs j result carry).1.getD k 0 = result.getD k 0 := by
  induction bs with
  | nil =>
    intro j result carry _ hr _ hc
    simp [mulInner, hr, hc]
  | cons y bs ih =>
    intro j result carry hb hr hlen hc
    obtain ⟨hy, hbs⟩ := limbsOk_cons.mp hb
    have hrk := getD_lt_of_limbsOk hr (i + j)
    have hmy : m * y ≤ 999999999 * 999999999 := Nat.mul_le_mul (by omega) (by omega)
    have hprod : add64 (add64 (mul64 m y) (result.getD (i + j) 0)) carry
        = m * y + result.getD (i + j) 0 + carry := by
      simp only [add64, mul64, two64]; omega
    simp only [List.length_cons] at hlen
    simp only [mulInner, hprod, digitBase]
    have hlimb : (m * y + result.getD (i + j) 0 + carry) % 1000000000 % two32
        = (m * y + result.getD (i + j) 0 + carry) % 1000000000 := by
      simp only [two32]; omega
    rw [hlimb]
    have hlimb_lt : (m * y + result.getD (i + j) 0 + carry) % 1000000000 < 1000000000 :=
      Nat.mod_lt _ (by decide)
    have hcarry : (m * y + result.getD (i + j) 0 + carry) / 1000000000 < 1000000000 := by omega
    obtain ⟨i1, i2, i3, i4, i5⟩ := ih (j + 1)
      (result.set (i + j) ((m * y + result.getD (i + j) 0 + carry) % 1000000000))
      ((m * y + result.getD (i + j) 0 + carry) / 1000000000) hbs
      (limbsOk_set hr _ _ hlimb_lt) (by simp only [List.length_set]; omega) hcarry
    have hset := magnitude_set result (i + j)
      ((m * y + result.getD (i + j) 0 + carry) % 1000000000) (by omega)
    have hmod := Nat.mod_add_div (m * y + result.getD (i + j) 0 + carry) 1000000000
    refine ⟨by rw [i1, List.length_set], i2, i3, ?_, ?_⟩
    · simp only [magnitude_cons, List.length_cons]
      zify at i4 hset hmod ⊢
      linear_combination i4 + hset + (1000000000 : ℤ) ^ (i + j) * hmod
    · intro k hk
      simp only [List.length_cons] at hk
      rw [i5 k (by omega), getD_set_ne _ _ _ _ (by omega)]

theorem mulOuter_spec (b : List Nat) (hb : LimbsOk b) (as : List Nat) :
    ∀ (i : Nat) (result : List Nat), LimbsOk as → LimbsOk result →
      i + as.length + b.length ≤ result.length →
      (∀ k, i + b.length ≤ k → result.getD k 0 = 0) →
      (mulOuter b as i result).length = result.length ∧ LimbsOk (mulOuter b as i result) ∧
      magnitude (mulOuter b as i result)
        = magnitude result + 1000000000 ^ i * (magnitude as * magnitude b) := by
  induction as with
  | nil =>
    intro i result _ hr _ _
    simp [mulOuter, hr]
  | cons m as ih =>
    intro i result ha hr hlen hz
    obtain ⟨hm, has⟩ := limbsOk_cons.mp ha
    simp only [List.length_cons] at hlen
    unfold mulOuter
    split_ifs with h0
    · obtain ⟨i1, i2, i3⟩ := ih (i + 1) result has hr (by omega) (fun k hk => hz k (by omega))
      refine ⟨i1, i2, ?_⟩
      rw [i3, h0, magnitude_cons]; ring
    · obtain ⟨j1, j2, j3, j4, j5⟩ := mulInner_spec m i hm b 0 result 0 hb hr (by omega)
        (by decide)
      simp only [add_zero] at j4 j5
      -- the buffer after the carry has been stored
      have key : ∀ r1 : List Nat,
          r1 = (if (mulInner m i b 0 result 0).2 > 0 then
              (mulInner m i b 0 result 0).1.set (i + b.length)
                (add32 ((mulInner m i b 0 result 0).1.getD (i + b.length) 0)
                  ((mulInner m i b 0 result 0).2 % two32))
            else (mulInner m i b 0 result 0).1) →
          r1.length = result.length ∧ LimbsOk r1 ∧
            magnitude r1 = magnitude result + 1000000000 ^ i * (m * magnitude b) ∧
            ∀ k, i + 1 + b.length ≤ k → r1.getD k 0 = 0 := by
        intro r1 hr1
        have hz0 : (mulInner m i b 0 result 0).1.getD (i + b.length) 0 = 0 := by
          rw [j5 _ (le_refl _)]; exact hz _ (le_refl _)
        split_ifs at hr1 with hc
        · have hv : add32 ((mulInner m i b 0 result 0).1.getD (i + b.length) 0)
              ((mulInner m i b 0 result 0).2 % two32) = (mulInner m i b 0 result 0).2 := by
            rw [hz0]; simp only [add32, two32]; omega
          rw [hv] at hr1
          have hset := magnitude_set (mulInner m i b 0 result 0).1 (i + b.length)
            (mulInner m i b 0 result 0).2 (by omega)
          rw [hz0] at hset
          subst hr1
          refine ⟨by rw [List.length_set, j1], limbsOk_set j2 _ _ j3, by omega, ?_⟩
          intro k hk
          rw [getD_set_ne _ _ _ _ (by omega), j5 k (by omega)]
          exact hz k (by omega)
        · have hc0 : (mulInner m i b 0 result 0).2 = 0 := by omega
          rw [hc0] at j4
          subst hr1
          refine ⟨j1, j2, by omega, ?_⟩
          intro k hk
          rw [j5 k (by omega)]
          exact hz k (by omega)
      obtain ⟨k1, k2, k3, k4⟩ := key _ rfl
      obtain ⟨i1, i2, i3⟩ := ih (i + 1) _ has k2 (by rw [k1]; omega) k4
      refine ⟨by rw [i1, k1], i2, ?_⟩
      rw [i3, k3, magnitude_cons]; ring

theorem getD_replicate_zero (n k : Nat) : (List.replicate n 0).getD k 0 = 0 := by
  by_cases hk : k < n
  · rw [List.getD_eq_getElem _ _ (by simpa using hk)]; simp
  · rw [List.getD_eq_default _ _ (by simp; omega)]

/-- Schoolbook multiplication is exact on limbs below `10^9`, and its result is trimmed. -/
theorem longMultiply_spec (a b : ArbitraryInt) (negative : Bool) (ha : LimbsOk a.digits)
    (hb : LimbsOk b.digits) :
    magnitude (longMultiply a b negative).digits = magnitude a.digits * magnitude b.digits ∧
      (longMultiply a b negative).negative = negative ∧
      WellFormed (longMultiply a b negative).digits := by
  obtain ⟨i1, i2, i3⟩ := mulOuter_spec b.digits hb a.digits 0
    (List.replicate (a.digits.length + b.digits.length) 0) ha (limbsOk_replicate_zero _)
    (by simp) (fun k _ => getD_replicate_zero _ k)
  rw [magnitude_replicate_zero] at i3
  simp only [pow_zero, one_mul, zero_add] at i3
  obtain ⟨t1, t2, -, -, t5⟩ := trimLoop_spec 0
    (mulOuter b.digits a.digits 0
      (List.replicate (a.digits.length + b.digits.length) 0)).length
    (mulOuter b.digits a.digits 0 (List.replicate (a.digits.length + b.digits.length) 0))
  refine ⟨?_, rfl, ?_⟩
  · simp only [longMultiply, trimAbove]
    split_ifs with h0
    · rw [List.length_eq_zero] at h0
      rw [h0] at t1
      rw [← i3, ← t1]; simp
    · rw [t1, i3]
  · simp only [longMultiply, trimAbove]
    split_ifs with h0
    · refine ⟨by simp, ?_, ?_⟩
      · intro d hd; simp at hd; subst hd; decide
      · intro h; simp at h
    · refine ⟨fun h => h0 (by rw [h]; rfl), t2 i2, fun _ => t5 (le_refl _) ?_⟩
      exact Nat.pos_of_ne_zero h0

/-- On the schoolbook path `Multiply` is `longMultiply`. -/
theorem Multiply_small (a b : ArbitraryInt) (ha : a.digits ≠ []) (hb : b.digits ≠ [])
    (hs : a.digits.length ≤ 32 ∨ b.digits.length ≤ 32) :
    Multiply a b = longMultiply a b (a.negative != b.negative) := by
  have h0 : ¬(a.digits.length = 0 ∨ b.digits.length = 0) := by
    simp [List.length_eq_zero, ha, hb]
  rw [Multiply, if_neg h0]
  simp only
  split_ifs with h1
  · rw [karatsubaMultiply, dif_pos hs]
  · rfl

theorem value_longMultiply (a b : ArbitraryInt) (ha : LimbsOk a.digits) (hb : LimbsOk b.digits) :
    value (longMultiply a b (a.negative != b.negative)) = value a * value b := by
  obtain ⟨h1, h2, -⟩ := longMultiply_spec a b (a.negative != b.negative) ha hb
  simp only [value, h1, h2]
  cases a.negative <;> cases b.negative <;> simp

/-! ## Decimal numerals -/

theorem toDigitsCore_append (fuel : Nat) : ∀ (n : Nat) (ds : List Char),
    Nat.toDigitsCore 10 fuel n ds = Nat.toDigitsCore 10 fuel n [] ++ ds := by
  induction fuel with
  | zero => intro n ds; simp [Nat.toDigitsCore]
  | succ fuel ih =>
    intro n ds
    simp only [Nat.toDigitsCore]
    split_ifs with h
    · simp
    · rw [ih (n / 10) (Nat.digitChar (n % 10) :: ds), ih (n / 10) [Nat.digitChar (n % 10)]]
      simp

theorem toDigitsCore_fuel (n : Nat) : ∀ (f1 f2 : Nat), n < f1 → n < f2 →
    Nat.toDigitsCore 10 f1 n [] = Nat.toDigitsCore 10 f2 n [] := by
  induction n using Nat.strong_induction_on with
  | _ n ih =>
    intro f1 f2 h1 h2
    obtain ⟨g1, rfl⟩ : ∃ g, f1 = g + 1 := ⟨f1 - 1, by omega⟩
    obtain ⟨g2, rfl⟩ : ∃ g, f2 = g + 1 := ⟨f2 - 1, by omega⟩
    simp only [Nat.toDigitsCore]
    split_ifs with h
    · rfl
    · rw [toDigitsCore_append g1, toDigitsCore_append g2,
        ih (n / 10) (by omega) g1 g2 (by omega) (by omega)]

theorem toDigits_lt_ten (n : Nat) (h : n < 10) : Nat.toDigits 10 n = [Nat.digitChar n] := by
  have h0 : n / 10 = 0 := by omega
  have h1 : n % 10 = n := by omega
  simp [Nat.toDigits, Nat.toDigitsCore, h0, h1]

theorem toDigits_step (n : Nat) (h : 10 ≤ n) :
    Nat.toDigits 10 n = Nat.toDigits 10 (n / 10) ++ [Nat.digitChar (n % 10)] := by
  have h0 : n / 10 ≠ 0 := by omega
  have e : Nat.toDigits 10 n = Nat.toDigitsCore 10 n (n / 10) [Nat.digitChar (n % 10)] := by
    simp only [Nat.toDigits, Nat.toDigitsCore, if_neg h0]
  rw [e, toDigitsCore_append, toDigitsCore_fuel (n / 10) n (n / 10 + 1) (by omega) (by omega)]
  rfl

theorem padTo_succ (k lo : Nat) (hk : 1 ≤ k) :
    padTo (k + 1) lo = padTo k (lo / 10) ++ [Nat.digitChar (lo % 10)] := by
  by_cases h : 10 ≤ lo
  · simp only [padTo, toDigits_step lo h, List.length_append, List.length_singleton,
      Nat.add_sub_add_right, List.append_assoc]
  · have h1 : lo / 10 = 0 := by omega
    have h2 : lo % 10 = lo := by omega
    rw [padTo, padTo, toDigits_lt_ten lo (by omega), h1, h2, toDigits_lt_ten 0 (by decide)]
    simp only [List.length_singleton, Nat.add_sub_cancel]
    obtain ⟨j, rfl⟩ : ∃ j, k = j + 1 := ⟨k - 1, by omega⟩
    simp only [Nat.add_sub_cancel, List.replicate_succ', List.append_assoc]
    rfl

theorem toDigits_mul_pow_add (k : Nat) (hk : 1 ≤ k) : ∀ (hi lo : Nat), 0 < hi → lo < 10 ^ k →
    Nat.toDigits 10 (hi * 10 ^ k + lo) = Nat.toDigits 10 hi ++ padTo k lo := by
  induction k, hk using Nat.le_induction with
  | base =>
    intro hi lo hhi hlo
    simp only [pow_one] at hlo ⊢
    rw [toDigits_step _ (by omega)]
    have e1 : (hi * 10 + lo) / 10 = hi := by omega
    have e2 : (hi * 10 + lo) % 10 = lo := by omega
    rw [e1, e2, padTo, toDigits_lt_ten lo hlo]
    simp
  | succ k hk ih =>
    intro hi lo hhi hlo
    have hp : 0 < 10 ^ k := pow_pos (by decide) k
    have hge : 10 ≤ hi * 10 ^ (k + 1) + lo := by
      have : 10 ^ (k + 1) = 10 * 10 ^ k := by ring
      nlinarith
    rw [toDigits_step _ hge, padTo_succ k lo hk]
    have e1 : (hi * 10 ^ (k + 1) + lo) / 10 = hi * 10 ^ k + lo / 10 := by
      have : hi * 10 ^ (k + 1) = 10 * (hi * 10 ^ k) := by ring
      rw [this]; omega
    have e2 : (hi * 10 ^ (k + 1) + lo) % 10 = lo % 10 := by
      have : hi * 10 ^ (k + 1) = 10 * (hi * 10 ^ k) := by ring
      rw [this]; omega
    have hlo2 : lo / 10 < 10 ^ k := by
      have : 10 ^ (k + 1) = 10 * 10 ^ k := by ring
      omega
    rw [e1, e2, ih hi (lo / 10) hhi hlo2, List.append_assoc]

theorem readDecimalNat_snoc (s : List Char) (c : Char) :
    readDecimalNat (s ++ [c]) = readDecimalNat s * 10 + (c.toNat - '0'.toNat) := by
  simp [readDecimalNat, List.foldl_append]

theorem digitChar_toNat (d : Nat) (h : d < 10) : (Nat.digitChar d).toNat - '0'.toNat = d := by
  interval_cases d <;> rfl

theorem digitChar_ne_minus (d : Nat) (h : d < 10) : Nat.digitChar d ≠ '-' := by
  interval_cases d <;> decide

theorem readDecimalNat_toDigits (n : Nat) : readDecimalNat (Nat.toDigits 10 n) = n := by
  induction n using Nat.strong_induction_on with
  | _ n ih =>
    by_cases h : 10 ≤ n
    · rw [toDigits_step n h, readDecimalNat_snoc, ih (n / 10) (by omega),
        digitChar_toNat _ (Nat.mod_lt _ (by decide))]
      omega
    · rw [toDigits_lt_ten n (by omega)]
      simpa [readDecimalNat] using digitChar_toNat n (by omega)

theorem toDigits_head (n : Nat) :
    ∃ c t, Nat.toDigits 10 n = c :: t ∧ c ≠ '-' ∧ (c = '0' → n = 0) := by
  induction n using Nat.strong_induction_on with
  | _ n ih =>
    by_cases h : 10 ≤ n
    · obtain ⟨c, t, e, hc, hz⟩ := ih (n / 10) (by omega)
      refine ⟨c, t ++ [Nat.digitChar (n % 10)], ?_, hc, ?_⟩
      · rw [toDigits_step n h, e]; rfl
      · intro h0; have := hz h0; omega
    · refine ⟨Nat.digitChar n, [], toDigits_lt_ten n (by omega), digitChar_ne_minus n (by omega),
        ?_⟩
      have hn : n < 10 := by omega
      interval_cases n <;> simp [Nat.digitChar]

theorem readDecimalInt_toDigits (n : Nat) : readDecimalInt (Nat.toDigits 10 n) = n := by
  obtain ⟨c, t, e, hc, -⟩ := toDigits_head n
  have := readDecimalNat_toDigits n
  rw [e] at this ⊢
  unfold readDecimalInt
  split
  · rename_i heq; simp at heq; exact absurd heq.1 hc
  · rw [this]

theorem readDecimalInt_neg_toDigits (n : Nat) :
    readDecimalInt ('-' :: Nat.toDigits 10 n) = -(n : Int) := by
  simp [readDecimalInt, readDecimalNat_toDigits]

/-! ## `String` -/

theorem format09D_eq (n : Nat) : format09D n = padTo 9 n := rfl

theorem stringParts_snoc (l : List Nat) (hl : l ≠ []) (lo : Nat) :
    stringParts (l ++ [lo]) = stringParts l ++ [format09D lo] := by
  cases l with
  | nil => exact absurd rfl hl
  | cons top rest => simp [stringParts]

theorem stringParts_flatten (ds : List Nat) : ds ≠ [] → LimbsOk ds → ds.getLast? ≠ some 0 →
    (stringParts ds.reverse).flatten = Nat.toDigits 10 (magnitude ds) ∧ 0 < magnitude ds := by
  induction ds with
  | nil => intro h; exact absurd rfl h
  | cons lo rest ih =>
    intro _ hl hlast
    obtain ⟨hlo, hrest⟩ := limbsOk_cons.mp hl
    cases rest with
    | nil =>
      have hne : lo ≠ 0 := by simpa using hlast
      simp [stringParts, formatD]
      omega
    | cons d ds =>
      have hlast2 : (d :: ds).getLast? ≠ some 0 := by
        simpa [List.getLast?_cons_cons] using hlast
      obtain ⟨i1, i2⟩ := ih (by simp) hrest hlast2
      have hrev : (d :: ds).reverse ≠ [] := by simp
      have e : magnitude (lo :: d :: ds) = magnitude (d :: ds) * 10 ^ 9 + lo := by
        rw [magnitude_cons lo]; norm_num; ring
      rw [List.reverse_cons, stringParts_snoc _ hrev, List.flatten_append, i1, e,
        toDigits_mul_pow_add 9 (by decide) _ _ i2 (by norm_num; exact hlo)]
      refine ⟨by simp [format09D_eq], by omega⟩

/-- The method `String` renders a valid value as the sign and the decimal numeral of the
magnitude. -/
theorem String_eq (v : ArbitraryInt) (hv : Valid v) :
    v.String = (if v.negative then ['-'] else []) ++ Nat.toDigits 10 (magnitude v.digits) := by
  obtain ⟨hne, hl, hn, hz⟩ := hv
  unfold ArbitraryInt.String
  split_ifs with h0 hneg hneg
  · rcases h0 with h0 | ⟨h1, h2⟩
    · exact absurd (List.length_eq_zero.mp h0) hne
    · obtain ⟨d, hd⟩ := List.length_eq_one.mp h1
      rw [hd] at h2; simp at h2; subst h2
      have := hz hd; rw [hneg] at this; cases this
  · rcases h0 with h0 | ⟨h1, h2⟩
    · exact absurd (List.length_eq_zero.mp h0) hne
    · obtain ⟨d, hd⟩ := List.length_eq_one.mp h1
      rw [hd] at h2; simp at h2; subst h2
      rw [hd]; rfl
  all_goals
    have hlast : v.digits.getLast? ≠ some 0 := by
      by_cases h1 : 1 < v.digits.length
      · exact hn h1
      · have h2 : v.digits.length = 1 := by
          have := List.length_pos.mpr hne; omega
        obtain ⟨d, hd⟩ := List.length_eq_one.mp h2
        rw [hd] at h0 ⊢
        simpa using h0
    simp [(stringParts_flatten v.digits hne hl hlast).1]

/-! ## Parsing: the cases of `NewArbitraryInt` -/

theorem char_le_iff (a b : Char) : a ≤ b ↔ a.toNat ≤ b.toNat := by
  rfl

theorem isHexDigit_toNat (c : Char) (h : isHexDigit c = true) :
    (48 ≤ c.toNat ∧ c.toNat ≤ 57) ∨ (97 ≤ c.toNat ∧ c.toNat ≤ 102) ∨
      (65 ≤ c.toNat ∧ c.toNat ≤ 70) := by
  simp only [isHexDigit, decide_eq_true_eq, char_le_iff] at h
  exact h

theorem digitValue_of_isHexDigit (c : Char) (h : isHexDigit c = true) :
    ∃ v, digitValue c = some v ∧ v < 16 := by
  have hn := isHexDigit_toNat c h
  unfold digitValue
  simp only [char_le_iff]
  have e0 : '0'.toNat = 48 := rfl
  have e9 : '9'.toNat = 57 := rfl
  have ea : 'a'.toNat = 97 := rfl
  have ez : 'z'.toNat = 122 := rfl
  have eA : 'A'.toNat = 65 := rfl
  have eZ : 'Z'.toNat = 90 := rfl
  rw [e0, e9, ea, ez, eA, eZ]
  split_ifs with h1 h2 h3
  · exact ⟨_, rfl, by omega⟩
  · exact ⟨_, rfl, by omega⟩
  · exact ⟨_, rfl, by omega⟩
  · omega

theorem digitRun_eq (t : List Char) : digitRun t = stripSign (literalBase t).2 := rfl

theorem matchSignedRun_iff (cls : Char → Bool) (r : List Char) :
    matchSignedRun cls r = true ↔ stripSign r ≠ [] ∧ ∀ c ∈ stripSign r, cls c = true := by
  unfold matchSignedRun stripSign
  split <;> simp

theorem NewArbitraryInt_empty (s : List Char) (h : trimSpace s = []) :
    NewArbitraryInt s = Result.error Error.emptyString := by
  simp [NewArbitraryInt, h]

theorem NewArbitraryInt_hex_invalid (s : List Char) (c : Char) (rest : List Char)
    (h : trimSpace s = '0' :: 'x' :: c :: rest)
    (hv : matchSignedRun isHexDigit (c :: rest) = false) :
    NewArbitraryInt s = Result.error (Error.invalidFormat 16) := by
  simp [NewArbitraryInt, h, hv]

theorem NewArbitraryInt_bin_invalid (s : List Char) (c : Char) (rest : List Char)
    (h : trimSpace s = '0' :: 'b' :: c :: rest)
    (hv : matchSignedRun isBinaryDigit (c :: rest) = false) :
    NewArbitraryInt s = Result.error (Error.invalidFormat 2) := by
  simp [NewArbitraryInt, h, hv]

theorem NewArbitraryInt_dec_invalid (s : List Char) (h0 : trimSpace s ≠ [])
    (hx : ¬(2 < (trimSpace s).length ∧ (trimSpace s).take 2 = ['0', 'x']))
    (hb : ¬(2 < (trimSpace s).length ∧ (trimSpace s).take 2 = ['0', 'b']))
    (hv : matchSignedRun isDecimalDigit (trimSpace s) = false) :
    NewArbitraryInt s = Result.error (Error.invalidFormat 10) := by
  simp [NewArbitraryInt, h0, hx, hb, hv]

theorem matchSignedRun_false (cls : Char → Bool) (r : List Char)
    (h : stripSign r = [] ∨ ∃ c ∈ stripSign r, cls c = false) : matchSignedRun cls r = false := by
  rw [Bool.eq_false_iff]
  intro hm
  obtain ⟨h1, h2⟩ := (matchSignedRun_iff cls r).mp hm
  rcases h with h | ⟨c, hc, hbad⟩
  · exact h1 h
  · have := h2 c hc
    rw [hbad] at this; cases this

theorem take_two_eq (t : List Char) (a b : Char) (h : t.take 2 = [a, b]) :
    ∃ rest, t = a :: b :: rest := by
  refine ⟨t.drop 2, ?_⟩
  have := List.take_append_drop 2 t
  rw [h] at this
  exact this.symm

theorem literalBase_other (t : List Char) (hx : ¬∃ rest, t = '0' :: 'x' :: rest)
    (hb : ¬∃ rest, t = '0' :: 'b' :: rest) : literalBase t = (10, t) := by
  unfold literalBase
  split
  · exact absurd ⟨_, rfl⟩ hx
  · exact absurd ⟨_, rfl⟩ hb
  · rfl

/-- The statement of C18 on the trimmed literal. -/
theorem NewArbitraryInt_rejects (s : List Char)
    (h : trimSpace s = [] ∨ digitRun (trimSpace s) = [] ∨
      ∃ c ∈ digitRun (trimSpace s), inAlphabet (literalBase (trimSpace s)).1 c = false) :
    ∃ e, NewArbitraryInt s = Result.error e := by
  by_cases h0 : trimSpace s = []
  · exact ⟨_, NewArbitraryInt_empty s h0⟩
  have h' : digitRun (trimSpace s) = [] ∨
      ∃ c ∈ digitRun (trimSpace s), inAlphabet (literalBase (trimSpace s)).1 c = false := by
    rcases h with h | h
    · exact absurd h h0
    · exact h
  by_cases hx : ∃ rest, trimSpace s = '0' :: 'x' :: rest
  · obtain ⟨rest, ht⟩ := hx
    cases rest with
    | nil =>
      refine ⟨_, NewArbitraryInt_dec_invalid s h0 ?_ ?_ ?_⟩
      · rw [ht]; simp
      · rw [ht]; simp
      · rw [ht]; decide
    | cons c rest =>
      refine ⟨_, NewArbitraryInt_hex_invalid s c rest ht (matchSignedRun_false _ _ ?_)⟩
      rw [ht] at h'
      exact h'
  by_cases hb : ∃ rest, trimSpace s = '0' :: 'b' :: rest
  · obtain ⟨rest, ht⟩ := hb
    cases rest with
    | nil =>
      refine ⟨_, NewArbitraryInt_dec_invalid s h0 ?_ ?_ ?_⟩
      · rw [ht]; simp
      · rw [ht]; simp
      · rw [ht]; decide
    | cons c rest =>
      refine ⟨_, NewArbitraryInt_bin_invalid s c rest ht (matchSignedRun_false _ _ ?_)⟩
      rw [ht] at h'
      exact h'
  · refine ⟨_, NewArbitraryInt_dec_invalid s h0 ?_ ?_ (matchSignedRun_false _ _ ?_)⟩
    · rintro ⟨-, htk⟩; exact hx (take_two_eq _ _ _ htk)
    · rintro ⟨-, htk⟩; exact hb (take_two_eq _ _ _ htk)
    · rw [digitRun_eq, literalBase_other _ hx hb] at h'
      exact h'

theorem stripSign_cons (c : Char) (q : List Char) :
    stripSign (c :: q) = if c = '-' then q else c :: q := by
  by_cases hc : c = '-'
  · subst hc; rfl
  · rw [if_neg hc]
    unfold stripSign
    split
    · rename_i q' heq
      cases heq
      exact absurd rfl hc
    · rfl

theorem tail_sign_eq (r : List Char) :
    (if r.head? = some '-' then r.tail else r) = stripSign r := by
  cases r with
  | nil => rfl
  | cons c q => simp [stripSign_cons]

theorem NewArbitraryInt_hex_valid (s : List Char) (c : Char) (rest : List Char)
    (h : trimSpace s = '0' :: 'x' :: c :: rest)
    (hv : matchSignedRun isHexDigit (c :: rest) = true) :
    NewArbitraryInt s =
      match setString (normalizeRun (c :: rest)) 16 with
      | none => Result.error Error.parseFailed
      | some val =>
        Result.ok { digits := packDigits (Nat.toDigits 10 val), negative := hasSign (c :: rest) } := by
  have e := (stripSign_cons c rest).symm
  simp [NewArbitraryInt, h, hv, normalizeRun, hasSign, e]

theorem NewArbitraryInt_bin_valid (s : List Char) (c : Char) (rest : List Char)
    (h : trimSpace s = '0' :: 'b' :: c :: rest)
    (hv : matchSignedRun isBinaryDigit (c :: rest) = true) :
    NewArbitraryInt s =
      match setString (normalizeRun (c :: rest)) 2 with
      | none => Result.error Error.parseFailed
      | some val =>
        Result.ok { digits := packDigits (Nat.toDigits 10 val), negative := hasSign (c :: rest) } := by
  have e := (stripSign_cons c rest).symm
  simp [NewArbitraryInt, h, hv, normalizeRun, hasSign, e]

theorem NewArbitraryInt_dec_valid (s : List Char) (h0 : trimSpace s ≠ [])
    (hx : ¬(2 < (trimSpace s).length ∧ (trimSpace s).take 2 = ['0', 'x']))
    (hb : ¬(2 < (trimSpace s).length ∧ (trimSpace s).take 2 = ['0', 'b']))
    (hv : matchSignedRun isDecimalDigit (trimSpace s) = true) :
    NewArbitraryInt s =
      Result.ok { digits := packDigits (normalizeRun (trimSpace s)),
                  negative := hasSign (trimSpace s) } := by
  have e := tail_sign_eq (trimSpace s)
  simp [NewArbitraryInt, h0, hx, hb, hv, normalizeRun, hasSign, e]

theorem isBinaryDigit_iff (c : Char) : isBinaryDigit c = true ↔ c = '0' ∨ c = '1' := by
  simp [isBinaryDigit]

theorem isHexDigit_of_isBinaryDigit (c : Char) (h : isBinaryDigit c = true) :
    isHexDigit c = true := by
  rcases (isBinaryDigit_iff c).mp h with rfl | rfl <;> decide

theorem digitValue_of_isBinaryDigit (c : Char) (h : isBinaryDigit c = true) :
    ∃ v, digitValue c = some v ∧ v < 2 := by
  rcases (isBinaryDigit_iff c).mp h with rfl | rfl
  · exact ⟨0, by decide, by decide⟩
  · exact ⟨1, by decide, by decide⟩

theorem setStringLoop_isSome (base : Nat) (cs : List Char)
    (h : ∀ c ∈ cs, ∃ v, digitValue c = some v ∧ v < base) (acc : Nat) :
    ∃ n, setStringLoop base cs acc = some n := by
  induction cs generalizing acc with
  | nil => exact ⟨acc, rfl⟩
  | cons c cs ih =>
    obtain ⟨v, hv, hlt⟩ := h c (List.mem_cons_self _ _)
    simp only [setStringLoop, hv, if_pos hlt]
    exact ih (fun d hd => h d (List.mem_cons_of_mem _ hd)) _

theorem normalizeRun_ne_nil (r : List Char) : normalizeRun r ≠ [] := by
  unfold normalizeRun
  split
  · simp
  · assumption

theorem mem_normalizeRun (r : List Char) (c : Char) (h : c ∈ normalizeRun r) :
    c = '0' ∨ c ∈ stripSign r := by
  unfold normalizeRun at h
  split at h
  · left; simpa using h
  · right; exact (List.dropWhile_sublist _).subset h

theorem setString_normalizeRun (base : Nat) (r : List Char) (hbase : 0 < base)
    (h : ∀ c ∈ stripSign r, ∃ v, digitValue c = some v ∧ v < base) :
    ∃ n, setString (normalizeRun r) base = some n := by
  unfold setString
  rw [if_neg (normalizeRun_ne_nil r)]
  apply setStringLoop_isSome
  intro c hc
  rcases mem_normalizeRun r c hc with rfl | hc
  · exact ⟨0, by decide, hbase⟩
  · exact h c hc

theorem stripSign_of_all (cls : Char → Bool) (hcls : cls '-' = false) (d : List Char)
    (h : ∀ c ∈ d, cls c = true) : stripSign d = d := by
  cases d with
  | nil => rfl
  | cons c q =>
    rw [stripSign_cons, if_neg]
    rintro rfl
    have := h '-' (List.mem_cons_self _ _)
    rw [hcls] at this; cases this

theorem hasSign_of_all (cls : Char → Bool) (hcls : cls '-' = false) (d : List Char)
    (h : ∀ c ∈ d, cls c = true) : hasSign d = false := by
  cases d with
  | nil => rfl
  | cons c q =>
    have hc : c ≠ '-' := by
      rintro rfl
      have := h '-' (List.mem_cons_self _ _)
      rw [hcls] at this; cases this
    simp [hasSign, hc]

theorem isSpace_of_isHexDigit (c : Char) (h : isHexDigit c = true) : isSpace c = false := by
  have hn := isHexDigit_toNat c h
  rw [Bool.eq_false_iff]
  intro hs
  simp only [isSpace, decide_eq_true_eq] at hs
  have e1 : c = '\t' → c.toNat = 9 := fun e => by rw [e]; rfl
  have e2 : c = '\n' → c.toNat = 10 := fun e => by rw [e]; rfl
  have e3 : c = '\r' → c.toNat = 13 := fun e => by rw [e]; rfl
  have e4 : c = ' ' → c.toNat = 32 := fun e => by rw [e]; rfl
  rcases hs with hs | hs | hs | hs | hs | hs | hs | hs | hs | hs | hs | hs | hs | hs | hs
  · have := e1 hs; omega
  · have := e2 hs; omega
  · omega
  · omega
  · have := e3 hs; omega
  · have := e4 hs; omega
  all_goals omega

theorem dropWhile_isSpace_self (t : List Char) (h : ∀ c ∈ t, isSpace c = false) :
    t.dropWhile isSpace = t := by
  cases t with
  | nil => rfl
  | cons c q => simp [List.dropWhile, h c (List.mem_cons_self _ _)]

theorem trimSpace_self (t : List Char) (h : ∀ c ∈ t, isSpace c = false) : trimSpace t = t := by
  unfold trimSpace
  rw [dropWhile_isSpace_self t h, dropWhile_isSpace_self t.reverse, List.reverse_reverse]
  intro c hc
  exact h c (List.mem_reverse.mp hc)

theorem trimSpace_prefixed (a b : Char) (d : List Char) (ha : isSpace a = false)
    (hb : isSpace b = false) (h : ∀ c ∈ d, isHexDigit c = true) :
    trimSpace (a :: b :: d) = a :: b :: d := by
  apply trimSpace_self
  intro c hc
  rcases List.mem_cons.mp hc with rfl | hc
  · exact ha
  rcases List.mem_cons.mp hc with rfl | hc
  · exact hb
  · exact isSpace_of_isHexDigit c (h c hc)

theorem NewArbitraryInt_upper (s : List Char) (p : Char) (d : List Char)
    (h : trimSpace s = '0' :: p :: d) (hp : isDecimalDigit p = false) (hx : p ≠ 'x')
    (hb : p ≠ 'b') : NewArbitraryInt s = Result.error (Error.invalidFormat 10) := by
  apply NewArbitraryInt_dec_invalid
  · rw [h]; simp
  · rw [h]; simp [hx]
  · rw [h]; simp [hb]
  · apply matchSignedRun_false
    right
    refine ⟨p, ?_, hp⟩
    rw [h, stripSign_cons, if_neg (by decide)]
    simp

theorem NewArbitraryInt_hex_ok (s : List Char) (d : List Char)
    (h : trimSpace s = '0' :: 'x' :: d) (hd : d ≠ []) (hall : ∀ c ∈ d, isHexDigit c = true) :
    ∃ n, setString (normalizeRun d) 16 = some n ∧
      NewArbitraryInt s =
        Result.ok { digits := packDigits (Nat.toDigits 10 n), negative := false } := by
  have hs : stripSign d = d := stripSign_of_all isHexDigit (by decide) d hall
  obtain ⟨n, hn⟩ := setString_normalizeRun 16 d (by decide)
    (fun c hc => digitValue_of_isHexDigit c (hall c (hs ▸ hc)))
  refine ⟨n, hn, ?_⟩
  cases d with
  | nil => exact absurd rfl hd
  | cons c rest =>
    rw [NewArbitraryInt_hex_valid s c rest h
      ((matchSignedRun_iff _ _).mpr ⟨by rw [hs]; exact hd, by rw [hs]; exact hall⟩), hn,
      hasSign_of_all isHexDigit (by decide) _ hall]

theorem NewArbitraryInt_bin_ok (s : List Char) (d : List Char)
    (h : trimSpace s = '0' :: 'b' :: d) (hd : d ≠ []) (hall : ∀ c ∈ d, isBinaryDigit c = true) :
    ∃ n, setString (normalizeRun d) 2 = some n ∧
      NewArbitraryInt s =
        Result.ok { digits := packDigits (Nat.toDigits 10 n), negative := false } := by
  have hs : stripSign d = d := stripSign_of_all isBinaryDigit (by decide) d hall
  obtain ⟨n, hn⟩ := setString_normalizeRun 2 d (by decide)
    (fun c hc => digitValue_of_isBinaryDigit c (hall c (hs ▸ hc)))
  refine ⟨n, hn, ?_⟩
  cases d with
  | nil => exact absurd rfl hd
  | cons c rest =>
    rw [NewArbitraryInt_bin_valid s c rest h
      ((matchSignedRun_iff _ _).mpr ⟨by rw [hs]; exact hd, by rw [hs]; exact hall⟩), hn,
      hasSign_of_all isBinaryDigit (by decide) _ hall]

theorem normalizeRun_zeros (r : List Char) (h : ∀ c ∈ stripSign r, c = '0') :
    normalizeRun r = ['0'] := by
  unfold normalizeRun
  rw [if_pos]
  rw [List.dropWhile_eq_nil_iff]
  intro c hc
  simp [h c hc]

theorem ok_injective (a b : ArbitraryInt) (h : (Result.ok a : Result ArbitraryInt) = Result.ok b) :
    a = b := by
  injection h

/-- An accepted literal whose digit run is all zeros: the limbs are `[0]` and the sign flag
records the `'-'`. -/
theorem NewArbitraryInt_zero_run (s : List Char) (v : ArbitraryInt)
    (hacc : NewArbitraryInt s = Result.ok v)
    (hz : ∀ c ∈ digitRun (trimSpace s), c = '0') :
    v = { digits := [0], negative := hasSign (literalBase (trimSpace s)).2 } := by
  have hrej : ∀ e, NewArbitraryInt s ≠ Result.error e := by
    intro e he
    rw [he] at hacc; cases hacc
  by_cases h0 : trimSpace s = []
  · exact absurd (NewArbitraryInt_empty s h0) (hrej _)
  by_cases hx : ∃ rest, trimSpace s = '0' :: 'x' :: rest
  · obtain ⟨rest, ht⟩ := hx
    cases rest with
    | nil =>
      obtain ⟨e, he⟩ := NewArbitraryInt_rejects s (Or.inr (Or.inl (by rw [ht]; rfl)))
      exact absurd he (hrej e)
    | cons c rest =>
      rw [ht] at hz ⊢
      have hz' : ∀ c' ∈ stripSign (c :: rest), c' = '0' := hz
      cases hm : matchSignedRun isHexDigit (c :: rest) with
      | false => exact absurd (NewArbitraryInt_hex_invalid s c rest ht hm) (hrej _)
      | true =>
        have e := NewArbitraryInt_hex_valid s c rest ht hm
        rw [normalizeRun_zeros _ hz', hacc] at e
        exact ok_injective _ _ e
  by_cases hb : ∃ rest, trimSpace s = '0' :: 'b' :: rest
  · obtain ⟨rest, ht⟩ := hb
    cases rest with
    | nil =>
      obtain ⟨e, he⟩ := NewArbitraryInt_rejects s (Or.inr (Or.inl (by rw [ht]; rfl)))
      exact absurd he (hrej e)
    | cons c rest =>
      rw [ht] at hz ⊢
      have hz' : ∀ c' ∈ stripSign (c :: rest), c' = '0' := hz
      cases hm : matchSignedRun isBinaryDigit (c :: rest) with
      | false => exact absurd (NewArbitraryInt_bin_invalid s c rest ht hm) (hrej _)
      | true =>
        have e := NewArbitraryInt_bin_valid s c rest ht hm
        rw [normalizeRun_zeros _ hz', hacc] at e
        exact ok_injective _ _ e
  · have hx' : ¬(2 < (trimSpace s).length ∧ (trimSpace s).take 2 = ['0', 'x']) := by
      rintro ⟨-, htk⟩; exact hx (take_two_eq _ _ _ htk)
    have hb' : ¬(2 < (trimSpace s).length ∧ (trimSpace s).take 2 = ['0', 'b']) := by
      rintro ⟨-, htk⟩; exact hb (take_two_eq _ _ _ htk)
    rw [digitRun_eq, literalBase_other _ hx hb] at hz
    rw [literalBase_other _ hx hb]
    cases hm : matchSignedRun isDecimalDigit (trimSpace s) with
    | false => exact absurd (NewArbitraryInt_dec_invalid s h0 hx' hb' hm) (hrej _)
    | true =>
      have e := NewArbitraryInt_dec_valid s h0 hx' hb' hm
      rw [normalizeRun_zeros _ hz, hacc] at e
      exact ok_injective _ _ e

/-! ## Long division -/

theorem compareAbsoluteFrom_neg_iff (u : List Nat) : ∀ (v : List Nat), u.length = v.length →
    LimbsOk u → LimbsOk v →
    (compareAbsoluteFrom u v < 0 ↔ magnitude u.reverse < magnitude v.reverse) := by
  induction u with
  | nil =>
    intro v hlen _ _
    have : v = [] := List.length_eq_zero.mp hlen.symm
    subst this
    simp [compareAbsoluteFrom]
  | cons x us ih =>
    intro v hlen hu hv
    cases v with
    | nil => simp at hlen
    | cons y vs =>
      obtain ⟨-, hus⟩ := limbsOk_cons.mp hu
      obtain ⟨-, hvs⟩ := limbsOk_cons.mp hv
      have hlen2 : us.length = vs.length := by simpa using hlen
      have b1 := magnitude_lt us.reverse (limbsOk_reverse hus)
      have b2 := magnitude_lt vs.reverse (limbsOk_reverse hvs)
      rw [List.length_reverse] at b1 b2
      rw [← hlen2] at b2
      simp only [compareAbsoluteFrom, List.reverse_cons, magnitude_append, List.length_reverse,
        magnitude_cons, magnitude_nil, mul_zero, add_zero, ← hlen2]
      split_ifs with hgt hlt
      · have := Nat.mul_le_mul_left (1000000000 ^ us.length) (Nat.succ_le_of_lt hgt)
        rw [Nat.mul_succ] at this
        constructor
        · intro h; exact absurd h (by decide)
        · intro _; omega
      · have := Nat.mul_le_mul_left (1000000000 ^ us.length) (Nat.succ_le_of_lt hlt)
        rw [Nat.mul_succ] at this
        constructor
        · intro _; omega
        · intro _; decide
      · have hxy : x = y := by omega
        subst hxy
        rw [ih vs hlen2 hus hvs]
        omega

/-- On well-formed digits `compareAbsolute` compares the magnitudes. -/
theorem compareAbsolute_neg_iff (a b : ArbitraryInt) (ha : WellFormed a.digits)
    (hb : WellFormed b.digits) :
    compareAbsolute a b < 0 ↔ magnitude a.digits < magnitude b.digits := by
  obtain ⟨hane, hal, han⟩ := ha
  obtain ⟨hbne, hbl, hbn⟩ := hb
  have hapos : 0 < a.digits.length := List.length_pos.mpr hane
  have hbpos : 0 < b.digits.length := List.length_pos.mpr hbne
  unfold compareAbsolute
  split_ifs with hgt hlt
  · have h1 := magnitude_lt b.digits hbl
    have h2 := magnitude_ge_of_last_ne_zero a.digits hane (han (by omega))
    have h3 : 1000000000 ^ b.digits.length ≤ 1000000000 ^ (a.digits.length - 1) :=
      Nat.pow_le_pow_right (by decide) (by omega)
    constructor
    · intro h; exact absurd h (by decide)
    · intro _; omega
  · have h1 := magnitude_lt a.digits hal
    have h2 := magnitude_ge_of_last_ne_zero b.digits hbne (hbn (by omega))
    have h3 : 1000000000 ^ a.digits.length ≤ 1000000000 ^ (b.digits.length - 1) :=
      Nat.pow_le_pow_right (by decide) (by omega)
    constructor
    · intro _; omega
    · intro _; decide
  · have hc := compareAbsoluteFrom_neg_iff a.digits.reverse b.digits.reverse
      (by simp; omega) (limbsOk_reverse hal) (limbsOk_reverse hbl)
    simpa only [List.reverse_reverse] using hc

theorem subtractAbsoluteLoop_spec (xs : List Nat) : ∀ (ys : List Nat) (borrow : Nat),
    ys.length ≤ xs.length → LimbsOk xs → LimbsOk ys → borrow ≤ 1 →
    magnitude ys + borrow ≤ magnitude xs →
    magnitude (subtractAbsoluteLoop xs ys borrow) + magnitude ys + borrow = magnitude xs ∧
      LimbsOk (subtractAbsoluteLoop xs ys borrow) ∧
      (subtractAbsoluteLoop xs ys borrow).length = xs.length := by
  induction xs with
  | nil =>
    intro ys borrow hlen _ _ _ hb
    have : ys = [] := List.length_eq_zero.mp (by simpa using hlen)
    subst this
    simp only [magnitude_nil] at hb
    simp [subtractAbsoluteLoop, limbsOk_nil]; omega
  | cons x xs ih =>
    intro ys borrow hlen hx hy hb1 hb
    obtain ⟨hx0, hxs⟩ := limbsOk_cons.mp hx
    cases ys with
    | nil =>
      simp only [magnitude_nil, magnitude_cons, zero_add] at hb
      simp only [subtractAbsoluteLoop, List.tail_nil, magnitude_nil, add_zero]
      by_cases hc : x < borrow
      · have hcur : sub32 x borrow = x + 4294967296 - borrow := by
          simp only [sub32, two32]; omega
        have hgt : sub32 x borrow > x := by rw [hcur]; omega
        have hadd : add32 (sub32 x borrow) 1000000000 = x + 1000000000 - borrow := by
          rw [hcur]; simp only [add32, two32]; omega
        obtain ⟨i1, i2, i3⟩ := ih [] 1 (by simp) hxs limbsOk_nil (by omega)
          (by simp only [magnitude_nil]; omega)
        simp only [magnitude_nil, add_zero] at i1
        rw [if_pos hgt, hadd]
        refine ⟨?_, limbsOk_cons.mpr ⟨by omega, i2⟩, by simp [i3]⟩
        simp only [magnitude_cons]; omega
      · have hcur : sub32 x borrow = x - borrow := by
          simp only [sub32, two32]; omega
        have hle : ¬sub32 x borrow > x := by rw [hcur]; omega
        obtain ⟨i1, i2, i3⟩ := ih [] 0 (by simp) hxs limbsOk_nil (by omega)
          (by simp only [magnitude_nil]; omega)
        simp only [magnitude_nil, add_zero] at i1
        rw [if_neg hle, hcur]
        refine ⟨?_, limbsOk_cons.mpr ⟨by omega, i2⟩, by simp [i3]⟩
        simp only [magnitude_cons]; omega
    | cons y ys =>
      obtain ⟨hy0, hys⟩ := limbsOk_cons.mp hy
      have hlen2 : ys.length ≤ xs.length := by simpa using hlen
      simp only [magnitude_cons] at hb
      simp only [subtractAbsoluteLoop, List.tail_cons]
      by_cases hc : x < y + borrow
      · have hcur : sub32 (sub32 x y) borrow = x + 4294967296 - y - borrow := by
          simp only [sub32, two32]; omega
        have hgt : sub32 (sub32 x y) borrow > x := by rw [hcur]; omega
        have hadd : add32 (sub32 (sub32 x y) borrow) 1000000000
            = x + 1000000000 - y - borrow := by
          rw [hcur]; simp only [add32, two32]; omega
        obtain ⟨i1, i2, i3⟩ := ih ys 1 hlen2 hxs hys (by omega) (by omega)
        rw [if_pos hgt, hadd]
        refine ⟨?_, limbsOk_cons.mpr ⟨by omega, i2⟩, by simp [i3]⟩
        simp only [magnitude_cons]; omega
      · have hcur : sub32 (sub32 x y) borrow = x - y - borrow := by
          simp only [sub32, two32]; omega
        have hle : ¬sub32 (sub32 x y) borrow > x := by rw [hcur]; omega
        obtain ⟨i1, i2, i3⟩ := ih ys 0 hlen2 hxs hys (by omega) (by omega)
        rw [if_neg hle, hcur]
        refine ⟨?_, limbsOk_cons.mpr ⟨by omega, i2⟩, by simp [i3]⟩
        simp only [magnitude_cons]; omega

theorem trimLeadingZeros_spec (a : ArbitraryInt) (hl : LimbsOk a.digits) :
    WellFormed (trimLeadingZeros a).digits ∧
      magnitude (trimLeadingZeros a).digits = magnitude a.digits := by
  unfold trimLeadingZeros
  split_ifs with h0
  · rw [List.length_eq_zero] at h0
    rw [h0]
    refine ⟨⟨by simp, ?_, ?_⟩, by simp⟩
    · intro d hd; simp at hd; subst hd; decide
    · intro h; simp at h
  · have hne : a.digits ≠ [] := fun h => h0 (by rw [h]; rfl)
    exact ⟨⟨trimAbove_ne_nil hne, limbsOk_trimAbove 1 hl, normalized_trimAbove _⟩,
      magnitude_trimAbove 1 _⟩

/-- On well-formed operands with `|b| ≤ |a|`, `subtractAbsolute a b` is `|a| - |b|`. -/
theorem subtractAbsolute_spec (a b : ArbitraryInt) (ha : WellFormed a.digits)
    (hb : WellFormed b.digits) (hle : magnitude b.digits ≤ magnitude a.digits) :
    WellFormed (subtractAbsolute a b).digits ∧
      magnitude (subtractAbsolute a b).digits + magnitude b.digits = magnitude a.digits := by
  have hc : ¬compareAbsolute a b < 0 := by
    rw [compareAbsolute_neg_iff a b ha hb]; omega
  have hlen : b.digits.length ≤ a.digits.length := by
    by_contra h
    apply hc
    unfold compareAbsolute
    rw [if_neg (by omega), if_pos (by omega)]
    decide
  obtain ⟨i1, i2, i3⟩ := subtractAbsoluteLoop_spec a.digits b.digits 0 hlen ha.2.1 hb.2.1
    (by omega) (by omega)
  have e : subtractAbsolute a b = trimLeadingZeros
      { digits := subtractAbsoluteLoop a.digits b.digits 0, negative := false } := by
    simp [subtractAbsolute, hc]
  obtain ⟨t1, t2⟩ := trimLeadingZeros_spec
    { digits := subtractAbsoluteLoop a.digits b.digits 0, negative := false } i2
  rw [e]
  simp only at t2
  exact ⟨t1, by rw [t2]; omega⟩

theorem divideInner_spec (divisor : ArbitraryInt) (hd : WellFormed divisor.digits)
    (hpos : 0 < magnitude divisor.digits) (fuel : Nat) :
    ∀ (remainder : ArbitraryInt) (multiple : Nat), WellFormed remainder.digits →
      magnitude remainder.digits / magnitude divisor.digits < fuel →
      multiple + magnitude remainder.digits / magnitude divisor.digits < 4294967296 →
      ∃ r, divideInner fuel remainder divisor multiple =
          some (r, multiple + magnitude remainder.digits / magnitude divisor.digits) ∧
        WellFormed r.digits ∧
        magnitude r.digits = magnitude remainder.digits % magnitude divisor.digits := by
  induction fuel with
  | zero => intro remainder multiple _ h; exact absurd h (Nat.not_lt_zero _)
  | succ fuel ih =>
    intro remainder multiple hr hf hm
    unfold divideInner
    have hiff := compareAbsolute_neg_iff remainder divisor hr hd
    by_cases hc : compareAbsolute remainder divisor ≥ 0
    · have hge : magnitude divisor.digits ≤ magnitude remainder.digits := by
        by_contra h
        have := hiff.mpr (by omega)
        omega
      obtain ⟨s1, s2⟩ := subtractAbsolute_spec remainder divisor hr hd hge
      have hdiv := Nat.div_eq_sub_div hpos hge
      have hmod := Nat.mod_eq_sub_mod hge
      have hsub : magnitude (subtractAbsolute remainder divisor).digits
          = magnitude remainder.digits - magnitude divisor.digits := by omega
      rw [← hsub] at hdiv hmod
      generalize magnitude remainder.digits / magnitude divisor.digits = k at hf hm hdiv ⊢
      generalize hk' : magnitude (subtractAbsolute remainder divisor).digits
        / magnitude divisor.digits = k' at hdiv
      have hadd : add32 multiple 1 = multiple + 1 := by
        simp only [add32, two32]; omega
      obtain ⟨r, e, w, m⟩ := ih (subtractAbsolute remainder divisor) (multiple + 1) s1
        (by rw [hk']; omega) (by rw [hk']; omega)
      refine ⟨r, ?_, w, ?_⟩
      · rw [if_pos hc, hadd, e, hk']
        congr 2; omega
      · rw [m, hmod]
    · have hlt : magnitude remainder.digits < magnitude divisor.digits :=
        hiff.mp (by omega)
      refine ⟨remainder, ?_, hr, ?_⟩
      · rw [if_neg hc, Nat.div_eq_of_lt hlt]; rfl
      · rw [Nat.mod_eq_of_lt hlt]

theorem divideOuter_spec (fuel : Nat) (hf : 1000000000 ≤ fuel) (divisor : ArbitraryInt)
    (hd : WellFormed divisor.digits) (hpos : 0 < magnitude divisor.digits) (ds : List Nat) :
    ∀ (quotient remainder : ArbitraryInt), LimbsOk ds → LimbsOk remainder.digits →
      magnitude remainder.digits < magnitude divisor.digits →
      ∃ q r, divideOuter fuel divisor ds quotient remainder = some (q, r) ∧
        magnitude q.digits =
          (magnitude remainder.digits * 1000000000 ^ ds.length + magnitude ds.reverse)
              / magnitude divisor.digits
            + 1000000000 ^ ds.length * magnitude quotient.digits ∧
        magnitude r.digits =
          (magnitude remainder.digits * 1000000000 ^ ds.length + magnitude ds.reverse)
            % magnitude divisor.digits ∧
        LimbsOk r.digits ∧ (LimbsOk quotient.digits → LimbsOk q.digits) := by
  induction ds with
  | nil =>
    intro quotient remainder _ hr hlt
    refine ⟨quotient, remainder, rfl, ?_, ?_, hr, id⟩
    · simp [Nat.div_eq_of_lt hlt]
    · simp [Nat.mod_eq_of_lt hlt]
  | cons d ds ih =>
    intro quotient remainder hds hr hlt
    obtain ⟨hd0, hds'⟩ := limbsOk_cons.mp hds
    obtain ⟨t1, t2⟩ := trimLeadingZeros_spec
      { digits := d :: remainder.digits, negative := remainder.negative }
      (limbsOk_cons.mpr ⟨hd0, hr⟩)
    simp only [magnitude_cons] at t2
    have hR1 : magnitude (trimLeadingZeros
        { digits := d :: remainder.digits, negative := remainder.negative }).digits
          < 1000000000 * magnitude divisor.digits := by
      rw [t2]
      have : 1000000000 * (magnitude remainder.digits + 1)
          ≤ 1000000000 * magnitude divisor.digits := Nat.mul_le_mul_left _ hlt
      omega
    have hq : magnitude (trimLeadingZeros
        { digits := d :: remainder.digits, negative := remainder.negative }).digits
          / magnitude divisor.digits < 1000000000 :=
      (Nat.div_lt_iff_lt_mul hpos).mpr hR1
    obtain ⟨r2, e2, w2, m2⟩ := divideInner_spec divisor hd hpos fuel _ 0 t1 (by omega)
      (by omega)
    simp only [zero_add] at e2
    have hr2lt : magnitude r2.digits < magnitude divisor.digits := by
      rw [m2]; exact Nat.mod_lt _ hpos
    obtain ⟨q, r, e, hqm, hrm, hrl, hql⟩ := ih
      { digits := (magnitude (trimLeadingZeros
          { digits := d :: remainder.digits, negative := remainder.negative }).digits
            / magnitude divisor.digits) :: quotient.digits,
        negative := quotient.negative } r2 hds' w2.2.1 hr2lt
    have hdm := Nat.div_add_mod (magnitude (trimLeadingZeros
        { digits := d :: remainder.digits, negative := remainder.negative }).digits)
      (magnitude divisor.digits)
    rw [← m2, t2] at hdm
    rw [t2] at hqm e2 hq e
    -- the total so far splits off the multiple of the divisor
    have hT : magnitude remainder.digits * 1000000000 ^ (d :: ds).length
          + magnitude (d :: ds).reverse
        = magnitude divisor.digits * (1000000000 ^ ds.length *
            ((d + 1000000000 * magnitude remainder.digits) / magnitude divisor.digits))
          + (magnitude r2.digits * 1000000000 ^ ds.length + magnitude ds.reverse) := by
      rw [List.reverse_cons, magnitude_append, List.length_reverse, List.length_cons]
      simp only [magnitude_cons, magnitude_nil, mul_zero, add_zero]
      calc magnitude remainder.digits * 1000000000 ^ (ds.length + 1)
            + (magnitude ds.reverse + 1000000000 ^ ds.length * d)
          = 1000000000 ^ ds.length * (d + 1000000000 * magnitude remainder.digits)
            + magnitude ds.reverse := by ring
        _ = 1000000000 ^ ds.length * (magnitude divisor.digits *
              ((d + 1000000000 * magnitude remainder.digits) / magnitude divisor.digits)
              + magnitude r2.digits) + magnitude ds.reverse := by rw [hdm]
        _ = _ := by ring
    refine ⟨q, r, ?_, ?_, ?_, hrl, ?_⟩
    · simp only [divideOuter, e2, e]
    · rw [hqm, hT, Nat.mul_add_div hpos, magnitude_cons, List.length_cons]
      ring
    · rw [hrm, hT, Nat.mul_add_mod]
    · intro hql0
      exact hql (limbsOk_cons.mpr ⟨by rw [t2]; exact hq, hql0⟩)

theorem NewArbitraryInt_zero :
    NewArbitraryInt ['0'] = Result.ok { digits := [0], negative := false } := by decide

theorem isZero_eq_false (b : ArbitraryInt) (hpos : 0 < magnitude b.digits) :
    isZero b = false := by
  unfold isZero
  rw [decide_eq_false_iff_not]
  rintro (h0 | ⟨h1, h2⟩)
  · rw [List.length_eq_zero.mp h0] at hpos; simp at hpos
  · obtain ⟨d, hd⟩ := List.length_eq_one.mp h1
    rw [hd] at h2 hpos
    simp at h2 hpos
    omega

/-- On valid operands with a divisor that is not zero, `Divide` returns the quotient and the
remainder of the magnitudes, with the signs set. -/
theorem Divide_spec (fuel : Nat) (hf : 1000000000 ≤ fuel) (a b : ArbitraryInt)
    (ha : WellFormed a.digits) (hb : WellFormed b.digits) (hpos : 0 < magnitude b.digits) :
    ∃ q r, Divide fuel a b = some (Result.ok (q, r)) ∧
      magnitude q.digits = magnitude a.digits / magnitude b.digits ∧
      magnitude r.digits = magnitude a.digits % magnitude b.digits ∧
      q.negative = (a.negative != b.negative) ∧ r.negative = a.negative ∧
      WellFormed q.digits ∧ WellFormed r.digits := by
  have hdiv : WellFormed (Abs b).digits := hb
  obtain ⟨q, r, e, hq, hr, hrl, hql⟩ := divideOuter_spec fuel hf (Abs b) hdiv hpos
    a.digits.reverse { digits := [], negative := false } { digits := [], negative := false }
    (limbsOk_reverse ha.2.1) limbsOk_nil (by simpa using hpos)
  simp only [magnitude_nil, zero_mul, zero_add, mul_zero, add_zero, List.reverse_reverse,
    Abs] at hq hr
  obtain ⟨tq1, tq2⟩ := trimLeadingZeros_spec q (hql limbsOk_nil)
  obtain ⟨tr1, tr2⟩ := trimLeadingZeros_spec r hrl
  refine ⟨{ digits := (trimLeadingZeros q).digits, negative := a.negative != b.negative },
    { digits := (trimLeadingZeros r).digits, negative := a.negative }, ?_,
    by rw [tq2, hq], by rw [tr2, hr], rfl, rfl, tq1, tr1⟩
  unfold Divide
  rw [isZero_eq_false b hpos]
  simp only [NewArbitraryInt_zero, Bool.false_eq_true, if_false, and_false, Abs] at e ⊢
  rw [e]

/-! ## Zero divisors -/

theorem value_eq_zero_iff (b : ArbitraryInt) : value b = 0 ↔ magnitude b.digits = 0 := by
  unfold value
  split_ifs <;> simp

theorem isZero_iff_value (b : ArbitraryInt) (vb : Valid b) : isZero b = true ↔ value b = 0 := by
  rw [value_eq_zero_iff]
  constructor
  · intro h
    by_contra hne
    have := isZero_eq_false b (Nat.pos_of_ne_zero hne)
    rw [h] at this; cases this
  · intro h
    have hlen : ¬1 < b.digits.length := by
      intro h1
      have := magnitude_ge_of_last_ne_zero b.digits vb.1 (vb.2.2.1 h1)
      have : 0 < 1000000000 ^ (b.digits.length - 1) := pow_pos (by decide) _
      omega
    have h1 : b.digits.length = 1 := by
      have := List.length_pos.mpr vb.1; omega
    obtain ⟨d, hd⟩ := List.length_eq_one.mp h1
    have hd0 : d = 0 := by rw [hd] at h; simpa using h
    subst hd0
    simp [isZero, hd]

/-! ## Comparison -/

theorem magnitude_lt_of_length_lt (a b : List Nat) (ha : WellFormed a) (hb : WellFormed b)
    (h : a.length < b.length) : magnitude a < magnitude b := by
  have := (compareAbsolute_neg_iff ⟨a, false⟩ ⟨b, false⟩ ha hb).mp (by
    unfold compareAbsolute
    rw [if_neg (by simp only; omega), if_pos (by simpa using h)]
    decide)
  exact this

theorem magnitude_pos_of_negative (a : ArbitraryInt) (va : Valid a) (hn : a.negative = true) :
    0 < magnitude a.digits := by
  rcases Nat.eq_zero_or_pos (magnitude a.digits) with h | h
  · exfalso
    have hz := (isZero_iff_value a va).mpr ((value_eq_zero_iff a).mpr h)
    simp only [isZero, decide_eq_true_eq] at hz
    rcases hz with h0 | ⟨h1, h2⟩
    · exact va.1 (List.length_eq_zero.mp h0)
    · obtain ⟨d, hd⟩ := List.length_eq_one.mp h1
      rw [hd] at h2; simp at h2; subst h2
      have := va.2.2.2 hd
      rw [hn] at this; cases this
  · exact h

theorem compareFrom_spec (sm : Int) (u : List Nat) : ∀ (v : List Nat), u.length = v.length →
    LimbsOk u → LimbsOk v →
    (magnitude u.reverse < magnitude v.reverse → compareFrom sm u v = -1 * sm) ∧
      (magnitude u.reverse = magnitude v.reverse → compareFrom sm u v = 0) ∧
      (magnitude v.reverse < magnitude u.reverse → compareFrom sm u v = 1 * sm) := by
  induction u with
  | nil =>
    intro v hlen _ _
    have : v = [] := List.length_eq_zero.mp hlen.symm
    subst this
    simp [compareFrom]
  | cons x us ih =>
    intro v hlen hu hv
    cases v with
    | nil => simp at hlen
    | cons y vs =>
      obtain ⟨-, hus⟩ := limbsOk_cons.mp hu
      obtain ⟨-, hvs⟩ := limbsOk_cons.mp hv
      have hlen2 : us.length = vs.length := by simpa using hlen
      have b1 := magnitude_lt us.reverse (limbsOk_reverse hus)
      have b2 := magnitude_lt vs.reverse (limbsOk_reverse hvs)
      rw [List.length_reverse] at b1 b2
      rw [← hlen2] at b2
      obtain ⟨i1, i2, i3⟩ := ih vs hlen2 hus hvs
      simp only [compareFrom, List.reverse_cons, magnitude_append, List.length_reverse,
        magnitude_cons, magnitude_nil, mul_zero, add_zero, ← hlen2]
      split_ifs with hgt hlt
      · have := Nat.mul_le_mul_left (1000000000 ^ us.length) (Nat.succ_le_of_lt hgt)
        rw [Nat.mul_succ] at this
        exact ⟨fun h => by omega, fun h => by omega, fun _ => rfl⟩
      · have := Nat.mul_le_mul_left (1000000000 ^ us.length) (Nat.succ_le_of_lt hlt)
        rw [Nat.mul_succ] at this
        exact ⟨fun _ => rfl, fun h => by omega, fun h => by omega⟩
      · have hxy : x = y := by omega
        subst hxy
        exact ⟨fun h => i1 (by omega), fun h => i2 (by omega), fun h => i3 (by omega)⟩

/-- On valid operands `Compare` is the order of the values. -/
theorem Compare_spec (a b : ArbitraryInt) (va : Valid a) (vb : Valid b) :
    Compare a b = if value a < value b then -1 else if value a = value b then 0 else 1 := by
  have wa := va.wellFormed
  have wb := vb.wellFormed
  have h0a : (0 : Int) ≤ magnitude a.digits := Int.natCast_nonneg _
  have h0b : (0 : Int) ≤ magnitude b.digits := Int.natCast_nonneg _
  unfold Compare
  rcases Bool.eq_false_or_eq_true a.negative with x | x <;>
    rcases Bool.eq_false_or_eq_true b.negative with y | y
  · -- both negative
    have hsame : ∀ (c : Int),
        ((magnitude a.digits < magnitude b.digits → c = -1 * -1) ∧
          (magnitude a.digits = magnitude b.digits → c = 0) ∧
          (magnitude b.digits < magnitude a.digits → c = 1 * -1)) →
        c = if value a < value b then -1 else if value a = value b then 0 else 1 := by
      rintro c ⟨c1, c2, c3⟩
      simp only [value, x, y, if_true]
      rcases Nat.lt_trichotomy (magnitude a.digits) (magnitude b.digits) with h | h | h
      · rw [c1 h, if_neg (by omega), if_neg (by omega)]; rfl
      · rw [c2 h, if_neg (by omega), if_pos (by omega)]
      · rw [c3 h, if_pos (by omega)]; rfl
    simp only [x, y, Bool.true_eq_false, and_false, false_and, if_false, if_true]
    apply hsame
    split_ifs with hgt hlt
    · have := magnitude_lt_of_length_lt _ _ wb wa hgt
      exact ⟨fun h => by omega, fun h => by omega, fun _ => rfl⟩
    · have := magnitude_lt_of_length_lt _ _ wa wb hlt
      exact ⟨fun _ => rfl, fun h => by omega, fun h => by omega⟩
    · have := compareFrom_spec (-1) a.digits.reverse b.digits.reverse (by simp; omega)
        (limbsOk_reverse wa.2.1) (limbsOk_reverse wb.2.1)
      simpa only [List.reverse_reverse] using this
  · -- a negative, b not
    have hpos := magnitude_pos_of_negative a va x
    simp only [x, y, and_self, if_true, value, Bool.false_eq_true, if_false]
    rw [if_pos (by omega)]
  · -- b negative, a not
    have hpos := magnitude_pos_of_negative b vb y
    simp only [x, y, Bool.false_eq_true, false_and, and_self, if_false, if_true, value]
    rw [if_neg (by omega), if_neg (by omega)]
  · -- both non-negative
    have hsame : ∀ (c : Int),
        ((magnitude a.digits < magnitude b.digits → c = -1 * 1) ∧
          (magnitude a.digits = magnitude b.digits → c = 0) ∧
          (magnitude b.digits < magnitude a.digits → c = 1 * 1)) →
        c = if value a < value b then -1 else if value a = value b then 0 else 1 := by
      rintro c ⟨c1, c2, c3⟩
      simp only [value, x, y, Bool.false_eq_true, if_false]
      rcases Nat.lt_trichotomy (magnitude a.digits) (magnitude b.digits) with h | h | h
      · rw [c1 h, if_pos (by omega)]; rfl
      · rw [c2 h, if_neg (by omega), if_pos (by omega)]
      · rw [c3 h, if_neg (by omega), if_neg (by omega)]; rfl
    simp only [x, y, Bool.false_eq_true, and_false, false_and, if_false]
    apply hsame
    split_ifs with hgt hlt
    · have := magnitude_lt_of_length_lt _ _ wb wa hgt
      exact ⟨fun h => by omega, fun h => by omega, fun _ => rfl⟩
    · have := magnitude_lt_of_length_lt _ _ wa wb hlt
      exact ⟨fun _ => rfl, fun h => by omega, fun h => by omega⟩
    · have := compareFrom_spec 1 a.digits.reverse b.digits.reverse (by simp; omega)
        (limbsOk_reverse wa.2.1) (limbsOk_reverse wb.2.1)
      simpa only [List.reverse_reverse] using this

/-! ## Factorial -/

theorem NewArbitraryInt_one :
    NewArbitraryInt ['1'] = Result.ok { digits := [1], negative := false } := by decide

theorem newIgnoringError_one : newIgnoringError ['1'] = { digits := [1], negative := false } := by
  decide

theorem foldLimbs_singleton (d : Nat) (hd : d < 1000000000) : foldLimbs [d] = d := by
  simp only [foldLimbs, List.foldl, add32, two32]
  omega

theorem length_le_of_magnitude_lt (ds : List Nat) (hw : WellFormed ds) (n : Nat) (hn : 1 ≤ n)
    (h : magnitude ds < 1000000000 ^ n) : ds.length ≤ n := by
  by_contra hlen
  have h1 := magnitude_ge_of_last_ne_zero ds hw.1 (hw.2.2 (by omega))
  have h2 : 1000000000 ^ n ≤ 1000000000 ^ (ds.length - 1) :=
    Nat.pow_le_pow_right (by decide) (by omega)
  omega

theorem Compare_le_zero_iff (a b : ArbitraryInt) (va : Valid a) (vb : Valid b)
    (ha : a.negative = false) (hb : b.negative = false) :
    Compare a b ≤ 0 ↔ magnitude a.digits ≤ magnitude b.digits := by
  rw [Compare_spec a b va vb]
  simp only [value, ha, hb, Bool.false_eq_true, if_false]
  split_ifs with h1 h2
  · constructor
    · intro _; omega
    · intro _; decide
  · constructor
    · intro _; omega
    · intro _; decide
  · constructor
    · intro h; exact absurd h (by decide)
    · intro h; omega

theorem factorialLoop_spec (a : ArbitraryInt) (va : Valid a) (hn : a.negative = false)
    (fuel : Nat) : ∀ (h : Heap) (result current addOne k : Nat),
    result < h.next → current < h.next → addOne < h.next →
    h.read addOne = { digits := [1], negative := false } →
    Valid (h.read current) → (h.read current).negative = false →
    magnitude (h.read current).digits = k → 1 ≤ k → k ≤ magnitude a.digits + 1 →
    magnitude a.digits + 1 < fuel + k →
    (magnitude a.digits < 1000000000 ^ 32 →
      WellFormed (h.read result).digits ∧ (h.read result).negative = false ∧
        magnitude (h.read result).digits = (k - 1).factorial) →
    ∃ r, factorialLoop a fuel h result current addOne = some r ∧
      (magnitude a.digits < 1000000000 ^ 32 →
        WellFormed r.digits ∧ r.negative = false ∧
          magnitude r.digits = (magnitude a.digits).factorial) := by
  induction fuel with
  | zero => intro h result current addOne k _ _ _ _ _ _ _ _ hk hf; omega
  | succ fuel ih =>
    intro h result current addOne k hr hc ho hone vc hcn hck hk1 hkd hf hres
    unfold factorialLoop
    have hcmp := Compare_le_zero_iff (h.read current) a vc va hcn hn
    rw [hck] at hcmp
    by_cases hle : k ≤ magnitude a.digits
    · rw [compareResult, if_pos (hcmp.mpr hle)]
      simp only
      -- the heap after the product has been allocated
      have hcur : (h.alloc (Multiply (h.read result) (h.read current))).1.read current
          = h.read current := by
        rw [read_alloc, if_neg (by omega)]
      have hadd : (h.alloc (Multiply (h.read result) (h.read current))).1.read addOne
          = { digits := [1], negative := false } := by
        rw [read_alloc, if_neg (by omega), hone]
      have hsame : ((h.alloc (Multiply (h.read result) (h.read current))).1.read current).negative
          = ((h.alloc (Multiply (h.read result) (h.read current))).1.read addOne).negative := by
        rw [hcur, hadd, hcn]
      rw [Add_same _ _ _ hsame, hcur, hadd]
      obtain ⟨m1, m2, m3⟩ := addMagnitudes_spec (h.read current) ⟨[1], false⟩ vc.2.1
        (by intro d hd; simp at hd; subst hd; decide) vc.1
      simp only [magnitude_cons, magnitude_nil, mul_zero, add_zero] at m1
      apply ih _ _ _ _ (k + 1)
      · simp only [next_alloc, ptr_alloc]; omega
      · simp only [next_alloc, ptr_alloc]; omega
      · simp only [next_alloc, ptr_alloc]; omega
      · simp only [read_alloc, next_alloc, ptr_alloc]
        rw [if_neg (by omega), if_neg (by omega), hone]
      · simp only [read_alloc, next_alloc, ptr_alloc, if_true]
        exact ⟨m3.1, m3.2.1, m3.2.2, fun _ => by rw [m2, hcn]⟩
      · simp only [read_alloc, next_alloc, ptr_alloc, if_true]
        rw [m2, hcn]
      · simp only [read_alloc, next_alloc, ptr_alloc, if_true]
        rw [m1, hck]
      · omega
      · omega
      · omega
      · intro hsmall
        obtain ⟨w, rn, rm⟩ := hres hsmall
        have hlen : (h.read current).digits.length ≤ 32 :=
          length_le_of_magnitude_lt _ vc.wellFormed 32 (by decide) (by rw [hck]; omega)
        have hmul := Multiply_small (h.read result) (h.read current) w.1 vc.1 (Or.inr hlen)
        obtain ⟨l1, l2, l3⟩ := longMultiply_spec (h.read result) (h.read current)
          ((h.read result).negative != (h.read current).negative) w.2.1 vc.2.1
        have e : ((h.alloc (Multiply (h.read result) (h.read current))).1.alloc
            (addMagnitudes (h.read current) { digits := [1], negative := false })).1.read
              (h.alloc (Multiply (h.read result) (h.read current))).2
            = Multiply (h.read result) (h.read current) := by simp
        rw [e, hmul]
        refine ⟨l3, by rw [l2, rn, hcn]; rfl, ?_⟩
        rw [l1, rm, hck]
        obtain ⟨j, rfl⟩ : ∃ j, k = j + 1 := ⟨k - 1, by omega⟩
        simp only [Nat.add_sub_cancel, Nat.factorial_succ]
        ring
    · rw [compareResult, if_neg (fun hc' => hle (hcmp.mp hc'))]
      refine ⟨h.read result, rfl, ?_⟩
      intro hsmall
      obtain ⟨w, rn, rm⟩ := hres hsmall
      have hkd' : k - 1 = magnitude a.digits := by omega
      rw [hkd'] at rm
      exact ⟨w, rn, rm⟩

/-- For a valid argument that is not negative, `Factorial` returns a value once the bound on
the loop exceeds the argument; for an argument of one limb the value is the factorial. -/
theorem Factorial_spec (fuel : Nat) (a : ArbitraryInt) (va : Valid a) (hn : a.negative = false)
    (hf : magnitude a.digits < fuel) :
    ∃ r, Factorial fuel a = some (Result.ok r) ∧
      (a.digits.length = 1 → WellFormed r.digits ∧ r.negative = false ∧
        magnitude r.digits = (magnitude a.digits).factorial) := by
  unfold Factorial
  rw [hn]
  simp only [Bool.false_eq_true, if_false]
  by_cases hlim : foldLimbs a.digits = 0 ∨ foldLimbs a.digits = 1
  · rw [if_pos hlim, NewArbitraryInt_one]
    refine ⟨_, rfl, ?_⟩
    intro h1
    obtain ⟨d, hd⟩ := List.length_eq_one.mp h1
    have hdlt : d < 1000000000 := by
      have := va.2.1 d (by rw [hd]; simp)
      simpa [digitBase] using this
    rw [hd, foldLimbs_singleton d hdlt] at hlim
    refine ⟨by decide, rfl, ?_⟩
    rw [hd]
    rcases hlim with h | h <;> subst h <;> decide
  · rw [if_neg hlim]
    simp only [newIgnoringError_one]
    obtain ⟨r, e, hr⟩ := factorialLoop_spec a va hn fuel
      (((Heap.empty.alloc ⟨[1], false⟩).1.alloc ⟨[1], false⟩).1.alloc ⟨[1], false⟩).1
      (Heap.empty.alloc ⟨[1], false⟩).2
      ((Heap.empty.alloc ⟨[1], false⟩).1.alloc ⟨[1], false⟩).2
      (((Heap.empty.alloc ⟨[1], false⟩).1.alloc ⟨[1], false⟩).1.alloc ⟨[1], false⟩).2 1
      (by decide) (by decide) (by decide) (by decide) (by decide) (by decide) (by decide)
      (by omega) (by omega) (by omega) (fun _ => by decide)
    rw [e]
    refine ⟨r, rfl, ?_⟩
    intro h1
    apply hr
    obtain ⟨d, hd⟩ := List.length_eq_one.mp h1
    have hdlt : d < 1000000000 := by
      have := va.2.1 d (by rw [hd]; simp)
      simpa [digitBase] using this
    rw [hd]
    simp only [magnitude_cons, magnitude_nil, mul_zero, add_zero]
    have : (1000000000 : Nat) ≤ 1000000000 ^ 32 := by norm_num
    omega

/-- For an exponent that is not negative `Pow` returns a value. -/
theorem Pow_returns (a exponent : ArbitraryInt) (hn : exponent.negative = false) :
    ∃ r, Pow a exponent = Result.ok r := by
  unfold Pow
  rw [hn]
  simp only [Bool.false_eq_true, if_false]
  split_ifs
  · exact ⟨_, NewArbitraryInt_one⟩
  · exact ⟨_, rfl⟩
  · exact ⟨_, rfl⟩

/-! ## Power -/

theorem Pow_two (a : ArbitraryInt) :
    Pow a { digits := [2], negative := false } =
      Result.ok { digits := (Multiply (newIgnoringError ['1']) (Multiply (Copy a) (Copy a))).digits,
                  negative := a.negative && false } := by
  rfl

/-! ## The evaluation functions agree with `Add`, `Subtract` and `Multiply` -/

theorem Add_eq_AddE (h : Heap) (a b : Nat) : Add h a b = AddE h a b := by
  rcases Bool.eq_false_or_eq_true (h.read a).negative with x | x <;>
    rcases Bool.eq_false_or_eq_true (h.read b).negative with y | y
  · rw [Add_same h a b (by rw [x, y])]; simp [AddE, x, y]
  · have hab : b ≠ a := by rintro rfl; rw [x] at y; cases y
    rw [Add_neg_pos h a b x y]; simp [AddE, x, y, hab]
  · have hab : a ≠ b := by rintro rfl; rw [x] at y; cases y
    rw [Add_pos_neg h a b x y]; simp [AddE, x, y, hab]
  · rw [Add_same h a b (by rw [x, y])]; simp [AddE, x, y]

theorem Subtract_eq_SubtractE (h : Heap) (a b : Nat) : Subtract h a b = SubtractE h a b := by
  by_cases hs : (h.read a).negative = (h.read b).negative
  · rw [Subtract_same h a b hs]; simp [SubtractE, hs]
  · have hab : a ≠ b := by rintro rfl; exact hs rfl
    rw [Subtract_diff h a b hs]; simp [SubtractE, hs, hab]

theorem karatsubaMultiply_eq_body (a b : ArbitraryInt)
    (hl : ¬(a.digits.length ≤ 32 ∨ b.digits.length ≤ 32)) :
    karatsubaMultiply a b = karatsubaBody Multiply a b := by
  rw [karatsubaMultiply, dif_neg hl]
  simp only [Add_eq_AddE, Subtract_eq_SubtractE, karatsubaBody]

theorem karatsubaBody_congr (mul1 mul2 : ArbitraryInt → ArbitraryInt → ArbitraryInt)
    (a b : ArbitraryInt) (hl : ¬(a.digits.length ≤ 32 ∨ b.digits.length ≤ 32))
    (h : ∀ x y, x.digits.length < a.digits.length → mul1 x y = mul2 x y) :
    karatsubaBody mul1 a b = karatsubaBody mul2 a b := by
  have hm : min a.digits.length b.digits.length ≤ a.digits.length ∧
      32 < min a.digits.length b.digits.length := by
    unfold min; split_ifs <;> omega
  have side : ∀ (h0 : Heap) (p q : Nat), h0.next = 6 →
      (h0.read 0).digits = a.digits.take (min a.digits.length b.digits.length / 2) →
      (h0.read 1).digits = a.digits.drop (min a.digits.length b.digits.length / 2) →
      ((AddE (AddE h0 0 1).1 p q).1.read (AddE h0 0 1).2).digits.length
        < a.digits.length := by
    intro h0 p q hn h1 h2
    rw [← Add_eq_AddE, ← Add_eq_AddE,
      Add_digits_frame _ _ _ _ (by rw [Add_ptr, Add_next]; omega)]
    refine lt_of_le_of_lt (length_Add_le _ _ _ (a.digits.length - 2) ?_ ?_) (by omega)
    · rw [h1]; simp; omega
    · rw [h2]; simp; omega
  simp only [karatsubaBody]
  rw [h, h, h]
  · exact side _ _ _ rfl rfl rfl
  · simp [Heap.empty]; omega
  · simp [Heap.empty]; omega

theorem Multiply_eq_MultiplyE : ∀ (fuel : Nat) (a b : ArbitraryInt),
    a.digits.length ≤ fuel + 32 → Multiply a b = MultiplyE fuel a b := by
  intro fuel
  induction fuel with
  | zero =>
    intro a b hlen
    have hs : a.digits.length ≤ 32 ∨ b.digits.length ≤ 32 := Or.inl (by omega)
    rw [Multiply, MultiplyE]
    by_cases h0 : a.digits.length = 0 ∨ b.digits.length = 0
    · rw [if_pos h0, if_pos h0]
    · rw [if_neg h0, if_neg h0, if_pos hs]
      simp only
      split_ifs with h1
      · rw [karatsubaMultiply, dif_pos hs]
      · rfl
  | succ fuel ih =>
    intro a b hlen
    rw [Multiply, MultiplyE]
    by_cases h0 : a.digits.length = 0 ∨ b.digits.length = 0
    · rw [if_pos h0, if_pos h0]
    · rw [if_neg h0, if_neg h0]
      by_cases hs : a.digits.length ≤ 32 ∨ b.digits.length ≤ 32
      · rw [if_pos hs]
        simp only
        split_ifs with h1
        · rw [karatsubaMultiply, dif_pos hs]
        · rfl
      · have h1 : a.digits.length > 32 ∨ b.digits.length > 32 := Or.inl (by omega)
        rw [if_neg hs]
        simp only [if_pos h1]
        rw [karatsubaMultiply_eq_body a b hs]
        exact karatsubaBody_congr _ _ a b hs (fun x y hx => ih x y (by omega))

/-! ## Uniqueness of the well-formed representation -/

theorem magnitude_inj (xs : List Nat) : ∀ (ys : List Nat), xs.length = ys.length → LimbsOk xs →
    LimbsOk ys → magnitude xs = magnitude ys → xs = ys := by
  induction xs with
  | nil =>
    intro ys hl _ _ _
    cases ys with
    | nil => rfl
    | cons y ys => simp at hl
  | cons x xs ih =>
    intro ys hl hx hy h
    cases ys with
    | nil => simp at hl
    | cons y ys =>
      rw [limbsOk_cons] at hx hy
      rw [magnitude_cons, magnitude_cons] at h
      have hl' : xs.length = ys.length := by simpa using hl
      have e1 : x = y := by omega
      have e2 : magnitude xs = magnitude ys := by omega
      rw [e1, ih ys hl' hx.2 hy.2 e2]

theorem wellFormed_unique (xs ys : List Nat) (hx : WellFormed xs) (hy : WellFormed ys)
    (h : magnitude xs = magnitude ys) : xs = ys := by
  have hlen : xs.length = ys.length := by
    rcases Nat.lt_trichotomy xs.length ys.length with hl | hl | hl
    · have := magnitude_lt_of_length_lt xs ys hx hy hl; omega
    · exact hl
    · have := magnitude_lt_of_length_lt ys xs hy hx hl; omega
  exact magnitude_inj xs ys hlen hx.2.1 hy.2.1 h

theorem digits_of_magnitude_lt (ds : List Nat) (hw : WellFormed ds)
    (h : magnitude ds < 1000000000) : ds = [magnitude ds] := by
  apply wellFormed_unique _ _ hw
  · refine ⟨by simp, ?_, ?_⟩
    · intro d hd
      simp only [List.mem_singleton] at hd
      rw [hd]; exact h
    · intro hl; simp at hl
  · simp [magnitude]

theorem valid_of_value_eq (e : ArbitraryInt) (ve : Valid e) (n : Nat) (hn : n < 1000000000)
    (h : value e = n) : e = { digits := [n], negative := false } := by
  have hneg : e.negative = false := by
    rcases Bool.eq_false_or_eq_true e.negative with x | x
    · have hp := magnitude_pos_of_negative e ve x
      simp only [value, x, if_true] at h
      omega
    · exact x
  have hm : magnitude e.digits = n := by
    simp only [value, hneg, Bool.false_eq_true, if_false] at h
    exact_mod_cast h
  have hd := digits_of_magnitude_lt e.digits ve.wellFormed (by omega)
  rw [hm] at hd
  cases e
  simp only at hneg hd
  rw [hneg, hd]

theorem addMagnitudes_comm (a b : ArbitraryInt) (ha : LimbsOk a.digits) (hb : LimbsOk b.digits)
    (hna : a.digits ≠ []) (hnb : b.digits ≠ []) :
    (addMagnitudes a b).digits = (addMagnitudes b a).digits := by
  obtain ⟨m1, -, w1⟩ := addMagnitudes_spec a b ha hb hna
  obtain ⟨m2, -, w2⟩ := addMagnitudes_spec b a hb ha hnb
  exact wellFormed_unique _ _ w1 w2 (by omega)

theorem longMultiply_comm (a b : ArbitraryInt) (negative : Bool) (ha : LimbsOk a.digits)
    (hb : LimbsOk b.digits) : longMultiply a b negative = longMultiply b a negative := by
  obtain ⟨m1, s1, w1⟩ := longMultiply_spec a b negative ha hb
  obtain ⟨m2, s2, w2⟩ := longMultiply_spec b a negative hb ha
  have hd := wellFormed_unique _ _ w1 w2 (by rw [m1, m2, Nat.mul_comm])
  rw [← eta_arbitraryInt (longMultiply a b negative), ← eta_arbitraryInt (longMultiply b a negative),
    hd, s1, s2]

theorem Multiply_zero (a b : ArbitraryInt) (va : Valid a) (vb : Valid b)
    (hz : value a = 0 ∨ value b = 0) :
    Multiply a b = { digits := [0], negative := a.negative != b.negative } := by
  have hs : a.digits.length ≤ 32 ∨ b.digits.length ≤ 32 := by
    rcases hz with h | h
    · left
      rw [valid_of_value_eq a va 0 (by decide) (by exact_mod_cast h)]; simp
    · right
      rw [valid_of_value_eq b vb 0 (by decide) (by exact_mod_cast h)]; simp
  rw [Multiply_small a b va.1 vb.1 hs]
  obtain ⟨m, s, w⟩ := longMultiply_spec a b (a.negative != b.negative) va.2.1 vb.2.1
  have hm : magnitude (longMultiply a b (a.negative != b.negative)).digits = 0 := by
    rw [m]
    rcases hz with h | h
    · rw [(value_eq_zero_iff a).mp h]; simp
    · rw [(value_eq_zero_iff b).mp h]; simp
  have hd := digits_of_magnitude_lt _ w (by omega)
  rw [hm] at hd
  rw [← eta_arbitraryInt (longMultiply a b (a.negative != b.negative)), hd, s]

/-! ## Subtraction against addition of the negation -/

theorem eq_of_digits_negative (x y : ArbitraryInt) (hd : x.digits = y.digits)
    (hn : x.negative = y.negative) : x = y := by
  cases x; cases y; simp only at hd hn; rw [hd, hn]

theorem eq_of_spec (x y : ArbitraryInt) (wx : WellFormed x.digits) (wy : WellFormed y.digits)
    (hm : magnitude x.digits = magnitude y.digits) (hn : x.negative = y.negative) : x = y :=
  eq_of_digits_negative x y (wellFormed_unique _ _ wx wy hm) hn

theorem isZero_false_of_ne (b : ArbitraryInt) (h : magnitude b.digits ≠ 0) :
    isZero b = false := isZero_eq_false b (Nat.pos_of_ne_zero h)

/-- The value-level comparison of the result of `a.Subtract(b)` with that of
`a.Add(negate(b))`. -/
theorem subtract_vs_add_negate (A B : ArbitraryInt) (va : Valid A) (vb : Valid B) :
    (¬(A.negative = true ∧ B.negative = true ∧ magnitude A.digits = magnitude B.digits) →
      (if A.negative = B.negative then subtractMagnitudes A B
        else addMagnitudes A { digits := B.digits, negative := !B.negative }) =
      (if A.negative = true ∧ (negate B).negative = false then
          subtractMagnitudes (negate B) { digits := A.digits, negative := false }
        else if A.negative = false ∧ (negate B).negative = true then
          subtractMagnitudes A { digits := (negate B).digits, negative := false }
        else addMagnitudes A (negate B))) ∧
    (A.negative = true ∧ B.negative = true ∧ magnitude A.digits = magnitude B.digits →
      (if A.negative = B.negative then subtractMagnitudes A B
        else addMagnitudes A { digits := B.digits, negative := !B.negative }) =
          { digits := [0], negative := true } ∧
      (if A.negative = true ∧ (negate B).negative = false then
          subtractMagnitudes (negate B) { digits := A.digits, negative := false }
        else if A.negative = false ∧ (negate B).negative = true then
          subtractMagnitudes A { digits := (negate B).digits, negative := false }
        else addMagnitudes A (negate B)) = { digits := [0], negative := false }) := by
  have wa := va.wellFormed
  have wb := vb.wellFormed
  have w0 : WellFormed [0] := by decide
  obtain ⟨Ad, An⟩ := A
  obtain ⟨Bd, Bn⟩ := B
  simp only at wa wb
  by_cases hz : magnitude Bd = 0
  · -- `b` is zero
    have hB := valid_of_value_eq _ vb 0 (by decide)
      (by exact_mod_cast (value_eq_zero_iff _).mpr hz)
    injection hB with hBd hBn
    subst hBd hBn
    have hneg : negate { digits := [0], negative := false } = { digits := [0], negative := false } := by
      decide
    rw [hneg]
    constructor
    · intro _
      rcases Bool.eq_false_or_eq_true An with x | x
      · -- `a` negative
        subst x
        have hp := magnitude_pos_of_negative _ va rfl
        simp only at hp
        simp only [Bool.true_eq_false, if_false, true_and, and_self, if_true, Bool.not_false,
          Bool.false_eq_true, false_and]
        obtain ⟨m1, n1, w1⟩ := addMagnitudes_spec { digits := Ad, negative := true }
          { digits := [0], negative := true } wa.2.1 w0.2.1 wa.1
        obtain ⟨l2, -, w2⟩ := subtractMagnitudes_spec { digits := [0], negative := false }
          { digits := Ad, negative := false } w0 wa
        obtain ⟨m2, n2⟩ := l2 (by simpa using hp)
        apply eq_of_spec _ _ w1 w2
        · simp at m1 m2; omega
        · rw [n1, n2]; rfl
      · subst x
        simp only [if_true, Bool.false_eq_true, false_and, if_false, and_false]
        obtain ⟨-, l1, w1⟩ := subtractMagnitudes_spec { digits := Ad, negative := false }
          { digits := [0], negative := false } wa w0
        obtain ⟨m1, n1⟩ := l1 (by simp)
        obtain ⟨m2, n2, w2⟩ := addMagnitudes_spec { digits := Ad, negative := false }
          { digits := [0], negative := false } wa.2.1 w0.2.1 wa.1
        apply eq_of_spec _ _ w1 w2
        · simp at m1 m2; omega
        · rw [n1, n2]
    · rintro ⟨-, hb, -⟩
      cases hb
  · -- `b` is not zero
    have hnz : isZero { digits := Bd, negative := Bn } = false :=
      isZero_false_of_ne _ hz
    have hneg : negate { digits := Bd, negative := Bn } = { digits := Bd, negative := !Bn } := by
      simp [negate, hnz]
    rw [hneg]
    rcases Bool.eq_false_or_eq_true An with x | x <;>
      rcases Bool.eq_false_or_eq_true Bn with y | y <;> subst x <;> subst y
    · -- both negative
      simp only [if_true, Bool.not_true, and_self, true_and]
      obtain ⟨l1, g1, w1⟩ := subtractMagnitudes_spec { digits := Ad, negative := true }
        { digits := Bd, negative := true } wa wb
      obtain ⟨l2, g2, w2⟩ := subtractMagnitudes_spec { digits := Bd, negative := false }
        { digits := Ad, negative := false } wb wa
      simp only at l1 g1 l2 g2
      constructor
      · intro hne
        rcases Nat.lt_trichotomy (magnitude Ad) (magnitude Bd) with hlt | heq | hgt
        · obtain ⟨m1, n1⟩ := l1 hlt
          obtain ⟨m2, n2⟩ := g2 (by omega)
          exact eq_of_spec _ _ w1 w2 (by omega) (by rw [n1, n2]; rfl)
        · exact absurd heq hne
        · obtain ⟨m1, n1⟩ := g1 (by omega)
          obtain ⟨m2, n2⟩ := l2 hgt
          exact eq_of_spec _ _ w1 w2 (by omega) (by rw [n1, n2]; rfl)
      · intro heq
        obtain ⟨m1, n1⟩ := g1 (by omega)
        obtain ⟨m2, n2⟩ := g2 (by omega)
        exact ⟨eq_of_spec _ _ w1 w0 (by simp; omega) n1,
          eq_of_spec _ _ w2 w0 (by simp; omega) n2⟩
    · -- `a` negative, `b` not
      simp
    · -- `b` negative, `a` not
      simp
    · simp

/-! ## The machine words of `longMultiply` -/

theorem mulInnerProducts_spec (m i : Nat) (hm : m < 1000000000) (bs : List Nat) :
    ∀ (j : Nat) (result : List Nat) (carry : Nat), LimbsOk bs → LimbsOk result →
      i + j + bs.length ≤ result.length → carry < 1000000000 →
      ∀ p ∈ mulInnerProducts m i bs j result carry,
        p < 18446744073709551616 ∧ p / 1000000000 < 1000000000 := by
  induction bs with
  | nil =>
    intro j result carry _ _ _ _ p hp
    simp [mulInnerProducts] at hp
  | cons y bs ih =>
    intro j result carry hb hr hlen hc p hp
    obtain ⟨hy, hbs⟩ := limbsOk_cons.mp hb
    have hrk := getD_lt_of_limbsOk hr (i + j)
    have hmy : m * y ≤ 999999999 * 999999999 := Nat.mul_le_mul (by omega) (by omega)
    have hprod : add64 (add64 (mul64 m y) (result.getD (i + j) 0)) carry
        = m * y + result.getD (i + j) 0 + carry := by
      simp only [add64, mul64, two64]; omega
    simp only [List.length_cons] at hlen
    simp only [mulInnerProducts, hprod, digitBase, List.mem_cons] at hp
    have hlimb : (m * y + result.getD (i + j) 0 + carry) % 1000000000 % two32
        = (m * y + result.getD (i + j) 0 + carry) % 1000000000 := by
      simp only [two32]; omega
    rw [hlimb] at hp
    have hlimb_lt : (m * y + result.getD (i + j) 0 + carry) % 1000000000 < 1000000000 :=
      Nat.mod_lt _ (by decide)
    have hcarry : (m * y + result.getD (i + j) 0 + carry) / 1000000000 < 1000000000 := by omega
    rcases hp with rfl | hp
    · exact ⟨by omega, hcarry⟩
    · exact ih (j + 1) _ _ hbs (limbsOk_set hr _ _ hlimb_lt)
        (by simp only [List.length_set]; omega) hcarry p hp

/-- One row of `longMultiply`: the buffer after the inner loop and the store of the carry. -/
theorem mulRow_spec (b : List Nat) (hb : LimbsOk b) (m i : Nat) (hm : m < 1000000000)
    (result : List Nat) (hr : LimbsOk result) (hlen : i + 1 + b.length ≤ result.length)
    (hz : ∀ k, i + b.length ≤ k → result.getD k 0 = 0) :
    (mulInner m i b 0 result 0).2 < 1000000000 ∧
      (mulInner m i b 0 result 0).1.getD (i + b.length) 0 = 0 ∧
      ∀ r1 : List Nat,
        r1 = (if (mulInner m i b 0 result 0).2 > 0 then
            (mulInner m i b 0 result 0).1.set (i + b.length)
              (add32 ((mulInner m i b 0 result 0).1.getD (i + b.length) 0)
                ((mulInner m i b 0 result 0).2 % two32))
          else (mulInner m i b 0 result 0).1) →
        r1.length = result.length ∧ LimbsOk r1 ∧
          ∀ k, i + 1 + b.length ≤ k → r1.getD k 0 = 0 := by
  obtain ⟨j1, j2, j3, j4, j5⟩ := mulInner_spec m i hm b 0 result 0 hb hr (by omega) (by decide)
  simp only [add_zero] at j4 j5
  have hz0 : (mulInner m i b 0 result 0).1.getD (i + b.length) 0 = 0 := by
    rw [j5 _ (le_refl _)]; exact hz _ (le_refl _)
  refine ⟨j3, hz0, ?_⟩
  intro r1 hr1
  split_ifs at hr1 with hc
  · have hv : add32 ((mulInner m i b 0 result 0).1.getD (i + b.length) 0)
        ((mulInner m i b 0 result 0).2 % two32) = (mulInner m i b 0 result 0).2 := by
      rw [hz0]; simp only [add32, two32]; omega
    rw [hv] at hr1
    subst hr1
    refine ⟨by rw [List.length_set, j1], limbsOk_set j2 _ _ j3, ?_⟩
    intro k hk
    rw [getD_set_ne _ _ _ _ (by omega), j5 k (by omega)]
    exact hz k (by omega)
  · subst hr1
    refine ⟨j1, j2, ?_⟩
    intro k hk
    rw [j5 k (by omega)]
    exact hz k (by omega)

theorem mulOuterRows_spec (b : List Nat) (hb : LimbsOk b) (as : List Nat) :
    ∀ (i : Nat) (result : List Nat), LimbsOk as → LimbsOk result →
      i + as.length + b.length ≤ result.length →
      (∀ k, i + b.length ≤ k → result.getD k 0 = 0) →
      ∀ row ∈ mulOuterRows b as i result,
        (∀ p ∈ row.1, p < 18446744073709551616 ∧ p / 1000000000 < 1000000000) ∧
          row.2.1 < 1000000000 ∧ row.2.2 = 0 := by
  induction as with
  | nil =>
    intro i result _ _ _ _ row hrow
    simp [mulOuterRows] at hrow
  | cons m as ih =>
    intro i result ha hr hlen hz row hrow
    obtain ⟨hm, has⟩ := limbsOk_cons.mp ha
    simp only [List.length_cons] at hlen
    unfold mulOuterRows at hrow
    split_ifs at hrow with h0
    · exact ih (i + 1) result has hr (by omega) (fun k hk => hz k (by omega)) row hrow
    · obtain ⟨c1, c2, c3⟩ := mulRow_spec b hb m i hm result hr (by omega) hz
      obtain ⟨k1, k2, k4⟩ := c3 _ rfl
      simp only [List.mem_cons] at hrow
      rcases hrow with rfl | hrow
      · exact ⟨mulInnerProducts_spec m i hm b 0 result 0 hb hr (by omega) (by decide), c1, c2⟩
      · exact ih (i + 1) _ has k2 (by rw [k1]; omega) k4 row hrow

theorem longMultiply_words (a b : List Nat) (ha : LimbsOk a) (hb : LimbsOk b) :
    (∀ row ∈ mulOuterRows b a 0 (List.replicate (a.length + b.length) 0),
      (∀ p ∈ row.1, p < 18446744073709551616 ∧ p / 1000000000 < 1000000000) ∧
        row.2.1 < 1000000000 ∧ row.2.2 = 0) ∧
      LimbsOk (mulOuter b a 0 (List.replicate (a.length + b.length) 0)) := by
  constructor
  · exact mulOuterRows_spec b hb a 0 _ ha (limbsOk_replicate_zero _) (by simp)
      (fun k _ => getD_replicate_zero _ k)
  · exact (mulOuter_spec b hb a 0 _ ha (limbsOk_replicate_zero _) (by simp)
      (fun k _ => getD_replicate_zero _ k)).2.1

/-! ## Heaps that agree on the objects a computation uses -/

theorem agreeOn_alloc (P : Nat → Prop) (h h' : Heap) (hA : Heap.AgreeOn P h h')
    (x : ArbitraryInt) :
    Heap.AgreeOn P (h.alloc x).1 (h'.alloc x).1 ∧ (h.alloc x).2 = (h'.alloc x).2 := by
  obtain ⟨hn, hr⟩ := hA
  refine ⟨⟨by simp [hn], ?_⟩, by simp [hn]⟩
  intro p hp hlt
  simp only [read_alloc, next_alloc] at hlt ⊢
  rw [← hn]
  by_cases e : p = h.next
  · simp [e]
  · simp only [if_neg e]
    exact hr p hp (by omega)

theorem agreeOn_setNegative (P : Nat → Prop) (h h' : Heap) (hA : Heap.AgreeOn P h h')
    (a : Nat) (v : Bool) : Heap.AgreeOn P (h.setNegative a v) (h'.setNegative a v) := by
  obtain ⟨hn, hr⟩ := hA
  refine ⟨by simp [hn], ?_⟩
  intro p hp hlt
  simp only [read_setNegative, next_setNegative] at hlt ⊢
  by_cases e : p = a
  · subst e
    simp only [if_true]
    rw [hr p hp hlt]
  · simp only [if_neg e]
    exact hr p hp hlt

theorem agreeOn_flipNegative (P : Nat → Prop) (h h' : Heap) (hA : Heap.AgreeOn P h h')
    (a : Nat) (ha : P a) (ha' : a < h.next) :
    Heap.AgreeOn P (h.flipNegative a) (h'.flipNegative a) := by
  have e : (h.objs a).negative = (h'.objs a).negative := by
    have := hA.2 a ha ha'
    simp only [Heap.read] at this
    rw [this]
  unfold Heap.flipNegative
  rw [e]
  exact agreeOn_setNegative P h h' hA a _

theorem agreeOn_AddE (P : Nat → Prop) (h h' : Heap) (hA : Heap.AgreeOn P h h') (a b : Nat)
    (ha : P a) (ha' : a < h.next) (hb : P b) (hb' : b < h.next) :
    Heap.AgreeOn P (AddE h a b).1 (AddE h' a b).1 ∧ (AddE h a b).2 = (AddE h' a b).2 := by
  have ea := hA.2 a ha ha'
  have eb := hA.2 b hb hb'
  have A1 := agreeOn_setNegative P h h' hA a false
  have A2 := agreeOn_setNegative P h h' hA b false
  have r1 := A1.2 b hb hb'
  have r2 := A1.2 a ha ha'
  have r3 := A2.2 a ha ha'
  have r4 := A2.2 b hb hb'
  unfold AddE
  rw [← ea, ← eb, ← r1, ← r2, ← r3, ← r4]
  split_ifs
  · exact agreeOn_alloc P _ _ A1 _
  · exact agreeOn_alloc P _ _ A2 _
  · exact agreeOn_alloc P _ _ hA _

theorem agreeOn_SubtractE (P : Nat → Prop) (h h' : Heap) (hA : Heap.AgreeOn P h h') (a b : Nat)
    (ha : P a) (ha' : a < h.next) (hb : P b) (hb' : b < h.next) :
    Heap.AgreeOn P (SubtractE h a b).1 (SubtractE h' a b).1 ∧
      (SubtractE h a b).2 = (SubtractE h' a b).2 := by
  have ea := hA.2 a ha ha'
  have eb := hA.2 b hb hb'
  have A1 := agreeOn_flipNegative P h h' hA b hb hb'
  have r1 := A1.2 a ha ha'
  have r2 := A1.2 b hb hb'
  unfold SubtractE
  rw [← ea, ← eb, ← r1, ← r2]
  split_ifs
  · refine ⟨?_, hA.1⟩
    have h2 := (agreeOn_alloc P _ _ A1
      (addMagnitudes ((h.flipNegative b).read a) ((h.flipNegative b).read b))).1
    exact agreeOn_flipNegative P _ _ h2 b hb (by simp; omega)
  · exact agreeOn_alloc P _ _ hA _

theorem agreeOn_leftShift (P : Nat → Prop) (h h' : Heap) (hA : Heap.AgreeOn P h h') (a : Nat)
    (ha : P a) (ha' : a < h.next) :
    Heap.AgreeOn P (leftShift h a).1 (leftShift h' a).1 ∧
      (leftShift h a).2 = (leftShift h' a).2 := by
  have ea := hA.2 a ha ha'
  unfold leftShift
  rw [← ea]
  split_ifs
  · exact ⟨hA, rfl⟩
  · exact agreeOn_alloc P _ _ hA _

theorem leftShift_ptr (P : Nat → Prop) (n0 : Nat) (hP : ∀ p, n0 ≤ p → P p) (h : Heap) (a : Nat)
    (ha : P a) (ha' : a < h.next) (hn : n0 ≤ h.next) :
    P (leftShift h a).2 ∧ (leftShift h a).2 < (leftShift h a).1.next ∧
      h.next ≤ (leftShift h a).1.next := by
  unfold leftShift
  split_ifs
  · exact ⟨ha, ha', le_refl _⟩
  · simp only [ptr_alloc, next_alloc]
    exact ⟨hP _ hn, by omega, by omega⟩

theorem leftShiftN_ptr (P : Nat → Prop) (n0 : Nat) (hP : ∀ p, n0 ≤ p → P p) (n : Nat) :
    ∀ (h : Heap) (a : Nat), P a → a < h.next → n0 ≤ h.next →
      P (leftShiftN n (h, a)).2 ∧ (leftShiftN n (h, a)).2 < (leftShiftN n (h, a)).1.next ∧
        h.next ≤ (leftShiftN n (h, a)).1.next := by
  induction n with
  | zero =>
    intro h a ha ha' _
    exact ⟨ha, ha', le_refl _⟩
  | succ n ih =>
    intro h a ha ha' hn
    obtain ⟨p1, p2, p3⟩ := leftShift_ptr P n0 hP h a ha ha' hn
    obtain ⟨q1, q2, q3⟩ := ih (leftShift h a).1 (leftShift h a).2 p1 p2 (by omega)
    show P (leftShiftN n ((leftShift h a).1, (leftShift h a).2)).2 ∧
      (leftShiftN n ((leftShift h a).1, (leftShift h a).2)).2 <
        (leftShiftN n ((leftShift h a).1, (leftShift h a).2)).1.next ∧
      h.next ≤ (leftShiftN n ((leftShift h a).1, (leftShift h a).2)).1.next
    exact ⟨q1, q2, by omega⟩

theorem agreeOn_leftShiftN (P : Nat → Prop) (n0 : Nat) (hP : ∀ p, n0 ≤ p → P p) (n : Nat) :
    ∀ (h h' : Heap) (a : Nat), Heap.AgreeOn P h h' → P a → a < h.next → n0 ≤ h.next →
      Heap.AgreeOn P (leftShiftN n (h, a)).1 (leftShiftN n (h', a)).1 ∧
        (leftShiftN n (h, a)).2 = (leftShiftN n (h', a)).2 := by
  induction n with
  | zero =>
    intro h h' a hA _ _ _
    exact ⟨hA, rfl⟩
  | succ n ih =>
    intro h h' a hA ha ha' hn
    obtain ⟨s1, s2⟩ := agreeOn_leftShift P h h' hA a ha ha'
    obtain ⟨p1, p2, p3⟩ := leftShift_ptr P n0 hP h a ha ha' hn
    have := ih (leftShift h a).1 (leftShift h' a).1 (leftShift h a).2 s1 p1 p2 (by omega)
    show Heap.AgreeOn P (leftShiftN n ((leftShift h a).1, (leftShift h a).2)).1
        (leftShiftN n ((leftShift h' a).1, (leftShift h' a).2)).1 ∧
      (leftShiftN n ((leftShift h a).1, (leftShift h a).2)).2 =
        (leftShiftN n ((leftShift h' a).1, (leftShift h' a).2)).2
    rw [← s2]
    exact this

theorem AddE_ptr (h : Heap) (a b : Nat) : (AddE h a b).2 = h.next ∧ (AddE h a b).1.next = h.next + 1 := by
  rw [← Add_eq_AddE]
  exact ⟨Add_ptr h a b, Add_next h a b⟩

theorem SubtractE_ptr (h : Heap) (a b : Nat) :
    (SubtractE h a b).2 = h.next ∧ (SubtractE h a b).1.next = h.next + 1 := by
  unfold SubtractE
  split_ifs <;> simp

/-- The recombination depends only on the objects at `prod`, `z0` and `z2`. -/
theorem karatsubaCombine_agree (m : Nat) (negative : Bool) (h h' : Heap)
    (hn : h.next = 9)
    (hA : Heap.AgreeOn (fun p => p = 4 ∨ p = 5 ∨ 8 ≤ p) h h') :
    karatsubaCombine m negative h 8 4 5 = karatsubaCombine m negative h' 8 4 5 := by
  have hP : ∀ p, 8 ≤ p → (fun p => p = 4 ∨ p = 5 ∨ 8 ≤ p) p := fun p hp => Or.inr (Or.inr hp)
  have P4 : (fun p => p = 4 ∨ p = 5 ∨ 8 ≤ p) 4 := Or.inl rfl
  have P5 : (fun p => p = 4 ∨ p = 5 ∨ 8 ≤ p) 5 := Or.inr (Or.inl rfl)
  have P8 : (fun p => p = 4 ∨ p = 5 ∨ 8 ≤ p) 8 := Or.inr (Or.inr (le_refl _))
  unfold karatsubaCombine
  simp only
  -- diff
  obtain ⟨a1, e1⟩ := agreeOn_SubtractE _ h h' hA 8 4 P8 (by omega) P4 (by omega)
  obtain ⟨d1, d2⟩ := SubtractE_ptr h 8 4
  obtain ⟨⟨h1, p1⟩, x1⟩ : ∃ d, SubtractE h 8 4 = d := ⟨_, rfl⟩
  obtain ⟨⟨h1', p1'⟩, x1'⟩ : ∃ d, SubtractE h' 8 4 = d := ⟨_, rfl⟩
  rw [x1, x1'] at a1 e1 ⊢
  rw [x1] at d1 d2
  simp only at a1 e1 d1 d2 ⊢
  subst e1
  -- z1
  obtain ⟨a2, e2⟩ := agreeOn_SubtractE _ h1 h1' a1 p1 5 (hP _ (by omega)) (by omega) P5
    (by omega)
  obtain ⟨d3, d4⟩ := SubtractE_ptr h1 p1 5
  obtain ⟨⟨h2, p2⟩, x2⟩ : ∃ d, SubtractE h1 p1 5 = d := ⟨_, rfl⟩
  obtain ⟨⟨h2', p2'⟩, x2'⟩ : ∃ d, SubtractE h1' p1 5 = d := ⟨_, rfl⟩
  rw [x2, x2'] at a2 e2 ⊢
  rw [x2] at d3 d4
  simp only at a2 e2 d3 d4 ⊢
  subst e2
  -- result
  obtain ⟨a3, e3⟩ := agreeOn_leftShiftN _ 8 hP (2 * m) h2 h2' 4 a2 P4 (by omega) (by omega)
  obtain ⟨r1, r2, r3⟩ := leftShiftN_ptr _ 8 hP (2 * m) h2 4 P4 (by omega) (by omega)
  obtain ⟨⟨h3, p3⟩, x3⟩ : ∃ d, leftShiftN (2 * m) (h2, 4) = d := ⟨_, rfl⟩
  obtain ⟨⟨h3', p3'⟩, x3'⟩ : ∃ d, leftShiftN (2 * m) (h2', 4) = d := ⟨_, rfl⟩
  rw [x3, x3'] at a3 e3 ⊢
  rw [x3] at r1 r2 r3
  simp only at a3 e3 r1 r2 r3 ⊢
  subst e3
  -- z1Scaled
  obtain ⟨a4, e4⟩ := agreeOn_leftShiftN _ 8 hP m h3 h3' p2 a3 (hP _ (by omega)) (by omega)
    (by omega)
  obtain ⟨s1, s2, s3⟩ := leftShiftN_ptr _ 8 hP m h3 p2 (hP _ (by omega)) (by omega) (by omega)
  obtain ⟨⟨h4, p4⟩, x4⟩ : ∃ d, leftShiftN m (h3, p2) = d := ⟨_, rfl⟩
  obtain ⟨⟨h4', p4'⟩, x4'⟩ : ∃ d, leftShiftN m (h3', p2) = d := ⟨_, rfl⟩
  rw [x4, x4'] at a4 e4 ⊢
  rw [x4] at s1 s2 s3
  simp only at a4 e4 s1 s2 s3 ⊢
  subst e4
  -- sum
  obtain ⟨a5, e5⟩ := agreeOn_AddE _ h4 h4' a4 p3 p4 r1 (by omega) s1 s2
  obtain ⟨t1, t2⟩ := AddE_ptr h4 p3 p4
  obtain ⟨⟨h5, p5⟩, x5⟩ : ∃ d, AddE h4 p3 p4 = d := ⟨_, rfl⟩
  obtain ⟨⟨h5', p5'⟩, x5'⟩ : ∃ d, AddE h4' p3 p4 = d := ⟨_, rfl⟩
  rw [x5, x5'] at a5 e5 ⊢
  rw [x5] at t1 t2
  simp only at a5 e5 t1 t2 ⊢
  subst e5
  -- result
  obtain ⟨a6, e6⟩ := agreeOn_AddE _ h5 h5' a5 p5 5 (hP _ (by omega)) (by omega) P5 (by omega)
  obtain ⟨u1, u2⟩ := AddE_ptr h5 p5 5
  obtain ⟨⟨h6, p6⟩, x6⟩ : ∃ d, AddE h5 p5 5 = d := ⟨_, rfl⟩
  obtain ⟨⟨h6', p6'⟩, x6'⟩ : ∃ d, AddE h5' p5 5 = d := ⟨_, rfl⟩
  rw [x6, x6'] at a6 e6 ⊢
  rw [x6] at u1 u2
  simp only at a6 e6 u1 u2 ⊢
  subst e6
  simp only [read_setNegative, if_true]
  rw [a6.2 p6 (hP _ (by omega)) (by omega)]

theorem heap_ext (h h' : Heap) (ho : h.objs = h'.objs) (hn : h.next = h'.next) : h = h' := by
  cases h; cases h'; simp only at ho hn; rw [ho, hn]

theorem empty_eq_ofList : Heap.empty = Heap.ofList [] := by
  apply heap_ext
  · funext p; simp [Heap.empty, Heap.ofList]
  · rfl

theorem ofList_alloc (xs : List ArbitraryInt) (x : ArbitraryInt) :
    (Heap.ofList xs).alloc x = (Heap.ofList (xs ++ [x]), xs.length) := by
  unfold Heap.alloc Heap.ofList
  simp only [Prod.mk.injEq, and_true]
  apply heap_ext
  · funext q
    simp only
    by_cases e : q = xs.length
    · subst e; simp
    · simp only [if_neg e]
      rcases Nat.lt_or_gt_of_ne e with hlt | hgt
      · rw [List.getD_append _ _ _ _ hlt]
      · rw [List.getD_eq_default _ _ (by omega), List.getD_eq_default _ _ (by simp; omega)]
  · simp

@[simp] theorem read_ofList (xs : List ArbitraryInt) (p : Nat) :
    (Heap.ofList xs).read p = xs.getD p { digits := [], negative := false } := rfl

theorem AddE_same (h : Heap) (a b : Nat) (hs : (h.read a).negative = (h.read b).negative) :
    AddE h a b = h.alloc (addMagnitudes (h.read a) (h.read b)) := by
  rw [← Add_eq_AddE, Add_same h a b hs]

theorem karatsubaBody_eq (mul : ArbitraryInt → ArbitraryInt → ArbitraryInt)
    (a b : ArbitraryInt) :
    karatsubaBody mul a b =
      karatsubaCombine (min a.digits.length b.digits.length / 2) (a.negative != b.negative)
        (karatsubaHeap mul (min a.digits.length b.digits.length / 2) a b) 8 4 5 := by
  unfold karatsubaBody karatsubaHeap
  simp only [empty_eq_ofList, ofList_alloc, List.nil_append, List.cons_append, List.length_nil,
    List.length_cons, read_ofList, List.getD_cons_zero, List.getD_cons_succ]
  rw [AddE_same _ 0 1 (by simp)]
  simp only [ofList_alloc, List.nil_append, List.cons_append, List.length_nil,
    List.length_cons, read_ofList, List.getD_cons_zero, List.getD_cons_succ]
  rw [AddE_same _ 2 3 (by simp)]
  simp only [ofList_alloc, List.nil_append, List.cons_append, List.length_nil,
    List.length_cons, read_ofList, List.getD_cons_zero, List.getD_cons_succ]
  rfl

/-! ## Commutativity of `Multiply` -/

theorem bne_comm_bool (x y : Bool) : (x != y) = (y != x) := by
  cases x <;> cases y <;> rfl

theorem min_comm_int (x y : Nat) : min x y = min y x := by
  unfold min; split_ifs <;> omega

theorem min_half_bounds (x y : Nat) (hx : 32 < x) (hy : 32 < y) :
    16 ≤ min x y / 2 ∧ min x y / 2 ≤ x / 2 ∧ min x y / 2 ≤ y / 2 := by
  unfold min; split_ifs <;> omega

theorem limbsOk_take {xs : List Nat} (h : LimbsOk xs) (m : Nat) : LimbsOk (xs.take m) :=
  fun d hd => h d (List.mem_of_mem_take hd)

theorem limbsOk_drop {xs : List Nat} (h : LimbsOk xs) (m : Nat) : LimbsOk (xs.drop m) :=
  fun d hd => h d (List.mem_of_mem_drop hd)

theorem Multiply_large (a b : ArbitraryInt) (ha : 32 < a.digits.length)
    (hb : 32 < b.digits.length) : Multiply a b = karatsubaBody Multiply a b := by
  rw [Multiply]
  rw [if_neg (by omega), if_pos (Or.inl ha)]
  exact karatsubaMultiply_eq_body a b (by omega)

theorem karatsubaBody_comm (mul : ArbitraryInt → ArbitraryInt → ArbitraryInt)
    (a b : ArbitraryInt)
    (h0 : mul { digits := a.digits.take (min a.digits.length b.digits.length / 2),
                negative := false }
              { digits := b.digits.take (min a.digits.length b.digits.length / 2),
                negative := false } =
          mul { digits := b.digits.take (min a.digits.length b.digits.length / 2),
                negative := false }
              { digits := a.digits.take (min a.digits.length b.digits.length / 2),
                negative := false })
    (h2 : mul { digits := a.digits.drop (min a.digits.length b.digits.length / 2),
                negative := false }
              { digits := b.digits.drop (min a.digits.length b.digits.length / 2),
                negative := false } =
          mul { digits := b.digits.drop (min a.digits.length b.digits.length / 2),
                negative := false }
              { digits := a.digits.drop (min a.digits.length b.digits.length / 2),
                negative := false })
    (hp : mul (addMagnitudes
                { digits := a.digits.take (min a.digits.length b.digits.length / 2),
                  negative := false }
                { digits := a.digits.drop (min a.digits.length b.digits.length / 2),
                  negative := false })
              (addMagnitudes
                { digits := b.digits.take (min a.digits.length b.digits.length / 2),
                  negative := false }
                { digits := b.digits.drop (min a.digits.length b.digits.length / 2),
                  negative := false }) =
          mul (addMagnitudes
                { digits := b.digits.take (min a.digits.length b.digits.length / 2),
                  negative := false }
                { digits := b.digits.drop (min a.digits.length b.digits.length / 2),
                  negative := false })
              (addMagnitudes
                { digits := a.digits.take (min a.digits.length b.digits.length / 2),
                  negative := false }
                { digits := a.digits.drop (min a.digits.length b.digits.length / 2),
                  negative := false })) :
    karatsubaBody mul a b = karatsubaBody mul b a := by
  rw [karatsubaBody_eq, karatsubaBody_eq, min_comm_int b.digits.length a.digits.length,
    bne_comm_bool b.negative a.negative]
  apply karatsubaCombine_agree _ _ _ _ rfl
  refine ⟨rfl, ?_⟩
  intro p hp9 hlt
  have hlt' : p < 9 := hlt
  rcases hp9 with rfl | rfl | h8
  · simp only [karatsubaHeap, read_ofList, List.getD_cons_zero, List.getD_cons_succ]
    exact h0
  · simp only [karatsubaHeap, read_ofList, List.getD_cons_zero, List.getD_cons_succ]
    exact h2
  · have e : p = 8 := by omega
    subst e
    simp only [karatsubaHeap, read_ofList, List.getD_cons_zero, List.getD_cons_succ]
    exact hp

theorem Multiply_comm_aux (n : Nat) : ∀ (a b : ArbitraryInt), LimbsOk a.digits → LimbsOk b.digits →
    a.digits.length + b.digits.length ≤ n → Multiply a b = Multiply b a := by
  induction n using Nat.strong_induction_on with
  | _ n ih =>
    intro a b ha hb hn
    by_cases h0 : a.digits.length = 0 ∨ b.digits.length = 0
    · rw [Multiply, Multiply, if_pos h0, if_pos (Or.symm h0)]
    · by_cases hs : a.digits.length ≤ 32 ∨ b.digits.length ≤ 32
      · have hna : a.digits ≠ [] := fun e => h0 (Or.inl (by rw [e]; rfl))
        have hnb : b.digits ≠ [] := fun e => h0 (Or.inr (by rw [e]; rfl))
        rw [Multiply_small a b hna hnb hs, Multiply_small b a hnb hna (Or.symm hs),
          longMultiply_comm a b _ ha hb, bne_comm_bool]
      · have hla : 32 < a.digits.length := by omega
        have hlb : 32 < b.digits.length := by omega
        obtain ⟨m1, m2, m3⟩ := min_half_bounds _ _ hla hlb
        rw [Multiply_large a b hla hlb, Multiply_large b a hlb hla]
        have hat := limbsOk_take ha (min a.digits.length b.digits.length / 2)
        have had := limbsOk_drop ha (min a.digits.length b.digits.length / 2)
        have hbt := limbsOk_take hb (min a.digits.length b.digits.length / 2)
        have hbd := limbsOk_drop hb (min a.digits.length b.digits.length / 2)
        apply karatsubaBody_comm
        · apply ih (a.digits.length + b.digits.length - 1) (by omega) _ _ hat hbt
          simp only [List.length_take]
          omega
        · apply ih (a.digits.length + b.digits.length - 1) (by omega) _ _ had hbd
          simp only [List.length_drop]
          omega
        · have wa := (addMagnitudes_spec
            { digits := a.digits.take (min a.digits.length b.digits.length / 2),
              negative := false }
            { digits := a.digits.drop (min a.digits.length b.digits.length / 2),
              negative := false } hat had
            (by intro e; have := congrArg List.length e
                simp only [List.length_take, List.length_nil] at this; omega)).2.2
          have wb := (addMagnitudes_spec
            { digits := b.digits.take (min a.digits.length b.digits.length / 2),
              negative := false }
            { digits := b.digits.drop (min a.digits.length b.digits.length / 2),
              negative := false } hbt hbd
            (by intro e; have := congrArg List.length e
                simp only [List.length_take, List.length_nil] at this; omega)).2.2
          have la := length_addMagnitudes_le
            { digits := a.digits.take (min a.digits.length b.digits.length / 2),
              negative := false }
            { digits := a.digits.drop (min a.digits.length b.digits.length / 2),
              negative := false }
            (a.digits.length - min a.digits.length b.digits.length / 2)
            (by simp only [List.length_take]; omega) (by simp only [List.length_drop]; omega)
          have lb := length_addMagnitudes_le
            { digits := b.digits.take (min a.digits.length b.digits.length / 2),
              negative := false }
            { digits := b.digits.drop (min a.digits.length b.digits.length / 2),
              negative := false }
            (b.digits.length - min a.digits.length b.digits.length / 2)
            (by simp only [List.length_take]; omega) (by simp only [List.length_drop]; omega)
          apply ih (a.digits.length + b.digits.length - 1) (by omega) _ _ wa.2.1 wb.2.1
          omega

theorem Multiply_comm (a b : ArbitraryInt) (ha : LimbsOk a.digits) (hb : LimbsOk b.digits) :
    Multiply a b = Multiply b a :=
  Multiply_comm_aux _ a b ha hb (le_refl _)

/-! ## Well-formedness through the recombination -/

theorem wfOn_alloc (P : Nat → Prop) (h : Heap) (hW : Heap.WellFormedOn P h) (x : ArbitraryInt)
    (hx : WellFormed x.digits) : Heap.WellFormedOn P (h.alloc x).1 := by
  intro p hp hlt
  simp only [read_alloc, next_alloc] at hlt ⊢
  by_cases e : p = h.next
  · simp only [if_pos e]; exact hx
  · simp only [if_neg e]; exact hW p hp (by omega)

theorem wfOn_setNegative (P : Nat → Prop) (h : Heap) (hW : Heap.WellFormedOn P h) (a : Nat)
    (ha : P a) (ha' : a < h.next) (v : Bool) : Heap.WellFormedOn P (h.setNegative a v) := by
  intro p hp hlt
  simp only [read_setNegative, next_setNegative] at hlt ⊢
  by_cases e : p = a
  · simp only [if_pos e]; exact hW a ha ha'
  · simp only [if_neg e]; exact hW p hp hlt

theorem wfOn_flipNegative (P : Nat → Prop) (h : Heap) (hW : Heap.WellFormedOn P h) (a : Nat)
    (ha : P a) (ha' : a < h.next) : Heap.WellFormedOn P (h.flipNegative a) :=
  wfOn_setNegative P h hW a ha ha' _

theorem wfOn_AddE (P : Nat → Prop) (h : Heap) (hW : Heap.WellFormedOn P h) (a b : Nat)
    (ha : P a) (ha' : a < h.next) (hb : P b) (hb' : b < h.next) :
    Heap.WellFormedOn P (AddE h a b).1 := by
  have wa := hW a ha ha'
  have wb := hW b hb hb'
  have W1 := wfOn_setNegative P h hW a ha ha' false
  have W2 := wfOn_setNegative P h hW b hb hb' false
  unfold AddE
  split_ifs
  · exact wfOn_alloc P _ W1 _
      (subtractMagnitudes_spec _ _ (W1 b hb hb') (W1 a ha ha')).2.2
  · exact wfOn_alloc P _ W2 _
      (subtractMagnitudes_spec _ _ (W2 a ha ha') (W2 b hb hb')).2.2
  · exact wfOn_alloc P _ hW _ (addMagnitudes_spec _ _ wa.2.1 wb.2.1 wa.1).2.2

theorem wfOn_SubtractE (P : Nat → Prop) (h : Heap) (hW : Heap.WellFormedOn P h) (a b : Nat)
    (ha : P a) (ha' : a < h.next) (hb : P b) (hb' : b < h.next) :
    Heap.WellFormedOn P (SubtractE h a b).1 := by
  have wa := hW a ha ha'
  have wb := hW b hb hb'
  have W1 := wfOn_flipNegative P h hW b hb hb'
  unfold SubtractE
  split_ifs
  · have wa1 := W1 a ha ha'
    have wb1 := W1 b hb hb'
    exact wfOn_flipNegative P _
      (wfOn_alloc P _ W1 _ (addMagnitudes_spec _ _ wa1.2.1 wb1.2.1 wa1.1).2.2) b hb
      (by simp; omega)
  · exact wfOn_alloc P _ hW _ (subtractMagnitudes_spec _ _ wa wb).2.2

theorem wellFormed_shift (ds : List Nat) (hw : WellFormed ds)
    (hz : ¬(ds.length = 1 ∧ ds.getD 0 0 = 0)) : WellFormed (0 :: ds) := by
  obtain ⟨h1, h2, h3⟩ := hw
  refine ⟨by simp, limbsOk_cons.mpr ⟨by decide, h2⟩, ?_⟩
  intro _
  cases ds with
  | nil => exact absurd rfl h1
  | cons d ds =>
    rw [List.getLast?_cons_cons]
    cases ds with
    | nil =>
      simp only [List.getLast?_singleton, ne_eq, Option.some.injEq]
      intro e
      exact hz ⟨rfl, by simpa using e⟩
    | cons e ds => exact h3 (by simp)

theorem wfOn_leftShift (P : Nat → Prop) (h : Heap) (hW : Heap.WellFormedOn P h) (a : Nat)
    (ha : P a) (ha' : a < h.next) : Heap.WellFormedOn P (leftShift h a).1 := by
  unfold leftShift
  split_ifs with hz
  · exact hW
  · exact wfOn_alloc P _ hW _ (wellFormed_shift _ (hW a ha ha') hz)

theorem wfOn_leftShiftN (P : Nat → Prop) (n0 : Nat) (hP : ∀ p, n0 ≤ p → P p) (n : Nat) :
    ∀ (h : Heap) (a : Nat), Heap.WellFormedOn P h → P a → a < h.next → n0 ≤ h.next →
      Heap.WellFormedOn P (leftShiftN n (h, a)).1 := by
  induction n with
  | zero =>
    intro h a hW _ _ _
    exact hW
  | succ n ih =>
    intro h a hW ha ha' hn
    obtain ⟨p1, p2, p3⟩ := leftShift_ptr P n0 hP h a ha ha' hn
    exact ih (leftShift h a).1 (leftShift h a).2 (wfOn_leftShift P h hW a ha ha') p1 p2
      (by omega)

/-- The recombination returns well-formed digits when the objects at `prod`, `z0` and `z2`
have well-formed digits. -/
theorem karatsubaCombine_wellFormed (m : Nat) (negative : Bool) (h : Heap) (hn : h.next = 9)
    (hW : Heap.WellFormedOn (fun p => p = 4 ∨ p = 5 ∨ 8 ≤ p) h) :
    WellFormed (karatsubaCombine m negative h 8 4 5).digits := by
  have hP : ∀ p, 8 ≤ p → (fun p => p = 4 ∨ p = 5 ∨ 8 ≤ p) p := fun p hp => Or.inr (Or.inr hp)
  have P4 : (fun p => p = 4 ∨ p = 5 ∨ 8 ≤ p) 4 := Or.inl rfl
  have P5 : (fun p => p = 4 ∨ p = 5 ∨ 8 ≤ p) 5 := Or.inr (Or.inl rfl)
  have P8 : (fun p => p = 4 ∨ p = 5 ∨ 8 ≤ p) 8 := Or.inr (Or.inr (le_refl _))
  unfold karatsubaCombine
  simp only
  -- diff
  have a1 := wfOn_SubtractE _ h hW 8 4 P8 (by omega) P4 (by omega)
  obtain ⟨d1, d2⟩ := SubtractE_ptr h 8 4
  obtain ⟨⟨h1, p1⟩, x1⟩ : ∃ d, SubtractE h 8 4 = d := ⟨_, rfl⟩
  rw [x1] at a1 d1 d2 ⊢
  simp only at a1 d1 d2 ⊢
  -- z1
  have a2 := wfOn_SubtractE _ h1 a1 p1 5 (hP _ (by omega)) (by omega) P5 (by omega)
  obtain ⟨d3, d4⟩ := SubtractE_ptr h1 p1 5
  obtain ⟨⟨h2, p2⟩, x2⟩ : ∃ d, SubtractE h1 p1 5 = d := ⟨_, rfl⟩
  rw [x2] at a2 d3 d4 ⊢
  simp only at a2 d3 d4 ⊢
  -- result
  have a3 := wfOn_leftShiftN _ 8 hP (2 * m) h2 4 a2 P4 (by omega) (by omega)
  obtain ⟨r1, r2, r3⟩ := leftShiftN_ptr _ 8 hP (2 * m) h2 4 P4 (by omega) (by omega)
  obtain ⟨⟨h3, p3⟩, x3⟩ : ∃ d, leftShiftN (2 * m) (h2, 4) = d := ⟨_, rfl⟩
  rw [x3] at a3 r1 r2 r3 ⊢
  simp only at a3 r1 r2 r3 ⊢
  -- z1Scaled
  have a4 := wfOn_leftShiftN _ 8 hP m h3 p2 a3 (hP _ (by omega)) (by omega) (by omega)
  obtain ⟨s1, s2, s3⟩ := leftShiftN_ptr _ 8 hP m h3 p2 (hP _ (by omega)) (by omega) (by omega)
  obtain ⟨⟨h4, p4⟩, x4⟩ : ∃ d, leftShiftN m (h3, p2) = d := ⟨_, rfl⟩
  rw [x4] at a4 s1 s2 s3 ⊢
  simp only at a4 s1 s2 s3 ⊢
  -- sum
  have a5 := wfOn_AddE _ h4 a4 p3 p4 r1 (by omega) s1 s2
  obtain ⟨t1, t2⟩ := AddE_ptr h4 p3 p4
  obtain ⟨⟨h5, p5⟩, x5⟩ : ∃ d, AddE h4 p3 p4 = d := ⟨_, rfl⟩
  rw [x5] at a5 t1 t2 ⊢
  simp only at a5 t1 t2 ⊢
  -- result
  have a6 := wfOn_AddE _ h5 a5 p5 5 (hP _ (by omega)) (by omega) P5 (by omega)
  obtain ⟨u1, u2⟩ := AddE_ptr h5 p5 5
  obtain ⟨⟨h6, p6⟩, x6⟩ : ∃ d, AddE h5 p5 5 = d := ⟨_, rfl⟩
  rw [x6] at a6 u1 u2 ⊢
  simp only at a6 u1 u2 ⊢
  simp only [read_setNegative, if_true]
  exact a6 p6 (hP _ (by omega)) (by omega)

theorem Multiply_wellFormed_aux (n : Nat) : ∀ (a b : ArbitraryInt), LimbsOk a.digits →
    LimbsOk b.digits → a.digits.length + b.digits.length ≤ n →
    WellFormed (Multiply a b).digits := by
  induction n using Nat.strong_induction_on with
  | _ n ih =>
    intro a b ha hb hn
    by_cases h0 : a.digits.length = 0 ∨ b.digits.length = 0
    · rw [Multiply, if_pos h0]; decide
    · by_cases hs : a.digits.length ≤ 32 ∨ b.digits.length ≤ 32
      · have hna : a.digits ≠ [] := fun e => h0 (Or.inl (by rw [e]; rfl))
        have hnb : b.digits ≠ [] := fun e => h0 (Or.inr (by rw [e]; rfl))
        rw [Multiply_small a b hna hnb hs]
        exact (longMultiply_spec a b _ ha hb).2.2
      · have hla : 32 < a.digits.length := by omega
        have hlb : 32 < b.digits.length := by omega
        obtain ⟨m1, m2, m3⟩ := min_half_bounds _ _ hla hlb
        rw [Multiply_large a b hla hlb, karatsubaBody_eq]
        have hat := limbsOk_take ha (min a.digits.length b.digits.length / 2)
        have had := limbsOk_drop ha (min a.digits.length b.digits.length / 2)
        have hbt := limbsOk_take hb (min a.digits.length b.digits.length / 2)
        have hbd := limbsOk_drop hb (min a.digits.length b.digits.length / 2)
        apply karatsubaCombine_wellFormed _ _ _ rfl
        intro p hp9 hlt
        have hlt' : p < 9 := hlt
        rcases hp9 with rfl | rfl | h8
        · simp only [karatsubaHeap, read_ofList, List.getD_cons_zero, List.getD_cons_succ]
          apply ih (a.digits.length + b.digits.length - 1) (by omega) _ _ hat hbt
          simp only [List.length_take]
          omega
        · simp only [karatsubaHeap, read_ofList, List.getD_cons_zero, List.getD_cons_succ]
          apply ih (a.digits.length + b.digits.length - 1) (by omega) _ _ had hbd
          simp only [List.length_drop]
          omega
        · have e : p = 8 := by omega
          subst e
          simp only [karatsubaHeap, read_ofList, List.getD_cons_zero, List.getD_cons_succ]
          have wa := (addMagnitudes_spec
            { digits := a.digits.take (min a.digits.length b.digits.length / 2),
              negative := false }
            { digits := a.digits.drop (min a.digits.length b.digits.length / 2),
              negative := false } hat had
            (by intro e; have := congrArg List.length e
                simp only [List.length_take, List.length_nil] at this; omega)).2.2
          have wb := (addMagnitudes_spec
            { digits := b.digits.take (min a.digits.length b.digits.length / 2),
              negative := false }
            { digits := b.digits.drop (min a.digits.length b.digits.length / 2),
              negative := false } hbt hbd
            (by intro e; have := congrArg List.length e
                simp only [List.length_take, List.length_nil] at this; omega)).2.2
          have la := length_addMagnitudes_le
            { digits := a.digits.take (min a.digits.length b.digits.length / 2),
              negative := false }
            { digits := a.digits.drop (min a.digits.length b.digits.length / 2),
              negative := false }
            (a.digits.length - min a.digits.length b.digits.length / 2)
            (by simp only [List.length_take]; omega) (by simp only [List.length_drop]; omega)
          have lb := length_addMagnitudes_le
            { digits := b.digits.take (min a.digits.length b.digits.length / 2),
              negative := false }
            { digits := b.digits.drop (min a.digits.length b.digits.length / 2),
              negative := false }
            (b.digits.length - min a.digits.length b.digits.length / 2)
            (by simp only [List.length_take]; omega) (by simp only [List.length_drop]; omega)
          apply ih (a.digits.length + b.digits.length - 1) (by omega) _ _ wa.2.1 wb.2.1
          omega

theorem Multiply_wellFormed (a b : ArbitraryInt) (ha : LimbsOk a.digits)
    (hb : LimbsOk b.digits) : WellFormed (Multiply a b).digits :=
  Multiply_wellFormed_aux _ a b ha hb (le_refl _)

/-! ## Well-formedness of the results of `Add` and `Subtract` -/

theorem Add_wellFormed (h : Heap) (a b : Nat) (wa : WellFormed (h.read a).digits)
    (wb : WellFormed (h.read b).digits) :
    WellFormed ((Add h a b).1.read (Add h a b).2).digits := by
  rw [Add_result]
  split_ifs
  · exact (subtractMagnitudes_spec (h.read b)
      { digits := (h.read a).digits, negative := false } wb wa).2.2
  · exact (subtractMagnitudes_spec (h.read a)
      { digits := (h.read b).digits, negative := false } wa wb).2.2
  · exact (addMagnitudes_spec _ _ wa.2.1 wb.2.1 wa.1).2.2

theorem Subtract_wellFormed (h : Heap) (a b : Nat) (hb : b < h.next)
    (wa : WellFormed (h.read a).digits) (wb : WellFormed (h.read b).digits) :
    WellFormed ((Subtract h a b).1.read (Subtract h a b).2).digits := by
  rw [Subtract_result h a b hb]
  split_ifs
  · exact (subtractMagnitudes_spec _ _ wa wb).2.2
  · exact (addMagnitudes_spec (h.read a)
      { digits := (h.read b).digits, negative := !(h.read b).negative } wa.2.1 wb.2.1 wa.1).2.2

/-! ## The limbs `NewArbitraryInt` packs -/

theorem isDecimalDigit_toNat (c : Char) (h : isDecimalDigit c = true) :
    48 ≤ c.toNat ∧ c.toNat ≤ 57 := by
  simp only [isDecimalDigit, decide_eq_true_eq, char_le_iff] at h
  exact h

theorem isDecimalDigit_digitChar (d : Nat) (h : d < 10) :
    isDecimalDigit (Nat.digitChar d) = true := by
  interval_cases d <;> decide

theorem isDecimalDigit_toDigits (n : Nat) : ∀ c ∈ Nat.toDigits 10 n, isDecimalDigit c = true := by
  induction n using Nat.strong_induction_on with
  | _ n ih =>
    intro c hc
    by_cases h : 10 ≤ n
    · rw [toDigits_step n h, List.mem_append, List.mem_singleton] at hc
      rcases hc with hc | rfl
      · exact ih (n / 10) (by omega) c hc
      · exact isDecimalDigit_digitChar _ (Nat.mod_lt _ (by decide))
    · rw [toDigits_lt_ten n (by omega), List.mem_singleton] at hc
      rw [hc]
      exact isDecimalDigit_digitChar _ (by omega)

theorem isNumeral_toDigits (n : Nat) : IsNumeral (Nat.toDigits 10 n) := by
  obtain ⟨c, t, e, -, hz⟩ := toDigits_head n
  refine ⟨by rw [e]; simp, isDecimalDigit_toDigits n, ?_⟩
  by_cases h0 : c = '0'
  · left
    rw [hz h0]; rfl
  · right
    rw [e]
    simpa using h0

theorem isNumeral_normalizeRun (r : List Char)
    (h : ∀ c ∈ stripSign r, isDecimalDigit c = true) : IsNumeral (normalizeRun r) := by
  refine ⟨normalizeRun_ne_nil r, ?_, ?_⟩
  · intro c hc
    rcases mem_normalizeRun r c hc with rfl | hc
    · decide
    · exact h c hc
  · unfold normalizeRun
    split_ifs with he
    · left; rfl
    · right
      intro hh
      have := List.head?_dropWhile_not (fun c => decide (c = '0')) (stripSign r)
      rw [hh] at this
      simp at this

theorem chunkValue_snoc (s : List Char) (c : Char) :
    chunkValue (s ++ [c]) =
      add32 ((chunkValue s * 10) % two32)
        ((((c.toNat : Int) - 48) % 4294967296).toNat) := by
  simp [chunkValue, List.foldl_append]

theorem chunkValue_eq (s : List Char) :
    (∀ c ∈ s, isDecimalDigit c = true) → s.length ≤ 9 →
      chunkValue s = readDecimalNat s ∧ readDecimalNat s < 10 ^ s.length := by
  induction s using List.reverseRecOn with
  | nil =>
    intro _ _
    exact ⟨rfl, by simp [readDecimalNat]⟩
  | append_singleton s c ih =>
    intro hd hl
    simp only [List.length_append, List.length_singleton] at hl
    obtain ⟨e, hlt⟩ := ih (fun c hc => hd c (List.mem_append_left _ hc)) (by omega)
    have hc := isDecimalDigit_toNat c (hd c (by simp))
    have hp : 10 ^ s.length ≤ 10 ^ 8 := Nat.pow_le_pow_right (by decide) (by omega)
    have h8 : (10 : Nat) ^ 8 = 100000000 := by norm_num
    have e0 : '0'.toNat = 48 := rfl
    rw [chunkValue_snoc, readDecimalNat_snoc, e, e0]
    have hz : ((((c.toNat : Int) - 48) % 4294967296).toNat) = c.toNat - 48 := by omega
    rw [hz]
    simp only [List.length_append, List.length_singleton, pow_succ]
    constructor
    · simp only [add32, two32]; omega
    · omega

theorem readDecimalNat_pos (s : List Char) :
    (∀ c ∈ s, isDecimalDigit c = true) → s ≠ [] → s.head? ≠ some '0' →
      0 < readDecimalNat s := by
  induction s using List.reverseRecOn with
  | nil => intro _ h _; exact absurd rfl h
  | append_singleton s c ih =>
    intro hd _ hh
    rw [readDecimalNat_snoc]
    cases s with
    | nil =>
      have hc := isDecimalDigit_toNat c (hd c (by simp))
      have hne : c ≠ '0' := by simpa using hh
      have : c.toNat ≠ '0'.toNat := fun e => hne (Char.ext (by
        apply UInt32.ext; exact e))
      have e0 : '0'.toNat = 48 := rfl
      simp only [readDecimalNat, List.foldl_nil]
      omega
    | cons d s =>
      have := ih (fun c hc => hd c (List.mem_append_left _ hc)) (by simp)
        (by simpa using hh)
      omega

theorem chunkLoop_spec (n : Nat) : ∀ (s : List Char), s.length ≤ n →
    (∀ chunk ∈ chunkLoop n s, chunk.length ≤ 9 ∧ ∀ c ∈ chunk, c ∈ s) ∧
      (s ≠ [] → ∃ rest, chunkLoop n s = s.take 9 :: rest ∧ (rest ≠ [] → 9 < s.length)) := by
  induction n with
  | zero =>
    intro s hl
    have : s = [] := List.length_eq_zero.mp (by omega)
    subst this
    exact ⟨by simp [chunkLoop], fun h => absurd rfl h⟩
  | succ n ih =>
    intro s hl
    by_cases hs : s = []
    · subst hs
      exact ⟨by simp [chunkLoop], fun h => absurd rfl h⟩
    · have hpos : 0 < s.length := List.length_pos.mpr hs
      obtain ⟨i1, i2⟩ := ih (s.drop 9) (by simp only [List.length_drop]; omega)
      simp only [chunkLoop, if_neg hs]
      constructor
      · intro chunk hc
        rcases List.mem_cons.mp hc with rfl | hc
        · exact ⟨by simp only [List.length_take]; omega, fun c hc => List.mem_of_mem_take hc⟩
        · exact ⟨(i1 chunk hc).1, fun c hcc => List.mem_of_mem_drop ((i1 chunk hc).2 c hcc)⟩
      · intro _
        refine ⟨_, rfl, ?_⟩
        intro hr
        by_contra hle
        have : s.drop 9 = [] := List.drop_eq_nil_of_le (by omega)
        rw [this] at hr
        cases n <;> simp [chunkLoop] at hr

theorem packDigits_wellFormed (s : List Char) (hs : IsNumeral s) : WellFormed (packDigits s) := by
  obtain ⟨hne, hd, hz⟩ := hs
  obtain ⟨c1, c2⟩ := chunkLoop_spec s.length s (le_refl _)
  obtain ⟨rest, e, hr⟩ := c2 hne
  unfold packDigits
  refine ⟨by rw [e]; simp, ?_, ?_⟩
  · intro d hdm
    simp only [List.mem_reverse, List.mem_map] at hdm
    obtain ⟨chunk, hc, rfl⟩ := hdm
    obtain ⟨l9, sub⟩ := c1 chunk hc
    obtain ⟨e1, e2⟩ := chunkValue_eq chunk (fun c hcc => hd c (sub c hcc)) l9
    rw [e1]
    have : 10 ^ chunk.length ≤ 10 ^ 9 := Nat.pow_le_pow_right (by decide) l9
    have h9 : (10 : Nat) ^ 9 = 1000000000 := by norm_num
    show readDecimalNat chunk < 1000000000
    omega
  · intro hl
    rw [e] at hl ⊢
    simp only [List.map_cons, List.reverse_cons, List.length_append, List.length_reverse,
      List.length_map, List.length_singleton] at hl
    have hrest : rest ≠ [] := by
      intro h0; rw [h0] at hl; simp at hl
    have h9 := hr hrest
    rw [List.map_cons, List.reverse_cons, List.getLast?_append]
    simp only [List.getLast?_singleton, Option.or_some, ne_eq, Option.some.injEq]
    have hhead : s.head? ≠ some '0' := by
      rcases hz with h0 | h0
      · rw [h0] at h9; simp at h9
      · exact h0
    have ht : (s.take 9).head? ≠ some '0' := by
      cases s with
      | nil => exact absurd rfl hne
      | cons c t => simpa using hhead
    have htn : s.take 9 ≠ [] := by
      cases s with
      | nil => exact absurd rfl hne
      | cons c t => simp
    obtain ⟨e1, -⟩ := chunkValue_eq (s.take 9)
      (fun c hc => hd c (List.mem_of_mem_take hc)) (by simp only [List.length_take]; omega)
    have := readDecimalNat_pos (s.take 9) (fun c hc => hd c (List.mem_of_mem_take hc)) htn ht
    rw [e1]
    omega

theorem NewArbitraryInt_wellFormed (s : List Char) (v : ArbitraryInt)
    (hacc : NewArbitraryInt s = Result.ok v) : WellFormed v.digits := by
  have hrej : ∀ e, NewArbitraryInt s ≠ Result.error e := by
    intro e he
    rw [he] at hacc; cases hacc
  by_cases h0 : trimSpace s = []
  · exact absurd (NewArbitraryInt_empty s h0) (hrej _)
  by_cases hx : ∃ rest, trimSpace s = '0' :: 'x' :: rest
  · obtain ⟨rest, ht⟩ := hx
    cases rest with
    | nil =>
      obtain ⟨e, he⟩ := NewArbitraryInt_rejects s (Or.inr (Or.inl (by rw [ht]; rfl)))
      exact absurd he (hrej e)
    | cons c rest =>
      cases hm : matchSignedRun isHexDigit (c :: rest) with
      | false => exact absurd (NewArbitraryInt_hex_invalid s c rest ht hm) (hrej _)
      | true =>
        have e := NewArbitraryInt_hex_valid s c rest ht hm
        rw [hacc] at e
        cases hs : setString (normalizeRun (c :: rest)) 16 with
        | none => rw [hs] at e; cases e
        | some val =>
          rw [hs] at e
          rw [ok_injective _ _ e]
          exact packDigits_wellFormed _ (isNumeral_toDigits val)
  by_cases hb : ∃ rest, trimSpace s = '0' :: 'b' :: rest
  · obtain ⟨rest, ht⟩ := hb
    cases rest with
    | nil =>
      obtain ⟨e, he⟩ := NewArbitraryInt_rejects s (Or.inr (Or.inl (by rw [ht]; rfl)))
      exact absurd he (hrej e)
    | cons c rest =>
      cases hm : matchSignedRun isBinaryDigit (c :: rest) with
      | false => exact absurd (NewArbitraryInt_bin_invalid s c rest ht hm) (hrej _)
      | true =>
        have e := NewArbitraryInt_bin_valid s c rest ht hm
        rw [hacc] at e
        cases hs : setString (normalizeRun (c :: rest)) 2 with
        | none => rw [hs] at e; cases e
        | some val =>
          rw [hs] at e
          rw [ok_injective _ _ e]
          exact packDigits_wellFormed _ (isNumeral_toDigits val)
  · have hx' : ¬(2 < (trimSpace s).length ∧ (trimSpace s).take 2 = ['0', 'x']) := by
      rintro ⟨-, htk⟩; exact hx (take_two_eq _ _ _ htk)
    have hb' : ¬(2 < (trimSpace s).length ∧ (trimSpace s).take 2 = ['0', 'b']) := by
      rintro ⟨-, htk⟩; exact hb (take_two_eq _ _ _ htk)
    cases hm : matchSignedRun isDecimalDigit (trimSpace s) with
    | false => exact absurd (NewArbitraryInt_dec_invalid s h0 hx' hb' hm) (hrej _)
    | true =>
      have e := NewArbitraryInt_dec_valid s h0 hx' hb' hm
      rw [hacc] at e
      rw [ok_injective _ _ e]
      exact packDigits_wellFormed _
        (isNumeral_normalizeRun _ ((matchSignedRun_iff _ _).mp hm).2)

/-! ## `Pow` over the heap -/

theorem multiply_heap_spec (h : Heap) (a b : Nat) :
    (h.Multiply a b).2 = h.next ∧ (h.Multiply a b).1.next = h.next + 1 ∧
      (h.Multiply a b).1.read h.next = Multiply (h.read a) (h.read b) ∧
      ∀ p, p < h.next → (h.Multiply a b).1.read p = h.read p := by
  refine ⟨rfl, rfl, by simp [Heap.Multiply], ?_⟩
  intro p hp
  have : p ≠ h.next := by omega
  simp [Heap.Multiply, this]

theorem powLoop_heap_spec (fuel : Nat) : ∀ (expInt : Nat) (h : Heap) (result base : Nat),
    result < h.next → base < h.next →
    (Heap.powLoop fuel expInt h result base).1.read (Heap.powLoop fuel expInt h result base).2 =
        powLoop fuel expInt (h.read result) (h.read base) ∧
      (Heap.powLoop fuel expInt h result base).2 <
        (Heap.powLoop fuel expInt h result base).1.next ∧
      h.next ≤ (Heap.powLoop fuel expInt h result base).1.next ∧
      ((Heap.powLoop fuel expInt h result base).2 = result ∨
        h.next ≤ (Heap.powLoop fuel expInt h result base).2) ∧
      ∀ p, p < h.next → (Heap.powLoop fuel expInt h result base).1.read p = h.read p := by
  induction fuel with
  | zero =>
    intro expInt h result base hr _
    exact ⟨rfl, hr, le_refl _, Or.inl rfl, fun _ _ => rfl⟩
  | succ fuel ih =>
    intro expInt h result base hr hb
    unfold Heap.powLoop powLoop
    by_cases h0 : expInt > 0
    · simp only [if_pos h0]
      -- the object `result` points to after the conditional product
      have hr1 : ∀ r : Heap × Nat,
          r = (if expInt % 2 = 1 then h.Multiply result base else (h, result)) →
          r.2 < r.1.next ∧ h.next ≤ r.1.next ∧ (r.2 = result ∨ r.2 = h.next) ∧
            r.1.read r.2 =
              (if expInt % 2 = 1 then Multiply (h.read result) (h.read base)
                else h.read result) ∧
            ∀ p, p < h.next → r.1.read p = h.read p := by
        intro r hr'
        obtain ⟨m1, m2, m3, m4⟩ := multiply_heap_spec h result base
        split_ifs at hr' with h1
        · subst hr'
          rw [if_pos h1, m1, m2, m3]
          exact ⟨by omega, by omega, Or.inr rfl, rfl, m4⟩
        · subst hr'
          rw [if_neg h1]
          exact ⟨hr, le_refl _, Or.inl rfl, rfl, fun _ _ => rfl⟩
      obtain ⟨r1, r2, r5, r3, r4⟩ := hr1 _ rfl
      obtain ⟨⟨hR, pR⟩, xR⟩ : ∃ r, (if expInt % 2 = 1 then h.Multiply result base
          else (h, result)) = r := ⟨_, rfl⟩
      rw [xR] at r1 r2 r3 r4 r5 ⊢
      simp only at r1 r2 r3 r4 r5 ⊢
      obtain ⟨m1, m2, m3, m4⟩ := multiply_heap_spec hR base base
      obtain ⟨i1, i2, i3, i5, i4⟩ := ih (expInt / 2) (hR.Multiply base base).1 pR
        (hR.Multiply base base).2 (by rw [m2]; omega) (by rw [m1, m2]; omega)
      refine ⟨?_, i2, by omega, ?_, ?_⟩
      · rw [i1, m4 pR r1, m1, m3, r3, r4 base hb]
      · rw [m2] at i5
        rcases i5 with i5 | i5
        · rcases r5 with r5 | r5
          · left; rw [i5, r5]
          · right; rw [i5, r5]
        · right; omega
      · intro p hp
        rw [i4 p (by omega), m4 p (by omega), r4 p hp]
    · rw [if_neg h0, if_neg h0]
      exact ⟨rfl, hr, le_refl _, Or.inl rfl, fun _ _ => rfl⟩

theorem alloc_spec (h : Heap) (x : ArbitraryInt) :
    (h.alloc x).2 = h.next ∧ (h.alloc x).1.next = h.next + 1 ∧
      (h.alloc x).1.read h.next = x ∧ ∀ p, p < h.next → (h.alloc x).1.read p = h.read p := by
  refine ⟨rfl, rfl, by simp, ?_⟩
  intro p hp
  have : p ≠ h.next := by omega
  simp [this]

theorem copy_heap_spec (h : Heap) (a : Nat) (ha : a < h.next) :
    (h.Copy a).2 = h.next ∧ (h.Copy a).1.next = h.next + 1 ∧ (h.Copy a).2 ≠ a ∧
      (h.Copy a).1.read h.next = Copy (h.read a) ∧
      ∀ p, p < h.next → (h.Copy a).1.read p = h.read p := by
  obtain ⟨a1, a2, a3, a4⟩ :=
    alloc_spec h { digits := (h.read a).digits, negative := (h.read a).negative }
  refine ⟨a1, a2, ?_, a3, a4⟩
  show h.next ≠ a
  omega

/-- The heap-level `Pow` returns what the value-level `Pow` returns: the object at the pointer
returned is the value returned, an error is the same error, and no allocated object is
changed. -/
theorem pow_heap_refines (h : Heap) (a e : Nat) (ha : a < h.next) (he : e < h.next) :
    (∀ r, (h.Pow a e).2 = Result.ok r →
        Pow (h.read a) (h.read e) = Result.ok ((h.Pow a e).1.read r)) ∧
      (∀ x, (h.Pow a e).2 = Result.error x → Pow (h.read a) (h.read e) = Result.error x) ∧
      ∀ p, p < h.next → (h.Pow a e).1.read p = h.read p := by
  unfold Heap.Pow Pow
  by_cases hn : (h.read e).negative = true
  · rw [if_pos hn, if_pos hn]
    refine ⟨fun r hr => (by cases hr), fun x hx => ?_, fun _ _ => rfl⟩
    injection hx with hx
    rw [hx]
  · rw [if_neg hn, if_neg hn]
    simp only
    by_cases h0 : foldLimbs (h.read e).digits = 0
    · rw [if_pos h0, if_pos h0]
      obtain ⟨a1, a2, a3, a4⟩ := alloc_spec h { digits := [1], negative := false }
      simp only [Heap.NewArbitraryInt, NewArbitraryInt_one]
      refine ⟨fun r hr => ?_, fun x hx => (by cases hx), a4⟩
      injection hr with hr
      rw [← hr, a1, a3]
    · rw [if_neg h0, if_neg h0]
      by_cases h1 : foldLimbs (h.read e).digits = 1
      · rw [if_pos h1, if_pos h1]
        obtain ⟨c1, c2, c3, c4, c5⟩ := copy_heap_spec h a ha
        refine ⟨fun r hr => ?_, fun x hx => (by cases hx), c5⟩
        injection hr with hr
        rw [← hr, c1, c4]
      · rw [if_neg h1, if_neg h1]
        obtain ⟨a1, a2, a3, a4⟩ := alloc_spec h (newIgnoringError ['1'])
        obtain ⟨⟨hA, pA⟩, xA⟩ : ∃ d, h.alloc (newIgnoringError ['1']) = d := ⟨_, rfl⟩
        rw [xA] at a1 a2 a3 a4 ⊢
        simp only at a1 a2 a3 a4 ⊢
        obtain ⟨c1, c2, c3, c4, c5⟩ := copy_heap_spec hA a (by omega)
        obtain ⟨⟨hC, pC⟩, xC⟩ : ∃ d, hA.Copy a = d := ⟨_, rfl⟩
        rw [xC] at c1 c2 c3 c4 c5 ⊢
        simp only at c1 c2 c3 c4 c5 ⊢
        obtain ⟨i1, i2, i3, i5, i4⟩ := powLoop_heap_spec (foldLimbs (h.read e).digits + 1)
          (foldLimbs (h.read e).digits) hC pA pC (by omega) (by omega)
        obtain ⟨⟨hO, pO⟩, xO⟩ : ∃ d, Heap.powLoop (foldLimbs (h.read e).digits + 1)
          (foldLimbs (h.read e).digits) hC pA pC = d := ⟨_, rfl⟩
        rw [xO] at i1 i2 i3 i4 i5 ⊢
        simp only at i1 i2 i3 i4 i5 ⊢
        have ra : hO.read a = h.read a := by rw [i4 a (by omega), c5 a (by omega), a4 a ha]
        have re : hO.read e = h.read e := by rw [i4 e (by omega), c5 e (by omega), a4 e he]
        have rA : hC.read pA = newIgnoringError ['1'] := by
          rw [c5 pA (by omega), a1, a3]
        have rC : hC.read pC = Copy (h.read a) := by
          rw [c1, a2, ← a2, c4, a4 a ha]
        refine ⟨fun r hr => ?_, fun x hx => (by cases hx), fun p hp => ?_⟩
        · injection hr with hr
          rw [← hr]
          simp only [read_setNegative, if_true]
          rw [ra, re, i1, rA, rC]
        · simp only [read_setNegative]
          have hp' : hO.read p = h.read p := by
            rw [i4 p (by omega), c5 p (by omega), a4 p hp]
          have hq : p ≠ pO := by omega
          rw [if_neg hq]
          exact hp'

/-! ## The claims -/

/-- C1: `Divide` computes truncating division. For every valid `a` and every valid `b` whose
value is not zero, `a.Divide(b)` succeeds (for every bound of at least `10^9` iterations on a
run of the inner loop) with `(q, r)` such that `value a = value b * value q + value r`,
`|value r| < |value b|`, and `value r` is zero or has the sign of `value a`. -/
theorem Divide_truncating (fuel : Nat) (hf : 1000000000 ≤ fuel) (a b : ArbitraryInt)
    (va : Valid a) (vb : Valid b) (hb : value b ≠ 0) :
    ∃ q r, Divide fuel a b = some (Result.ok (q, r)) ∧
      value a = value b * value q + value r ∧ |value r| < |value b| ∧
      (value r = 0 ∨ (0 < value r ∧ 0 < value a) ∨ (value r < 0 ∧ value a < 0)) := by
  have hpos : 0 < magnitude b.digits := by
    rcases Nat.eq_zero_or_pos (magnitude b.digits) with h | h
    · exfalso; apply hb; simp [value, h]
    · exact h
  obtain ⟨q, r, e, hq, hr, hqn, hrn, -, -⟩ :=
    Divide_spec fuel hf a b va.wellFormed vb.wellFormed hpos
  refine ⟨q, r, e, ?_⟩
  have hA := Nat.div_add_mod (magnitude a.digits) (magnitude b.digits)
  have hR := Nat.mod_lt (magnitude a.digits) hpos
  rw [← hq, ← hr] at hA
  rw [← hr] at hR
  have hA' : (magnitude b.digits : Int) * magnitude q.digits + magnitude r.digits
      = magnitude a.digits := by exact_mod_cast hA
  have hR' : (magnitude r.digits : Int) < magnitude b.digits := by exact_mod_cast hR
  have hRA : (magnitude r.digits : Int) ≤ magnitude a.digits := by
    have : magnitude r.digits ≤ magnitude a.digits := by
      rw [hr]; exact Nat.mod_le _ _
    exact_mod_cast this
  have h0r : (0 : Int) ≤ magnitude r.digits := Int.natCast_nonneg _
  have h0b : (0 : Int) ≤ magnitude b.digits := Int.natCast_nonneg _
  simp only [value, hqn, hrn]
  rcases Bool.eq_false_or_eq_true a.negative with x | x <;>
    rcases Bool.eq_false_or_eq_true b.negative with y | y <;>
    simp only [x, y, Bool.true_bne, Bool.false_bne, Bool.not_true, Bool.not_false, if_true,
      if_false, Bool.false_eq_true, abs_neg] <;>
    rw [abs_of_nonneg h0r, abs_of_nonneg h0b] <;>
    refine ⟨by first | linear_combination -hA' | linear_combination hA', hR', ?_⟩ <;>
    omega

theorem Divide_truncating_witness :
    1000000000 ≤ 1000000000 ∧ Valid { digits := [456], negative := true } ∧
    Valid { digits := [123], negative := false } ∧
    value { digits := [123], negative := false } ≠ 0 ∧
    ∃ q r, Divide 1000000000 { digits := [456], negative := true }
          { digits := [123], negative := false } = some (Result.ok (q, r)) ∧
      value { digits := [456], negative := true } =
        value { digits := [123], negative := false } * value q + value r ∧
      |value r| < |value { digits := [123], negative := false }| ∧
      (value r = 0 ∨ (0 < value r ∧ 0 < value { digits := [456], negative := true }) ∨
        (value r < 0 ∧ value { digits := [456], negative := true } < 0)) :=
  ⟨by decide, by decide, by decide, by decide,
    Divide_truncating 1000000000 (by decide) { digits := [456], negative := true }
      { digits := [123], negative := false } (by decide) (by decide) (by decide)⟩

/-- C2 (the code at the failing input): the ten-digit literal `1234567890` is cut into the
chunks `123456789` and `0` from the left, so `NewArbitraryInt` returns the limbs
`[0, 123456789]`, which denote `123456789000000000`. -/
theorem NewArbitraryInt_misaligned :
    NewArbitraryInt "1234567890".toList = Result.ok { digits := [0, 123456789], negative := false } ∧
      value { digits := [0, 123456789], negative := false } = 123456789000000000 ∧
      value { digits := [0, 123456789], negative := false } ≠ 1234567890 := by
  decide

/-- C3 (the code at the failing input): the valid value `1234567890` (limbs `[234567890, 1]`)
is printed as `1234567890`, and parsing that text returns the limbs `[0, 123456789]`. -/
theorem NewArbitraryInt_String_differs :
    Valid { digits := [234567890, 1], negative := false } ∧
      ArbitraryInt.String { digits := [234567890, 1], negative := false } = "1234567890".toList ∧
      NewArbitraryInt (ArbitraryInt.String { digits := [234567890, 1], negative := false })
        = Result.ok { digits := [0, 123456789], negative := false } := by
  decide

/-- C4: `String` is the canonical decimal rendering. For every valid `v`, `String v` is the
decimal numeral of the magnitude (Lean's `Nat.toDigits 10`), prefixed with `'-'` exactly when
the sign flag is set; the numeral has no leading zero (it is `0` or starts with another
digit); every limb printed with `%09d` takes exactly 9 characters; and reading `String v` as
a decimal integer gives `value v`. -/
theorem String_canonical (v : ArbitraryInt) (hv : Valid v) :
    v.String = (if v.negative then ['-'] else []) ++ Nat.toDigits 10 (magnitude v.digits) ∧
      (v.String = ['0'] ∨
        ∃ c t, Nat.toDigits 10 (magnitude v.digits) = c :: t ∧ c ≠ '0' ∧ c ≠ '-') ∧
      (∀ d ∈ v.digits, (format09D d).length = 9) ∧
      readDecimalInt v.String = value v := by
  have e := String_eq v hv
  refine ⟨e, ?_, ?_, ?_⟩
  · obtain ⟨c, t, hc, hm, hz⟩ := toDigits_head (magnitude v.digits)
    by_cases h0 : c = '0'
    · left
      have hmag := hz h0
      have hlen : ¬1 < v.digits.length := by
        intro h1
        have := magnitude_ge_of_last_ne_zero v.digits hv.1 (hv.2.2.1 h1)
        have : 0 < 1000000000 ^ (v.digits.length - 1) := pow_pos (by decide) _
        omega
      have h1 : v.digits.length = 1 := by
        have := List.length_pos.mpr hv.1; omega
      obtain ⟨d, hd⟩ := List.length_eq_one.mp h1
      have hd0 : d = 0 := by rw [hd] at hmag; simpa using hmag
      subst hd0
      rw [e, hv.2.2.2 hd, hmag]; rfl
    · right; exact ⟨c, t, hc, h0, hm⟩
  · intro d hd
    have hlt : d < 10 ^ 9 := by have := hv.2.1 d hd; simpa [digitBase] using this
    have := Nat.toDigitsCore_length 10 (by decide) (d + 1) d 9 hlt (by decide)
    have hlen : (Nat.toDigits 10 d).length ≤ 9 := this
    simp only [format09D, List.length_append, List.length_replicate]
    omega
  · rw [e]
    cases hneg : v.negative
    · simp [value, hneg, readDecimalInt_toDigits]
    · simp [value, hneg, readDecimalInt_neg_toDigits]

theorem String_canonical_witness :
    Valid { digits := [5, 0, 7], negative := true } ∧
    (ArbitraryInt.String { digits := [5, 0, 7], negative := true } =
        (if (true : Bool) then ['-'] else []) ++ Nat.toDigits 10 (magnitude [5, 0, 7]) ∧
      (ArbitraryInt.String { digits := [5, 0, 7], negative := true } = ['0'] ∨
        ∃ c t, Nat.toDigits 10 (magnitude [5, 0, 7]) = c :: t ∧ c ≠ '0' ∧ c ≠ '-') ∧
      (∀ d ∈ [5, 0, 7], (format09D d).length = 9) ∧
      readDecimalInt (ArbitraryInt.String { digits := [5, 0, 7], negative := true }) =
        value { digits := [5, 0, 7], negative := true }) :=
  ⟨by decide, String_canonical { digits := [5, 0, 7], negative := true } (by decide)⟩

/-- C5 (the code at the failing input): both operands are `10^288` (33 limbs each), so
`Multiply` reaches the Karatsuba recombination; it returns `10^288`, whereas `longMultiply`
returns `10^576`, the product. -/
theorem Multiply_karatsuba_wrong :
    Valid tenPow288 ∧ 32 < tenPow288.digits.length ∧
      Multiply tenPow288 tenPow288 = { digits := List.replicate 32 0 ++ [1], negative := false } ∧
      longMultiply tenPow288 tenPow288 (tenPow288.negative != tenPow288.negative)
        = { digits := List.replicate 64 0 ++ [1], negative := false } ∧
      value (Multiply tenPow288 tenPow288) ≠ value tenPow288 * value tenPow288 := by
  rw [Multiply_eq_MultiplyE 1 tenPow288 tenPow288 (by decide)]
  decide!

/-- C6: schoolbook multiplication is exact. For all valid `a` and `b` of which at least one
has at most 32 limbs, `Multiply a b` takes the schoolbook path `longMultiply`, its value is
`value a * value b`, its sign flag is the XOR of the operand sign flags, and its digits are
non-empty, below `10^9` and trimmed of most significant zero limbs. -/
theorem Multiply_schoolbook_exact (a b : ArbitraryInt) (va : Valid a) (vb : Valid b)
    (hs : a.digits.length ≤ 32 ∨ b.digits.length ≤ 32) :
    Multiply a b = longMultiply a b (a.negative != b.negative) ∧
      value (Multiply a b) = value a * value b ∧
      (Multiply a b).negative = xor a.negative b.negative ∧
      WellFormed (Multiply a b).digits := by
  have e := Multiply_small a b va.1 vb.1 hs
  obtain ⟨-, h2, h3⟩ := longMultiply_spec a b (a.negative != b.negative) va.2.1 vb.2.1
  refine ⟨e, ?_, ?_, ?_⟩
  · rw [e]; exact value_longMultiply a b va.2.1 vb.2.1
  · rw [e, h2]
  · rw [e]; exact h3

theorem Multiply_schoolbook_exact_witness :
    Valid ⟨[999999999, 999999999], true⟩ ∧ Valid ⟨[999999999], false⟩ ∧
    ((2 : Nat) ≤ 32 ∨ (1 : Nat) ≤ 32) ∧
    (Multiply ⟨[999999999, 999999999], true⟩ ⟨[999999999], false⟩ =
        longMultiply ⟨[999999999, 999999999], true⟩ ⟨[999999999], false⟩ (true != false) ∧
      value (Multiply ⟨[999999999, 999999999], true⟩ ⟨[999999999], false⟩) =
        value ⟨[999999999, 999999999], true⟩ * value ⟨[999999999], false⟩ ∧
      (Multiply ⟨[999999999, 999999999], true⟩ ⟨[999999999], false⟩).negative = xor true false ∧
      WellFormed (Multiply ⟨[999999999, 999999999], true⟩ ⟨[999999999], false⟩).digits) :=
  ⟨by decide, by decide, by decide,
    Multiply_schoolbook_exact ⟨[999999999, 999999999], true⟩ ⟨[999999999], false⟩
      (by decide) (by decide) (by decide)⟩

/-- C7: `Add` is exact. For all valid operands `a` and `b` (any signs, aliased or not), the
value of the object returned by `a.Add(b)` is `value a + value b`. -/
theorem Add_exact (h : Heap) (a b : Nat) (va : Valid (h.read a)) (vb : Valid (h.read b)) :
    value ((Add h a b).1.read (Add h a b).2) = value (h.read a) + value (h.read b) := by
  have wa := va.wellFormed
  have wb := vb.wellFormed
  rw [Add_result]
  split_ifs with h1 h2
  · obtain ⟨x, y⟩ := h1
    rw [value_subtractMagnitudes (h.read b) ⟨(h.read a).digits, false⟩ wb wa y]
    simp [value, x, y]; ring
  · obtain ⟨x, y⟩ := h2
    rw [value_subtractMagnitudes (h.read a) ⟨(h.read b).digits, false⟩ wa wb x]
    simp [value, x, y]; ring
  · have hs : (h.read a).negative = (h.read b).negative := by
      rcases Bool.eq_false_or_eq_true (h.read a).negative with x | x <;>
        rcases Bool.eq_false_or_eq_true (h.read b).negative with y | y <;>
        simp [x, y] at h1 h2 ⊢
    exact value_addMagnitudes _ _ wa wb hs

theorem Add_exact_witness :
    Valid ((Heap.ofList [⟨[999999999, 5], true⟩, ⟨[7], false⟩]).read 0) ∧
    Valid ((Heap.ofList [⟨[999999999, 5], true⟩, ⟨[7], false⟩]).read 1) ∧
    value ((Add (Heap.ofList [⟨[999999999, 5], true⟩, ⟨[7], false⟩]) 0 1).1.read
        (Add (Heap.ofList [⟨[999999999, 5], true⟩, ⟨[7], false⟩]) 0 1).2) =
      value ((Heap.ofList [⟨[999999999, 5], true⟩, ⟨[7], false⟩]).read 0) +
        value ((Heap.ofList [⟨[999999999, 5], true⟩, ⟨[7], false⟩]).read 1) :=
  ⟨by decide, by decide, Add_exact _ 0 1 (by decide) (by decide)⟩

/-- C8: `Subtract` is exact. For all valid operands `a` and `b` (any signs, either ordering
of the magnitudes, aliased or not), the value of the object returned by `a.Subtract(b)` is
`value a - value b`. -/
theorem Subtract_exact (h : Heap) (a b : Nat) (hb : b < h.next) (va : Valid (h.read a))
    (vb : Valid (h.read b)) :
    value ((Subtract h a b).1.read (Subtract h a b).2) = value (h.read a) - value (h.read b) := by
  have wa := va.wellFormed
  have wb := vb.wellFormed
  rw [Subtract_result h a b hb]
  split_ifs with hs
  · exact value_subtractMagnitudes _ _ wa wb hs
  · rw [value_addMagnitudes (h.read a) ⟨(h.read b).digits, !(h.read b).negative⟩ wa wb]
    · simp only [value]
      cases (h.read b).negative <;> simp <;> ring
    · show (h.read a).negative = !(h.read b).negative
      rcases Bool.eq_false_or_eq_true (h.read a).negative with x | x <;>
        rcases Bool.eq_false_or_eq_true (h.read b).negative with y | y <;>
        simp [x, y] at hs ⊢

theorem Subtract_exact_witness :
    1 < (Heap.ofList [⟨[5], false⟩, ⟨[7, 3], true⟩]).next ∧
    Valid ((Heap.ofList [⟨[5], false⟩, ⟨[7, 3], true⟩]).read 0) ∧
    Valid ((Heap.ofList [⟨[5], false⟩, ⟨[7, 3], true⟩]).read 1) ∧
    value ((Subtract (Heap.ofList [⟨[5], false⟩, ⟨[7, 3], true⟩]) 0 1).1.read
        (Subtract (Heap.ofList [⟨[5], false⟩, ⟨[7, 3], true⟩]) 0 1).2) =
      value ((Heap.ofList [⟨[5], false⟩, ⟨[7, 3], true⟩]).read 0) -
        value ((Heap.ofList [⟨[5], false⟩, ⟨[7, 3], true⟩]).read 1) :=
  ⟨by decide, by decide, by decide, Subtract_exact _ 0 1 (by decide) (by decide) (by decide)⟩

/-- C9 (the code at the failing input): `a.Add(b)` with `a = -123` and `b = 456` returns
`333`, and afterwards the object `a` has sign flag `false`: the operand has become `123`. -/
theorem Add_clears_sign_of_operand :
    (Heap.ofList [⟨[123], true⟩, ⟨[456], false⟩]).read 0 = ⟨[123], true⟩ ∧
    (Add (Heap.ofList [⟨[123], true⟩, ⟨[456], false⟩]) 0 1).1.read 0 = ⟨[123], false⟩ ∧
    (Add (Heap.ofList [⟨[123], true⟩, ⟨[456], false⟩]) 0 1).1.read
      (Add (Heap.ofList [⟨[123], true⟩, ⟨[456], false⟩]) 0 1).2 = ⟨[333], false⟩ := by
  rw [Add_neg_pos _ 0 1 (by decide) (by decide)]
  refine ⟨by decide, by decide, by decide⟩

/-- C10: `Subtract` leaves its operands unchanged. For all allocated operands `a` and `b`,
also when `a` and `b` are the same object, after `a.Subtract(b)` the objects `a` and `b` have
the digits and the sign flag they had before the call. -/
theorem Subtract_preserves_operands (h : Heap) (a b : Nat) (ha : a < h.next) (hb : b < h.next) :
    (Subtract h a b).1.read a = h.read a ∧ (Subtract h a b).1.read b = h.read b :=
  ⟨Subtract_frame h a b a hb ha, Subtract_frame h a b b hb hb⟩

theorem Subtract_preserves_operands_witness :
    ((Subtract (Heap.ofList [⟨[5], false⟩, ⟨[7, 3], true⟩]) 0 1).1.read 0 =
        (Heap.ofList [⟨[5], false⟩, ⟨[7, 3], true⟩]).read 0 ∧
      (Subtract (Heap.ofList [⟨[5], false⟩, ⟨[7, 3], true⟩]) 0 1).1.read 1 =
        (Heap.ofList [⟨[5], false⟩, ⟨[7, 3], true⟩]).read 1) ∧
    ((Subtract (Heap.ofList [⟨[5], true⟩]) 0 0).1.read 0 = (Heap.ofList [⟨[5], true⟩]).read 0 ∧
      (Subtract (Heap.ofList [⟨[5], true⟩]) 0 0).1.read 0 = (Heap.ofList [⟨[5], true⟩]).read 0) :=
  ⟨Subtract_preserves_operands _ 0 1 (by decide) (by decide),
    Subtract_preserves_operands _ 0 0 (by decide) (by decide)⟩

/-- C11 (the code at the failing input): with `a = 5` and `b = -3`, `a.Add(b)` returns `2`
and leaves `b` as `3`; `s.Subtract(b)` on that object then returns `-1`, whereas `a` was
printed as `5`. -/
theorem Add_then_Subtract_differs :
    ArbitraryInt.String ((Heap.ofList [⟨[5], false⟩, ⟨[3], true⟩]).read 0) = "5".toList ∧
      (Add (Heap.ofList [⟨[5], false⟩, ⟨[3], true⟩]) 0 1).1.read 1 = ⟨[3], false⟩ ∧
      ArbitraryInt.String
        ((Subtract (Add (Heap.ofList [⟨[5], false⟩, ⟨[3], true⟩]) 0 1).1
            (Add (Heap.ofList [⟨[5], false⟩, ⟨[3], true⟩]) 0 1).2 1).1.read
          (Subtract (Add (Heap.ofList [⟨[5], false⟩, ⟨[3], true⟩]) 0 1).1
            (Add (Heap.ofList [⟨[5], false⟩, ⟨[3], true⟩]) 0 1).2 1).2) = "-1".toList := by
  rw [Subtract_eq_SubtractE, Add_eq_AddE]
  decide

/-- C12 (the code at the failing input): `7.Divide(3)` returns the remainder `1`, and
`7.Modulo(3)` returns the object with no digits, printed as `0`, of value `0`. -/
theorem Modulo_is_placeholder :
    Divide 1000000000 ⟨[7], false⟩ ⟨[3], false⟩ = some (Result.ok (⟨[2], false⟩, ⟨[1], false⟩)) ∧
      Modulo ⟨[7], false⟩ ⟨[3], false⟩ = Result.ok ⟨[], false⟩ ∧
      ArbitraryInt.String ⟨[], false⟩ = "0".toList ∧ value ⟨[], false⟩ ≠ value ⟨[1], false⟩ := by
  decide

/-- C13: division by zero is rejected, and only that. For valid `a` and `b`, `Divide` returns
an error exactly when `b` is zero, and so does `Modulo`; the error is the division-by-zero
(modulo-by-zero) error and carries no quotient or remainder; when `b` is not zero both return a
result. -/
theorem Divide_Modulo_error_iff_zero (fuel : Nat) (hf : 1000000000 ≤ fuel) (a b : ArbitraryInt)
    (va : Valid a) (vb : Valid b) :
    ((∃ e, Divide fuel a b = some (Result.error e)) ↔ value b = 0) ∧
      ((∃ e, Modulo a b = Result.error e) ↔ value b = 0) ∧
      (value b = 0 → Divide fuel a b = some (Result.error Error.divisionByZero) ∧
        Modulo a b = Result.error Error.moduloByZero) ∧
      (value b ≠ 0 → (∃ q r, Divide fuel a b = some (Result.ok (q, r))) ∧
        ∃ r, Modulo a b = Result.ok r) := by
  have hz := isZero_iff_value b vb
  have hzero : value b = 0 → Divide fuel a b = some (Result.error Error.divisionByZero) ∧
      Modulo a b = Result.error Error.moduloByZero := by
    intro h0
    have := hz.mpr h0
    simp [Divide, Modulo, this]
  have hnz : value b ≠ 0 → (∃ q r, Divide fuel a b = some (Result.ok (q, r))) ∧
      ∃ r, Modulo a b = Result.ok r := by
    intro h0
    have hpos : 0 < magnitude b.digits :=
      Nat.pos_of_ne_zero (fun h => h0 ((value_eq_zero_iff b).mpr h))
    obtain ⟨q, r, e, -⟩ := Divide_spec fuel hf a b va.wellFormed vb.wellFormed hpos
    refine ⟨⟨q, r, e⟩, ⟨{ digits := [], negative := false }, ?_⟩⟩
    simp [Modulo, isZero_eq_false b hpos]
  refine ⟨⟨?_, fun h0 => ⟨_, (hzero h0).1⟩⟩, ⟨?_, fun h0 => ⟨_, (hzero h0).2⟩⟩, hzero, hnz⟩
  · rintro ⟨e, he⟩
    by_contra h0
    obtain ⟨⟨q, r, hq⟩, -⟩ := hnz h0
    rw [hq] at he; cases he
  · rintro ⟨e, he⟩
    by_contra h0
    obtain ⟨-, ⟨r, hr⟩⟩ := hnz h0
    rw [hr] at he; cases he

theorem Divide_Modulo_error_iff_zero_witness :
    1000000000 ≤ 1000000000 ∧ Valid ⟨[7], true⟩ ∧ Valid ⟨[0], false⟩ ∧
    (((∃ e, Divide 1000000000 ⟨[7], true⟩ ⟨[0], false⟩ = some (Result.error e)) ↔
        value ⟨[0], false⟩ = 0) ∧
      ((∃ e, Modulo ⟨[7], true⟩ ⟨[0], false⟩ = Result.error e) ↔ value ⟨[0], false⟩ = 0) ∧
      (value ⟨[0], false⟩ = 0 →
        Divide 1000000000 ⟨[7], true⟩ ⟨[0], false⟩ = some (Result.error Error.divisionByZero) ∧
        Modulo ⟨[7], true⟩ ⟨[0], false⟩ = Result.error Error.moduloByZero) ∧
      (value ⟨[0], false⟩ ≠ 0 →
        (∃ q r, Divide 1000000000 ⟨[7], true⟩ ⟨[0], false⟩ = some (Result.ok (q, r))) ∧
        ∃ r, Modulo ⟨[7], true⟩ ⟨[0], false⟩ = Result.ok r)) :=
  ⟨by decide, by decide, by decide,
    Divide_Modulo_error_iff_zero 1000000000 (by decide) ⟨[7], true⟩ ⟨[0], false⟩ (by decide)
      (by decide)⟩

/-- C14 (the code at the failing input): `Pow` of the base `10^288` (33 limbs) to the exponent
`2` squares the base through the Karatsuba recombination and returns `10^288`, not
`10^576`. -/
theorem Pow_karatsuba_wrong :
    Valid tenPow288 ∧ Valid { digits := [2], negative := false } ∧
      Pow tenPow288 { digits := [2], negative := false } =
        Result.ok { digits := List.replicate 32 0 ++ [1], negative := false } ∧
      value { digits := List.replicate 32 0 ++ [1], negative := false } ≠
        value tenPow288 ^ (value { digits := [2], negative := false }).toNat := by
  rw [Pow_two, Multiply_eq_MultiplyE 0 (newIgnoringError ['1']) _ (by decide),
    Multiply_eq_MultiplyE 1 (Copy tenPow288) (Copy tenPow288) (by decide)]
  decide!

/-- C15 (the code at the failing input): the valid exponent and argument `10^9` has the two
limbs `[0, 1]`, which the loop `n = n*10 + digit` folds to `1`; `Pow(2, 10^9)` returns no
error but `2`, as `Pow(2, 1)` does, and `Factorial(10^9)` returns no error but `1`, as
`Factorial(1)` does. -/
theorem Pow_Factorial_accept_two_limbs :
    Valid { digits := [0, 1], negative := false } ∧
      1 < ({ digits := [0, 1], negative := false } : ArbitraryInt).digits.length ∧
      value { digits := [0, 1], negative := false } = 1000000000 ∧
      foldLimbs [0, 1] = 1 ∧
      Pow { digits := [2], negative := false } { digits := [0, 1], negative := false } =
        Result.ok { digits := [2], negative := false } ∧
      Pow { digits := [2], negative := false } { digits := [1], negative := false } =
        Result.ok { digits := [2], negative := false } ∧
      (∀ fuel, Factorial fuel { digits := [0, 1], negative := false } =
        some (Result.ok { digits := [1], negative := false })) ∧
      (∀ fuel, Factorial fuel { digits := [1], negative := false } =
        some (Result.ok { digits := [1], negative := false })) := by
  refine ⟨by decide, by decide, by decide, by decide, by decide, by decide, ?_, ?_⟩
  · intro fuel
    simp [Factorial, foldLimbs, add32, two32, NewArbitraryInt_one]
  · intro fuel
    simp [Factorial, foldLimbs, add32, two32, NewArbitraryInt_one]

/-- C16: `Factorial` is exact. For every valid `n` that is not negative and has a single limb,
`Factorial(n)` succeeds (once the bound on the loop exceeds `n`) and the value of the result
is `n!`; in particular `0! = 1! = 1`. -/
theorem Factorial_exact (fuel : Nat) (n : ArbitraryInt) (vn : Valid n) (hn : n.negative = false)
    (h1 : n.digits.length = 1) (hf : value n < fuel) :
    ∃ r, Factorial fuel n = some (Result.ok r) ∧
      value r = ((value n).toNat.factorial : Int) := by
  have hv : value n = magnitude n.digits := by simp [value, hn]
  have hf' : magnitude n.digits < fuel := by rw [hv] at hf; exact_mod_cast hf
  obtain ⟨r, hr, hx⟩ := Factorial_spec fuel n vn hn hf'
  obtain ⟨-, x2, x3⟩ := hx h1
  refine ⟨r, hr, ?_⟩
  simp [value, x2, x3, hn]

theorem Factorial_exact_witness :
    Valid { digits := [5], negative := false } ∧
    ({ digits := [5], negative := false } : ArbitraryInt).negative = false ∧
    ({ digits := [5], negative := false } : ArbitraryInt).digits.length = 1 ∧
    value { digits := [5], negative := false } < (6 : Nat) ∧
    ∃ r, Factorial 6 { digits := [5], negative := false } = some (Result.ok r) ∧
      value r = ((value { digits := [5], negative := false }).toNat.factorial : Int) :=
  ⟨by decide, by decide, by decide, by decide,
    Factorial_exact 6 { digits := [5], negative := false } (by decide) (by decide) (by decide)
      (by decide)⟩

/-- C17: `Compare` is the signed integer order. For all valid `a` and `b`, `Compare a b` is
`-1` when `value a < value b`, `0` when `value a = value b` and `1` when
`value a > value b`, and never any other result. -/
theorem Compare_signed_order (a b : ArbitraryInt) (va : Valid a) (vb : Valid b) :
    (value a < value b → Compare a b = -1) ∧ (value a = value b → Compare a b = 0) ∧
      (value b < value a → Compare a b = 1) ∧
      (Compare a b = -1 ∨ Compare a b = 0 ∨ Compare a b = 1) := by
  have h := Compare_spec a b va vb
  refine ⟨fun h1 => by rw [h, if_pos h1], fun h1 => ?_, fun h1 => ?_, ?_⟩
  · rw [h, if_neg (by omega), if_pos h1]
  · rw [h, if_neg (by omega), if_neg (by omega)]
  · rw [h]
    split_ifs
    · exact Or.inl rfl
    · exact Or.inr (Or.inl rfl)
    · exact Or.inr (Or.inr rfl)

theorem Compare_signed_order_witness :
    Valid { digits := [5, 7], negative := true } ∧ Valid { digits := [3], negative := true } ∧
    ((value { digits := [5, 7], negative := true } < value { digits := [3], negative := true } →
        Compare { digits := [5, 7], negative := true } { digits := [3], negative := true } = -1) ∧
      (value { digits := [5, 7], negative := true } = value { digits := [3], negative := true } →
        Compare { digits := [5, 7], negative := true } { digits := [3], negative := true } = 0) ∧
      (value { digits := [3], negative := true } < value { digits := [5, 7], negative := true } →
        Compare { digits := [5, 7], negative := true } { digits := [3], negative := true } = 1) ∧
      (Compare { digits := [5, 7], negative := true } { digits := [3], negative := true } = -1 ∨
        Compare { digits := [5, 7], negative := true } { digits := [3], negative := true } = 0 ∨
        Compare { digits := [5, 7], negative := true } { digits := [3], negative := true } = 1)) :=
  ⟨by decide, by decide,
    Compare_signed_order { digits := [5, 7], negative := true } { digits := [3], negative := true }
      (by decide) (by decide)⟩

/-- C18: `NewArbitraryInt` rejects malformed literals. Whenever the input is empty after
trimming, or its digit run (what remains after an optional `0x`/`0b` prefix and an optional
`'-'`) is empty, or the digit run holds a character outside the alphabet of the selected
base, `NewArbitraryInt` returns an error. -/
theorem NewArbitraryInt_rejects_malformed (s : List Char)
    (h : trimSpace s = [] ∨ digitRun (trimSpace s) = [] ∨
      ∃ c ∈ digitRun (trimSpace s), inAlphabet (literalBase (trimSpace s)).1 c = false) :
    ∃ e, NewArbitraryInt s = Result.error e :=
  NewArbitraryInt_rejects s h

/-- C18 at the literals `0x`, `0b` and `-` (empty digit runs), at the blank literal, and at
`12a` (a character outside the decimal alphabet). -/
theorem NewArbitraryInt_rejects_malformed_witness :
    (digitRun (trimSpace "0x".toList) = [] ∧ ∃ e, NewArbitraryInt "0x".toList = Result.error e) ∧
    (digitRun (trimSpace "0b".toList) = [] ∧ ∃ e, NewArbitraryInt "0b".toList = Result.error e) ∧
    (digitRun (trimSpace "-".toList) = [] ∧ ∃ e, NewArbitraryInt "-".toList = Result.error e) ∧
    (trimSpace "  ".toList = [] ∧ ∃ e, NewArbitraryInt "  ".toList = Result.error e) ∧
    ((∃ c ∈ digitRun (trimSpace "12a".toList),
        inAlphabet (literalBase (trimSpace "12a".toList)).1 c = false) ∧
      ∃ e, NewArbitraryInt "12a".toList = Result.error e) :=
  ⟨⟨by decide, NewArbitraryInt_rejects_malformed _ (Or.inr (Or.inl (by decide)))⟩,
   ⟨by decide, NewArbitraryInt_rejects_malformed _ (Or.inr (Or.inl (by decide)))⟩,
   ⟨by decide, NewArbitraryInt_rejects_malformed _ (Or.inr (Or.inl (by decide)))⟩,
   ⟨by decide, NewArbitraryInt_rejects_malformed _ (Or.inl (by decide))⟩,
   ⟨⟨'a', by decide, by decide⟩,
    NewArbitraryInt_rejects_malformed _ (Or.inr (Or.inr ⟨'a', by decide, by decide⟩))⟩⟩

/-- C19 (the code at the failing input): the literal `0XFF` is rejected as an invalid decimal
number and `0B101` likewise, while `0xFF` parses to `255` and `0b101` to `5`. -/
theorem NewArbitraryInt_upper_prefix_rejected :
    NewArbitraryInt "0XFF".toList = Result.error (Error.invalidFormat 10) ∧
      NewArbitraryInt "0xFF".toList = Result.ok { digits := [255], negative := false } ∧
      NewArbitraryInt "0B101".toList = Result.error (Error.invalidFormat 10) ∧
      NewArbitraryInt "0b101".toList = Result.ok { digits := [5], negative := false } := by
  decide

/-- C19 (amended): the base prefixes are case-sensitive. For every non-empty run `d` of
hexadecimal digits, `NewArbitraryInt ("0x" ++ d)` succeeds with a non-negative result holding
the decimal limbs of the number `d` denotes in base 16, and `NewArbitraryInt ("0X" ++ d)` fails
with the invalid-format error of base 10; for every non-empty run `d` of binary digits the
same holds of `"0b" ++ d` (base 2) and `"0B" ++ d`. -/
theorem NewArbitraryInt_prefix_case_sensitive (d : List Char) (hd : d ≠ []) :
    ((∀ c ∈ d, isHexDigit c = true) →
      (∃ n, setString (normalizeRun d) 16 = some n ∧
        NewArbitraryInt ('0' :: 'x' :: d) =
          Result.ok { digits := packDigits (Nat.toDigits 10 n), negative := false }) ∧
      NewArbitraryInt ('0' :: 'X' :: d) = Result.error (Error.invalidFormat 10)) ∧
    ((∀ c ∈ d, isBinaryDigit c = true) →
      (∃ n, setString (normalizeRun d) 2 = some n ∧
        NewArbitraryInt ('0' :: 'b' :: d) =
          Result.ok { digits := packDigits (Nat.toDigits 10 n), negative := false }) ∧
      NewArbitraryInt ('0' :: 'B' :: d) = Result.error (Error.invalidFormat 10)) := by
  refine ⟨fun hall => ⟨?_, ?_⟩, fun hall => ⟨?_, ?_⟩⟩
  · exact NewArbitraryInt_hex_ok _ d
      (trimSpace_prefixed '0' 'x' d (by decide) (by decide) hall) hd hall
  · exact NewArbitraryInt_upper _ 'X' d
      (trimSpace_prefixed '0' 'X' d (by decide) (by decide) hall) (by decide) (by decide)
      (by decide)
  · exact NewArbitraryInt_bin_ok _ d
      (trimSpace_prefixed '0' 'b' d (by decide) (by decide)
        (fun c hc => isHexDigit_of_isBinaryDigit c (hall c hc))) hd hall
  · exact NewArbitraryInt_upper _ 'B' d
      (trimSpace_prefixed '0' 'B' d (by decide) (by decide)
        (fun c hc => isHexDigit_of_isBinaryDigit c (hall c hc))) (by decide) (by decide)
      (by decide)

/-- C19 (amended) at the run `10`, which is both a hexadecimal and a binary run. -/
theorem NewArbitraryInt_prefix_case_sensitive_witness :
    "10".toList ≠ [] ∧ (∀ c ∈ "10".toList, isHexDigit c = true) ∧
      (∀ c ∈ "10".toList, isBinaryDigit c = true) ∧
      NewArbitraryInt ('0' :: 'X' :: "10".toList) = Result.error (Error.invalidFormat 10) ∧
      NewArbitraryInt ('0' :: 'B' :: "10".toList) = Result.error (Error.invalidFormat 10) :=
  ⟨by decide, by decide, by decide,
   ((NewArbitraryInt_prefix_case_sensitive "10".toList (by decide)).1 (by decide)).2,
   ((NewArbitraryInt_prefix_case_sensitive "10".toList (by decide)).2 (by decide)).2⟩

/-- C20 (the code at the failing input): the literals `-0`, `-000`, `0x-0` and `0b-0` are
accepted and give the limbs `[0]` with the sign flag set, a negative zero, while `0` gives the
sign flag `false`.  The negative zero prints as `0`, yet `Compare` places it below the zero
parsed from `0`, `Factorial` rejects it as a negative number where `0!` is `1`, and `Pow`
rejects it as a negative exponent where the exponent `0` gives `1`. -/
theorem NewArbitraryInt_negative_zero :
    NewArbitraryInt "-0".toList = Result.ok { digits := [0], negative := true } ∧
      NewArbitraryInt "-000".toList = Result.ok { digits := [0], negative := true } ∧
      NewArbitraryInt "0x-0".toList = Result.ok { digits := [0], negative := true } ∧
      NewArbitraryInt "0b-0".toList = Result.ok { digits := [0], negative := true } ∧
      NewArbitraryInt "0".toList = Result.ok { digits := [0], negative := false } ∧
      ArbitraryInt.String { digits := [0], negative := true } = "0".toList ∧
      Compare { digits := [0], negative := true } { digits := [0], negative := false } = -1 ∧
      (∀ fuel, Factorial fuel { digits := [0], negative := true } =
        some (Result.error Error.negativeArgument)) ∧
      (∀ fuel, Factorial fuel { digits := [0], negative := false } =
        some (Result.ok { digits := [1], negative := false })) ∧
      Pow { digits := [2], negative := false } { digits := [0], negative := true } =
        Result.error Error.negativeExponent ∧
      Pow { digits := [2], negative := false } { digits := [0], negative := false } =
        Result.ok { digits := [1], negative := false } := by
  refine ⟨by decide, by decide, by decide, by decide, by decide, by decide, by decide, ?_, ?_,
    by decide, by decide⟩
  · intro fuel
    simp [Factorial]
  · intro fuel
    simp [Factorial, foldLimbs, add32, two32, NewArbitraryInt_one]

/-- C21 (the code at the failing input): `Multiply` of the valid zero and `-5`, in either
order, returns the limbs `[0]` with the sign flag set (the XOR of the operand flags), and
`Compare` places that result below the valid zero. -/
theorem Multiply_zero_negative :
    Valid { digits := [0], negative := false } ∧ Valid { digits := [5], negative := true } ∧
      Multiply { digits := [0], negative := false } { digits := [5], negative := true } =
        { digits := [0], negative := true } ∧
      Multiply { digits := [5], negative := true } { digits := [0], negative := false } =
        { digits := [0], negative := true } ∧
      Compare (Multiply { digits := [0], negative := false } { digits := [5], negative := true })
        { digits := [0], negative := false } = -1 := by
  rw [Multiply_zero _ _ (by decide) (by decide) (Or.inl (by decide)),
    Multiply_zero _ _ (by decide) (by decide) (Or.inr (by decide))]
  decide

/-- C22 (the code at the failing input): with `a = b = -5`, `a.Subtract(b)` returns the limbs
`[0]` with the sign flag set, a negative zero, while `a.Add(negate(b))` returns `[0]` with the
sign flag `false`, as `Subtract` itself does on `a = b = 5`; `Compare` places the negative
zero below the zero that `5 - 5` gives. -/
theorem Subtract_equal_negatives :
    Valid ((Heap.ofList [⟨[5], true⟩, ⟨[5], true⟩]).read 0) ∧
      Valid ((Heap.ofList [⟨[5], true⟩, ⟨[5], true⟩]).read 1) ∧
      (Subtract (Heap.ofList [⟨[5], true⟩, ⟨[5], true⟩]) 0 1).1.read
        (Subtract (Heap.ofList [⟨[5], true⟩, ⟨[5], true⟩]) 0 1).2 = ⟨[0], true⟩ ∧
      negate ⟨[5], true⟩ = ⟨[5], false⟩ ∧
      (Add (Heap.ofList [⟨[5], true⟩, ⟨[5], true⟩, ⟨[5], false⟩]) 0 2).1.read
        (Add (Heap.ofList [⟨[5], true⟩, ⟨[5], true⟩, ⟨[5], false⟩]) 0 2).2 = ⟨[0], false⟩ ∧
      (Subtract (Heap.ofList [⟨[5], false⟩, ⟨[5], false⟩]) 0 1).1.read
        (Subtract (Heap.ofList [⟨[5], false⟩, ⟨[5], false⟩]) 0 1).2 = ⟨[0], false⟩ ∧
      Compare ⟨[0], true⟩ ⟨[0], false⟩ = -1 := by
  rw [Subtract_eq_SubtractE, Add_eq_AddE, Subtract_eq_SubtractE]
  decide

/-- C23: `Add` is commutative. For all valid operands `a` and `b` (any signs, aliased or not),
the calls `a.Add(b)` and `b.Add(a)`, each made on the same operand values, return the same
digits and the same sign flag. -/
theorem Add_commutative (h : Heap) (a b : Nat) (va : Valid (h.read a)) (vb : Valid (h.read b)) :
    (Add h a b).1.read (Add h a b).2 = (Add h b a).1.read (Add h b a).2 := by
  rw [Add_result, Add_result]
  rcases Bool.eq_false_or_eq_true (h.read a).negative with x | x <;>
    rcases Bool.eq_false_or_eq_true (h.read b).negative with y | y <;>
    simp only [x, y, and_self, if_true, Bool.true_eq_false, Bool.false_eq_true, and_false,
      false_and, if_false]
  · exact eq_of_digits_negative _ _
      (addMagnitudes_comm _ _ va.2.1 vb.2.1 va.1 vb.1) (by simp [addMagnitudes, x, y])
  · exact eq_of_digits_negative _ _
      (addMagnitudes_comm _ _ va.2.1 vb.2.1 va.1 vb.1) (by simp [addMagnitudes, x, y])

/-- C23 at `a = -5999999999` and `b = 7`. -/
theorem Add_commutative_witness :
    Valid ((Heap.ofList [⟨[999999999, 5], true⟩, ⟨[7], false⟩]).read 0) ∧
    Valid ((Heap.ofList [⟨[999999999, 5], true⟩, ⟨[7], false⟩]).read 1) ∧
    (Add (Heap.ofList [⟨[999999999, 5], true⟩, ⟨[7], false⟩]) 0 1).1.read
        (Add (Heap.ofList [⟨[999999999, 5], true⟩, ⟨[7], false⟩]) 0 1).2 =
      (Add (Heap.ofList [⟨[999999999, 5], true⟩, ⟨[7], false⟩]) 1 0).1.read
        (Add (Heap.ofList [⟨[999999999, 5], true⟩, ⟨[7], false⟩]) 1 0).2 :=
  ⟨by decide, by decide, Add_commutative _ 0 1 (by decide) (by decide)⟩

/-- C24: `Multiply` is commutative. For all valid `a` and `b` of any length, on the schoolbook
path and on the Karatsuba path alike, `Multiply a b` and `Multiply b a` return the same digits
and the same sign flag. -/
theorem Multiply_commutative (a b : ArbitraryInt) (va : Valid a) (vb : Valid b) :
    (Multiply a b).digits = (Multiply b a).digits ∧
      (Multiply a b).negative = (Multiply b a).negative := by
  rw [Multiply_comm a b va.2.1 vb.2.1]
  exact ⟨rfl, rfl⟩

/-- C24 on the schoolbook path (`-999999999999999999` and `999999999`) and on the Karatsuba
path (`10^288` and `-10^288`, of 33 limbs each). -/
theorem Multiply_commutative_witness :
    (Valid ⟨[999999999, 999999999], true⟩ ∧ Valid ⟨[999999999], false⟩ ∧
      (Multiply ⟨[999999999, 999999999], true⟩ ⟨[999999999], false⟩).digits =
        (Multiply ⟨[999999999], false⟩ ⟨[999999999, 999999999], true⟩).digits ∧
      (Multiply ⟨[999999999, 999999999], true⟩ ⟨[999999999], false⟩).negative =
        (Multiply ⟨[999999999], false⟩ ⟨[999999999, 999999999], true⟩).negative) ∧
    (Valid tenPow288 ∧ Valid ⟨tenPow288.digits, true⟩ ∧
      32 < tenPow288.digits.length ∧
      (Multiply tenPow288 ⟨tenPow288.digits, true⟩).digits =
        (Multiply ⟨tenPow288.digits, true⟩ tenPow288).digits ∧
      (Multiply tenPow288 ⟨tenPow288.digits, true⟩).negative =
        (Multiply ⟨tenPow288.digits, true⟩ tenPow288).negative) :=
  ⟨⟨by decide, by decide,
      Multiply_commutative ⟨[999999999, 999999999], true⟩ ⟨[999999999], false⟩ (by decide)
        (by decide)⟩,
    ⟨by decide, by decide, by decide,
      Multiply_commutative tenPow288 ⟨tenPow288.digits, true⟩ (by decide) (by decide)⟩⟩

/-- C25: the special cases of `Pow`, on the heap. For every allocated base `a` (valid or
not) and every exponent `e`: when `e` is the valid zero, `a.Pow(e)` returns no error but a
pointer to a new object, which holds the value `1` (digits `[1]`, sign flag `false`); when `e`
is the valid one, it returns no error but a pointer to a new object, another object than `a`,
which holds the digits and the sign flag of `a`.  In both cases every object allocated before
the call, `a` among them, is unchanged. -/
theorem Pow_special_cases (h : Heap) (a e : Nat) (ha : a < h.next) (ve : Valid (h.read e)) :
    (value (h.read e) = 0 →
      (h.Pow a e).2 = Result.ok h.next ∧
        (h.Pow a e).1.read h.next = { digits := [1], negative := false } ∧
        ∀ p, p < h.next → (h.Pow a e).1.read p = h.read p) ∧
    (value (h.read e) = 1 →
      (h.Pow a e).2 = Result.ok h.next ∧ h.next ≠ a ∧
        ((h.Pow a e).1.read h.next).digits = (h.read a).digits ∧
        ((h.Pow a e).1.read h.next).negative = (h.read a).negative ∧
        ∀ p, p < h.next → (h.Pow a e).1.read p = h.read p) := by
  constructor
  · intro h0
    have he := valid_of_value_eq (h.read e) ve 0 (by decide) (by exact_mod_cast h0)
    obtain ⟨a1, a2, a3, a4⟩ := alloc_spec h { digits := [1], negative := false }
    have hf : foldLimbs [0] = 0 := by decide
    unfold Heap.Pow
    rw [he]
    simp only [Bool.false_eq_true, if_false, hf, if_true, Heap.NewArbitraryInt,
      NewArbitraryInt_one]
    exact ⟨by rw [a1], a3, a4⟩
  · intro h1
    have he := valid_of_value_eq (h.read e) ve 1 (by decide) (by exact_mod_cast h1)
    obtain ⟨c1, c2, c3, c4, c5⟩ := copy_heap_spec h a ha
    have hf : foldLimbs [1] = 1 := by decide
    have hf0 : ¬(1 : Nat) = 0 := by decide
    unfold Heap.Pow
    rw [he]
    simp only [Bool.false_eq_true, if_false, hf, hf0, if_true]
    refine ⟨by rw [c1], by omega, ?_, ?_, c5⟩
    · rw [c4]; rfl
    · rw [c4]; rfl

/-- C25 at the base `-12000000007`, held at pointer `0`, with the exponents `0` and `1`, held
at the pointers `1` and `2`: the result is at the new pointer `3`. -/
theorem Pow_special_cases_witness :
    (0 : Nat) < (Heap.ofList [⟨[7, 12], true⟩, ⟨[0], false⟩, ⟨[1], false⟩]).next ∧
    Valid ((Heap.ofList [⟨[7, 12], true⟩, ⟨[0], false⟩, ⟨[1], false⟩]).read 1) ∧
    Valid ((Heap.ofList [⟨[7, 12], true⟩, ⟨[0], false⟩, ⟨[1], false⟩]).read 2) ∧
    value ((Heap.ofList [⟨[7, 12], true⟩, ⟨[0], false⟩, ⟨[1], false⟩]).read 1) = 0 ∧
    value ((Heap.ofList [⟨[7, 12], true⟩, ⟨[0], false⟩, ⟨[1], false⟩]).read 2) = 1 ∧
    (((Heap.ofList [⟨[7, 12], true⟩, ⟨[0], false⟩, ⟨[1], false⟩]).Pow 0 1).2 =
        Result.ok (Heap.ofList [⟨[7, 12], true⟩, ⟨[0], false⟩, ⟨[1], false⟩]).next ∧
      ((Heap.ofList [⟨[7, 12], true⟩, ⟨[0], false⟩, ⟨[1], false⟩]).Pow 0 1).1.read
          (Heap.ofList [⟨[7, 12], true⟩, ⟨[0], false⟩, ⟨[1], false⟩]).next =
        { digits := [1], negative := false } ∧
      ∀ p, p < (Heap.ofList [⟨[7, 12], true⟩, ⟨[0], false⟩, ⟨[1], false⟩]).next →
        ((Heap.ofList [⟨[7, 12], true⟩, ⟨[0], false⟩, ⟨[1], false⟩]).Pow 0 1).1.read p =
          (Heap.ofList [⟨[7, 12], true⟩, ⟨[0], false⟩, ⟨[1], false⟩]).read p) ∧
    (((Heap.ofList [⟨[7, 12], true⟩, ⟨[0], false⟩, ⟨[1], false⟩]).Pow 0 2).2 =
        Result.ok (Heap.ofList [⟨[7, 12], true⟩, ⟨[0], false⟩, ⟨[1], false⟩]).next ∧
      (Heap.ofList [⟨[7, 12], true⟩, ⟨[0], false⟩, ⟨[1], false⟩]).next ≠ 0 ∧
      (((Heap.ofList [⟨[7, 12], true⟩, ⟨[0], false⟩, ⟨[1], false⟩]).Pow 0 2).1.read
          (Heap.ofList [⟨[7, 12], true⟩, ⟨[0], false⟩, ⟨[1], false⟩]).next).digits =
        ((Heap.ofList [⟨[7, 12], true⟩, ⟨[0], false⟩, ⟨[1], false⟩]).read 0).digits ∧
      (((Heap.ofList [⟨[7, 12], true⟩, ⟨[0], false⟩, ⟨[1], false⟩]).Pow 0 2).1.read
          (Heap.ofList [⟨[7, 12], true⟩, ⟨[0], false⟩, ⟨[1], false⟩]).next).negative =
        ((Heap.ofList [⟨[7, 12], true⟩, ⟨[0], false⟩, ⟨[1], false⟩]).read 0).negative ∧
      ∀ p, p < (Heap.ofList [⟨[7, 12], true⟩, ⟨[0], false⟩, ⟨[1], false⟩]).next →
        ((Heap.ofList [⟨[7, 12], true⟩, ⟨[0], false⟩, ⟨[1], false⟩]).Pow 0 2).1.read p =
          (Heap.ofList [⟨[7, 12], true⟩, ⟨[0], false⟩, ⟨[1], false⟩]).read p) :=
  ⟨by decide, by decide, by decide, by decide, by decide,
    (Pow_special_cases (Heap.ofList [⟨[7, 12], true⟩, ⟨[0], false⟩, ⟨[1], false⟩]) 0 1
      (by decide) (by decide)).1 (by decide),
    (Pow_special_cases (Heap.ofList [⟨[7, 12], true⟩, ⟨[0], false⟩, ⟨[1], false⟩]) 0 2
      (by decide) (by decide)).2 (by decide)⟩

/-- C26 (the code at the failing input): `BaseConvert(1024, 10, 2)` builds the base-2 numeral
`10000000000` (11 characters) and parses it with `NewArbitraryInt`, which cuts it into the
chunks `100000000` and `00` from the left: the result has the limbs `[0, 100000000]` and is
printed as `100000000000000000`, not as `10000000000`. -/
theorem BaseConvert_misaligned :
    Valid { digits := [1024], negative := false } ∧
      ArbitraryInt.String { digits := [1024], negative := false } = "1024".toList ∧
      setStringSigned "1024".toList 10 = some 1024 ∧
      intText 2 1024 = "10000000000".toList ∧
      BaseConvert { digits := [1024], negative := false } 10 2 =
        Result.ok { digits := [0, 100000000], negative := false } ∧
      ArbitraryInt.String { digits := [0, 100000000], negative := false } =
        "100000000000000000".toList ∧
      ArbitraryInt.String { digits := [0, 100000000], negative := false } ≠ intText 2 1024 := by
  decide

/-- C27 (the code at the failing input): `BaseConvert(255, 10, 16)` builds the numeral `ff`,
which `NewArbitraryInt` rejects, so the call fails; and `BaseConvert(1024, 10, 2)` returns the
limbs `[0, 100000000]`, from which `BaseConvert(w, 2, 10)` returns `131072`, not `1024`. -/
theorem BaseConvert_round_trip_fails :
    Valid { digits := [255], negative := false } ∧
      intText 16 255 = "ff".toList ∧
      BaseConvert { digits := [255], negative := false } 10 16 =
        Result.error (Error.createFailed 16) ∧
      Valid { digits := [1024], negative := false } ∧
      BaseConvert { digits := [1024], negative := false } 10 2 =
        Result.ok { digits := [0, 100000000], negative := false } ∧
      BaseConvert { digits := [0, 100000000], negative := false } 2 10 =
        Result.ok { digits := [131072], negative := false } := by
  decide

/-- C28: structural well-formedness is preserved by every core operation. Every value a
successful `NewArbitraryInt` returns, and, for valid operands, every value returned by `Add`,
by `Subtract`, by `Multiply` (on the schoolbook path and on the Karatsuba path) and by
`Divide` (the quotient and the remainder, for a divisor that is not zero), has a non-empty
digit sequence, every limb in `[0, 10^9)`, and no most significant zero limb unless it is the
single limb `0`. -/
theorem core_operations_wellFormed :
    (∀ (s : List Char) (v : ArbitraryInt), NewArbitraryInt s = Result.ok v →
      WellFormed v.digits) ∧
    (∀ (h : Heap) (a b : Nat), Valid (h.read a) → Valid (h.read b) →
      WellFormed ((Add h a b).1.read (Add h a b).2).digits) ∧
    (∀ (h : Heap) (a b : Nat), b < h.next → Valid (h.read a) → Valid (h.read b) →
      WellFormed ((Subtract h a b).1.read (Subtract h a b).2).digits) ∧
    (∀ a b : ArbitraryInt, Valid a → Valid b → WellFormed (Multiply a b).digits) ∧
    (∀ (fuel : Nat) (a b : ArbitraryInt), 1000000000 ≤ fuel → Valid a → Valid b →
      value b ≠ 0 →
      ∃ q r, Divide fuel a b = some (Result.ok (q, r)) ∧ WellFormed q.digits ∧
        WellFormed r.digits) := by
  refine ⟨NewArbitraryInt_wellFormed, ?_, ?_, ?_, ?_⟩
  · intro h a b va vb
    exact Add_wellFormed h a b va.wellFormed vb.wellFormed
  · intro h a b hb va vb
    exact Subtract_wellFormed h a b hb va.wellFormed vb.wellFormed
  · intro a b va vb
    exact Multiply_wellFormed a b va.2.1 vb.2.1
  · intro fuel a b hf va vb hb
    have hpos : 0 < magnitude b.digits :=
      Nat.pos_of_ne_zero (fun h => hb ((value_eq_zero_iff b).mpr h))
    obtain ⟨q, r, e, -, -, -, -, w1, w2⟩ :=
      Divide_spec fuel hf a b va.wellFormed vb.wellFormed hpos
    exact ⟨q, r, e, w1, w2⟩

/-- C28 at the literal `0x-00ff`, at `-5999999999 + 7` and `5 - (-3000000007)`, at the
product of `10^288` with itself (Karatsuba path) and at `-7000000005 / 3`. -/
theorem core_operations_wellFormed_witness :
    (NewArbitraryInt "0x-00ff".toList = Result.ok { digits := [255], negative := true } ∧
      WellFormed ({ digits := [255], negative := true } : ArbitraryInt).digits) ∧
    (Valid ((Heap.ofList [⟨[999999999, 5], true⟩, ⟨[7], false⟩]).read 0) ∧
      Valid ((Heap.ofList [⟨[999999999, 5], true⟩, ⟨[7], false⟩]).read 1) ∧
      WellFormed ((Add (Heap.ofList [⟨[999999999, 5], true⟩, ⟨[7], false⟩]) 0 1).1.read
        (Add (Heap.ofList [⟨[999999999, 5], true⟩, ⟨[7], false⟩]) 0 1).2).digits) ∧
    ((1 : Nat) < (Heap.ofList [⟨[5], false⟩, ⟨[7, 3], true⟩]).next ∧
      Valid ((Heap.ofList [⟨[5], false⟩, ⟨[7, 3], true⟩]).read 0) ∧
      Valid ((Heap.ofList [⟨[5], false⟩, ⟨[7, 3], true⟩]).read 1) ∧
      WellFormed ((Subtract (Heap.ofList [⟨[5], false⟩, ⟨[7, 3], true⟩]) 0 1).1.read
        (Subtract (Heap.ofList [⟨[5], false⟩, ⟨[7, 3], true⟩]) 0 1).2).digits) ∧
    (Valid tenPow288 ∧ 32 < tenPow288.digits.length ∧
      WellFormed (Multiply tenPow288 tenPow288).digits) ∧
    (Valid { digits := [5, 7], negative := true } ∧ Valid { digits := [3], negative := false } ∧
      value { digits := [3], negative := false } ≠ 0 ∧
      ∃ q r, Divide 1000000000 { digits := [5, 7], negative := true }
          { digits := [3], negative := false } = some (Result.ok (q, r)) ∧
        WellFormed q.digits ∧ WellFormed r.digits) :=
  ⟨⟨by decide, core_operations_wellFormed.1 "0x-00ff".toList
      { digits := [255], negative := true } (by decide)⟩,
    ⟨by decide, by decide, core_operations_wellFormed.2.1 _ 0 1 (by decide) (by decide)⟩,
    ⟨by decide, by decide, by decide,
      core_operations_wellFormed.2.2.1 _ 0 1 (by decide) (by decide) (by decide)⟩,
    ⟨by decide, by decide,
      core_operations_wellFormed.2.2.2.1 tenPow288 tenPow288 (by decide) (by decide)⟩,
    ⟨by decide, by decide, by decide,
      core_operations_wellFormed.2.2.2.2 1000000000 { digits := [5, 7], negative := true }
        { digits := [3], negative := false } (le_refl _) (by decide) (by decide) (by decide)⟩⟩

/-- C29: schoolbook multiplication never overflows its machine words. For operands whose
limbs all lie in `[0, 10^9)`, in every row of `longMultiply` every accumulator
`multiplier*multiplicand + result[i+j] + carry`, taken as a natural number, is below `2^64`,
the carry it leaves and the limb it stores are below `10^9`; the carry left after the inner
loop is below `10^9`, the limb at `i+len(b.digits)` is zero before that carry is added, so
their sum is below `10^9`; and every limb of the buffer after the loops, and of the result,
is below `10^9`. -/
theorem longMultiply_no_overflow (a b : ArbitraryInt) (negative : Bool)
    (ha : LimbsOk a.digits) (hb : LimbsOk b.digits) :
    (∀ row ∈ mulOuterRows b.digits a.digits 0
        (List.replicate (a.digits.length + b.digits.length) 0),
      (∀ p ∈ row.1, p < two64 ∧ p / digitBase < digitBase ∧ p % digitBase < digitBase) ∧
        row.2.1 < digitBase ∧ row.2.2 = 0 ∧ row.2.2 + row.2.1 < digitBase) ∧
      LimbsOk (mulOuter b.digits a.digits 0
        (List.replicate (a.digits.length + b.digits.length) 0)) ∧
      LimbsOk (longMultiply a b negative).digits := by
  obtain ⟨h1, h2⟩ := longMultiply_words a.digits b.digits ha hb
  refine ⟨?_, h2, (longMultiply_spec a b negative ha hb).2.2.2.1⟩
  intro row hrow
  obtain ⟨r1, r2, r3⟩ := h1 row hrow
  simp only [two64, digitBase]
  refine ⟨fun p hp => ⟨(r1 p hp).1, (r1 p hp).2, Nat.mod_lt _ (by decide)⟩, r2, r3, ?_⟩
  rw [r3]; omega

/-- C29 at the operands `999999999999999999` and `999999999999999999`, whose limbs are the
largest possible. -/
theorem longMultiply_no_overflow_witness :
    LimbsOk [999999999, 999999999] ∧
    ((∀ row ∈ mulOuterRows [999999999, 999999999] [999999999, 999999999] 0
        (List.replicate (2 + 2) 0),
      (∀ p ∈ row.1, p < two64 ∧ p / digitBase < digitBase ∧ p % digitBase < digitBase) ∧
        row.2.1 < digitBase ∧ row.2.2 = 0 ∧ row.2.2 + row.2.1 < digitBase) ∧
      LimbsOk (mulOuter [999999999, 999999999] [999999999, 999999999] 0
        (List.replicate (2 + 2) 0)) ∧
      LimbsOk (longMultiply { digits := [999999999, 999999999], negative := false }
        { digits := [999999999, 999999999], negative := true } true).digits) :=
  ⟨by decide,
    longMultiply_no_overflow { digits := [999999999, 999999999], negative := false }
      { digits := [999999999, 999999999], negative := true } true (by decide) (by decide)⟩

/-- C30: `Divide` terminates. For every valid dividend `a` and every valid divisor `b` that
is not zero: subtracting the divisor from a well-formed partial remainder that compares
`>=` it gives a well-formed remainder of strictly smaller magnitude; an inner loop started on
a well-formed remainder below `10^9` times the divisor stops within `10^9` iterations; and
`Divide` returns a quotient and a remainder for every bound of at least `10^9` on the
iterations of the inner loop, the same for every such bound. -/
theorem Divide_terminates (a b : ArbitraryInt) (va : Valid a) (vb : Valid b)
    (hb : value b ≠ 0) :
    (∀ remainder : ArbitraryInt, WellFormed remainder.digits →
      compareAbsolute remainder (Abs b) ≥ 0 →
      WellFormed (subtractAbsolute remainder (Abs b)).digits ∧
        magnitude (subtractAbsolute remainder (Abs b)).digits < magnitude remainder.digits) ∧
    (∀ remainder : ArbitraryInt, WellFormed remainder.digits →
      magnitude remainder.digits < 1000000000 * magnitude b.digits →
      ∃ r multiple, divideInner 1000000000 remainder (Abs b) 0 = some (r, multiple)) ∧
    (∃ q r, ∀ fuel, 1000000000 ≤ fuel → Divide fuel a b = some (Result.ok (q, r))) := by
  have hpos : 0 < magnitude b.digits :=
    Nat.pos_of_ne_zero (fun h => hb ((value_eq_zero_iff b).mpr h))
  have wb : WellFormed (Abs b).digits := vb.wellFormed
  refine ⟨?_, ?_, ?_⟩
  · intro remainder wr hge
    have hle : magnitude (Abs b).digits ≤ magnitude remainder.digits := by
      have := (compareAbsolute_neg_iff remainder (Abs b) wr wb).not
      omega
    obtain ⟨w, m⟩ := subtractAbsolute_spec remainder (Abs b) wr wb hle
    refine ⟨w, ?_⟩
    have : magnitude (Abs b).digits = magnitude b.digits := rfl
    omega
  · intro remainder wr hlt
    have hq : magnitude remainder.digits / magnitude (Abs b).digits < 1000000000 := by
      show magnitude remainder.digits / magnitude b.digits < 1000000000
      rw [Nat.div_lt_iff_lt_mul hpos]; exact hlt
    obtain ⟨r, hr, -⟩ := divideInner_spec (Abs b) wb hpos 1000000000 remainder 0 wr hq
      (by omega)
    exact ⟨r, _, hr⟩
  · obtain ⟨q, r, e, m1, m2, s1, s2, w1, w2⟩ :=
      Divide_spec 1000000000 (le_refl _) a b va.wellFormed vb.wellFormed hpos
    refine ⟨q, r, ?_⟩
    intro fuel hf
    obtain ⟨q', r', e', m1', m2', s1', s2', w1', w2'⟩ :=
      Divide_spec fuel hf a b va.wellFormed vb.wellFormed hpos
    rw [e', eq_of_spec q' q w1' w1 (by omega) (by rw [s1, s1']),
      eq_of_spec r' r w2' w2 (by omega) (by rw [s2, s2'])]

/-- C30 at the dividend `-7000000005` and the divisor `3`. -/
theorem Divide_terminates_witness :
    Valid { digits := [5, 7], negative := true } ∧ Valid { digits := [3], negative := false } ∧
    value { digits := [3], negative := false } ≠ 0 ∧
    ∃ q r, ∀ fuel, 1000000000 ≤ fuel →
      Divide fuel { digits := [5, 7], negative := true } { digits := [3], negative := false } =
        some (Result.ok (q, r)) :=
  ⟨by decide, by decide, by decide,
    (Divide_terminates { digits := [5, 7], negative := true } { digits := [3], negative := false }
      (by decide) (by decide) (by decide)).2.2⟩

end APCalc
